import Mathlib

/-!
BACO base converter: embedding of `baco.c` and its verified properties.

The C functions of `baco.c` are embedded as Lean functions of the same name.

Modelling conventions.

* A C string is a `List Char`: the characters before the terminating NUL, one
  list element per `char`, with `Char.toNat` as the character code (ASCII).
* The fixed blocks a function copies a text into (`char num_int[100]` and
  `num_dec[100]` in `rad_to_dec`, the `malloc(128)` of `dec_to_co1`,
  `dec_to_co2` and `dec_to_mes`) are modelled: the function is `none` when a text
  does not fit, where the behaviour of the C program is undefined.  The buffer a
  caller passes in is unbounded, memory returned by `malloc` starts out as the
  empty string, and allocation never fails.
* `long double` is the x87 extended format: a value is a rational number, and the
  result of an operation that rounds in the source (`powl`, the products and sums
  of `rad_to_dec`, the subtraction of `co2_to_dec`, the operations of the
  fraction loop of `dec_to_rad`) is rounded to a significand of 64 bits, ties to
  even (`round_ld`).  The range of the exponent, infinities and NaN are not
  modelled.  `fmodl` and `modfl` are exact, as they are in the library; the
  division of the `do ... while` loop of `dec_to_rad` and the sums of `bcd_to_dec`
  and `rom_to_dec` are taken exactly.
* `unsigned` is a natural number below `2 ^ 32`; arithmetic that is carried out
  in `unsigned` in the source is reduced modulo `2 ^ 32` explicitly.
* A conversion of a `long double` to `int` truncates toward zero.  Outside the
  range of `int` the C standard leaves the conversion undefined; the model
  returns `INT_MIN`, the value stored by the x86 conversion instructions.  A
  conversion to `unsigned` truncates; outside the range of `unsigned` it is
  undefined as well, and the model returns what the x86-64 code does (see
  `unsigned_cast`).
* Lines written to `stderr` are returned as a list of strings next to the value
  the function returns.  A `NULL` result is `none`.
* `sprintf("%Lf")` prints the value rounded to six decimal places (ties to
  even), with the sign `'-'` when the sign bit is set, also for a zero; `atof`
  reads the text back as the nearest `double`, and keeps the sign.
  `sprintf("%.0Lf")` prints the value rounded to an integer.
* `atof` applied to the user's literal is a parameter of `conversion`.
* The `do ... while` loop of `dec_to_rad` is run for a bounded number of rounds;
  `dec_to_rad_terminates` shows that the bound is not reached at a base from 2 on.
-/

namespace Baco

/-! ## Constants and the registry (`baco.c`, lines 22-69) -/

/-- Enumeration `commands`, first member. -/
def FIRST : Nat := 0
/-- Enumeration `commands`: Binary Coded Decimal. -/
def BCD : Nat := 1
/-- Enumeration `commands`: binary base. -/
def BIN : Nat := 2
/-- Enumeration `commands`: ones' complement. -/
def CO1 : Nat := 3
/-- Enumeration `commands`: two's complement. -/
def CO2 : Nat := 4
/-- Enumeration `commands`: decimal base. -/
def DEC : Nat := 5
/-- Enumeration `commands`: floating point. -/
def FLT : Nat := 6
/-- Enumeration `commands`: hexadecimal base. -/
def HEX : Nat := 7
/-- Enumeration `commands`: signed magnitude representation. -/
def MES : Nat := 8
/-- Enumeration `commands`: octal base. -/
def OCT : Nat := 9
/-- Enumeration `commands`: Roman numerals. -/
def ROM : Nat := 10

/-- The `struct codify`; `name` holds `name[0]`, the only alias the validation prints. -/
structure codify where
  id : Nat
  signf : Nat
  signt : Nat
  decimal : Nat
  name : String
deriving DecidableEq, Repr

/-- The table `code[]`. -/
def code : List codify :=
  [ { id := 0, signf := 0, signt := 0, decimal := 0, name := "" },
    { id := BCD, signf := 0, signt := 0, decimal := 0, name := "Binary Coded Decimal" },
    { id := BIN, signf := 1, signt := 1, decimal := 1, name := "Binary Base" },
    { id := CO1, signf := 0, signt := 1, decimal := 0, name := "Ones' Complement" },
    { id := CO2, signf := 0, signt := 1, decimal := 0, name := "Two's Complement" },
    { id := DEC, signf := 1, signt := 1, decimal := 1, name := "Decimal Base" },
    { id := FLT, signf := 1, signt := 1, decimal := 1, name := "Floating Point" },
    { id := HEX, signf := 1, signt := 1, decimal := 1, name := "Hexadecimal Base" },
    { id := MES, signf := 0, signt := 1, decimal := 0, name := "Signed Magnitude Representation" },
    { id := OCT, signf := 1, signt := 1, decimal := 1, name := "Octal Base" },
    { id := ROM, signf := 0, signt := 0, decimal := 0, name := "Roman Numerals" } ]

/-- The macro `PRECISION`. -/
def PRECISION : Nat := 20

/-- The macro `SCRAP`: base `b` has the encoding id `SCRAP + b`. -/
def SCRAP : Nat := 100

/-- The number of values of the type `unsigned`. -/
def UINT_RANGE : Nat := 4294967296

/-- Subtraction `a - b` carried out in `unsigned`. -/
def usub (a b : Nat) : Nat := (a + UINT_RANGE - b % UINT_RANGE) % UINT_RANGE

/-! ## The C library -/

/-- The function `isdigit` of `ctype.h` in the C locale. -/
def isdigit (c : Char) : Bool := decide (48 ≤ c.toNat) && decide (c.toNat ≤ 57)

/-- The function `isalpha` of `ctype.h` in the C locale. -/
def isalpha (c : Char) : Bool :=
  (decide (65 ≤ c.toNat) && decide (c.toNat ≤ 90)) || (decide (97 ≤ c.toNat) && decide (c.toNat ≤ 122))

/-- The function `toupper` of `ctype.h` in the C locale; the result is a character code. -/
def toupper (c : Char) : Nat :=
  if 97 ≤ c.toNat ∧ c.toNat ≤ 122 then c.toNat - 32 else c.toNat

/-- Truncation toward zero. -/
def trunc (x : ℚ) : Int := if 0 ≤ x then ⌊x⌋ else ⌈x⌉

/-- The cast `(int) x` of a `long double`. -/
def int_cast (x : ℚ) : Int :=
  if -2147483648 ≤ trunc x ∧ trunc x ≤ 2147483647 then trunc x else -2147483648

/-- The conversion of a `long double` to `unsigned`: the value is truncated.  Outside the
range of `unsigned` the x86-64 code converts to a 64-bit integer and keeps the low 32
bits, and a value outside the 64-bit range gives 0. -/
def unsigned_cast (x : ℚ) : Nat :=
  if -9223372036854775808 ≤ trunc x ∧ trunc x < 9223372036854775808 then
    (trunc x % (UINT_RANGE : Int)).toNat
  else 0

/-- The function `fmodl`: the remainder of `x / y` with the sign of `x`. -/
def fmodl (x y : ℚ) : ℚ := x - y * (trunc (x / y) : ℚ)

/-- Rounding to the nearest integer, ties to even, as `printf` does. -/
def round_even (x : ℚ) : Int :=
  let f := ⌊x⌋
  let r := x - (f : ℚ)
  if r < 1 / 2 then f
  else if 1 / 2 < r then f + 1
  else if f % 2 = 0 then f else f + 1

/-- The exponent search: halve `n` until it is below 2, at most `fuel` times. -/
def log2_loop : Nat → Nat → Nat
  | 0, _ => 0
  | fuel + 1, n => if 2 ≤ n then log2_loop fuel (n / 2) + 1 else 0

/-- The position of the leading bit of a natural number. -/
def nat_log2 (n : Nat) : Nat := log2_loop n n

/-- The binary exponent of a non-zero value: `2 ^ e ≤ |x| < 2 ^ (e + 1)`. -/
def binary_exponent (x : ℚ) : Int :=
  let a : Int := (nat_log2 x.num.natAbs : Int) - (nat_log2 x.den : Int)
  if (2 : ℚ) ^ a ≤ |x| then a else a - 1

/-- Rounding to the nearest value with a significand of `p` bits, ties to even; the
range of the exponent is not limited. -/
def round_bits (p : Nat) (x : ℚ) : ℚ :=
  if x = 0 then 0
  else
    let s : Int := binary_exponent x - ((p : Int) - 1)
    (round_even (x / (2 : ℚ) ^ s) : ℚ) * (2 : ℚ) ^ s

/-- Rounding to `long double`, the x87 extended format with a significand of 64 bits:
the result of every arithmetic operation on `long double`. -/
def round_ld (x : ℚ) : ℚ := round_bits 64 x

/-- Rounding to `double`, a significand of 53 bits: the value `atof` returns for a
decimal text. -/
def round_double (x : ℚ) : ℚ := round_bits 53 x

/-- The function `powl` at an integer exponent: the power, rounded to `long double`. -/
def powl (x : ℚ) (j : Int) : ℚ := round_ld (x ^ j)

/-- The value of the text `sprintf("%Lf", x)` prints: `x` rounded to six decimal places. -/
def round6 (x : ℚ) : ℚ := (round_even (x * 1000000) : ℚ) / 1000000

/-- The first character of the text `sprintf("%Lf", x)` prints, for a value with the sign
bit `neg` and the printed value `shown`: the sign, or the first digit of the integer
part. -/
def sprintf_Lf_head (neg : Bool) (shown : ℚ) : Char :=
  if neg then '-' else (Nat.toDigits 10 (trunc shown).toNat).headD '0'

/-- The text printed by `sprintf("%.0Lf", x)`. -/
def sprintf_0Lf (x : ℚ) : List Char :=
  (if x < 0 then ['-'] else []) ++ Nat.toDigits 10 (round_even x).natAbs

/-- The text of one digit: `sprintf("%u", v)` for `v < 10`, else
`sprintf("%c", v - 10 + 'A')`. -/
def digit_char (v : Nat) : Char :=
  if v < 10 then Char.ofNat (v + 48) else Char.ofNat (v - 10 + 65)

/-- The value `rad_to_dec` gives a character: `c - '0'` when `isdigit(c)`, else
`toupper(c) - 'A' + 10`. -/
def digit_val (c : Char) : Int :=
  if isdigit c then (c.toNat : Int) - 48 else (toupper c : Int) - 65 + 10

/-! ## Auxiliary functions (`baco.c`, lines 1070-1196) -/

/-- The function `binary_sum1`: `count` is the number of `'1'` characters at the end of `bin`. -/
def binary_sum1 (bin : List Char) : List Char :=
  let len := bin.length
  let count := (bin.reverse.takeWhile (fun c => c == '1')).length
  if count < len then
    bin.take (len - count - 1) ++ '1' :: List.replicate count '0'
  else
    '1' :: List.replicate count '0'

/-- The function `c1_converter`. -/
def c1_converter (bin : List Char) : List Char :=
  bin.map (fun c => if c = '0' then '1' else '0')

/-- The loop of `check_base`: the counters `count` and `point` after the scan. -/
def check_base_loop (base : Nat) : List Char → Nat × Nat → Nat × Nat
  | [], st => st
  | c :: cs, (count, point) =>
    if (((c.toNat : Int) - 48) % (UINT_RANGE : Int)).toNat < base then
      check_base_loop base cs (count + 1, point)
    else if 65 ≤ toupper c ∧ toupper c ≤ usub ((base + 65) % UINT_RANGE) 11 then
      check_base_loop base cs (count + 1, point)
    else if c = '.' then
      check_base_loop base cs (count + 1, point + 1)
    else
      check_base_loop base cs (count, point)

/-- The function `check_base`. -/
def check_base (x : List Char) (base : Nat) : Int × List String :=
  let count0 := if x.head? = some '-' then 1 else 0
  let st := check_base_loop base x (count0, 0)
  if st.1 = x.length ∧ st.2 < 2 then (0, [])
  else (1, ["Inserted number is not in base " ++ toString base ++ "."])

/-- The function `remove_symbols`. -/
def remove_symbols (str : List Char) : List Char := str.filter isdigit

/-! ## Conversions to decimal (`baco.c`, lines 551-799) -/

/-- The chain of comparisons in the loop of `bcd_to_dec`: the factor of `j`. -/
def bcd_group (a b c d : Char) : Option Nat :=
  if a = '0' ∧ b = '0' ∧ c = '0' ∧ d = '1' then some 1
  else if a = '0' ∧ b = '0' ∧ c = '1' ∧ d = '0' then some 2
  else if a = '0' ∧ b = '0' ∧ c = '1' ∧ d = '1' then some 3
  else if a = '0' ∧ b = '1' ∧ c = '0' ∧ d = '0' then some 4
  else if a = '0' ∧ b = '1' ∧ c = '0' ∧ d = '1' then some 5
  else if a = '0' ∧ b = '1' ∧ c = '1' ∧ d = '0' then some 6
  else if a = '0' ∧ b = '1' ∧ c = '1' ∧ d = '1' then some 7
  else if a = '1' ∧ b = '0' ∧ c = '0' ∧ d = '0' then some 8
  else if a = '1' ∧ b = '0' ∧ c = '0' ∧ d = '1' then some 9
  else none

/-- The loop of `bcd_to_dec` over the characters from index `i` on; `j` is `unsigned`,
and so is the product `k * j`. -/
def bcd_to_dec_loop : List Char → Nat → ℚ → ℚ
  | a :: b :: c :: d :: rest, j, dec =>
    match bcd_group a b c d with
    | some k => bcd_to_dec_loop rest (j / 10) (dec + ((k * j % UINT_RANGE : Nat) : ℚ))
    | none => -1
  | _, _, dec => dec

/-- The function `bcd_to_dec`.  For the empty string the loop body does not run and the
initial value of `j` is not used. -/
def bcd_to_dec (bcd : List Char) : ℚ :=
  let len := bcd.length
  if len % 4 ≠ 0 then -1
  else bcd_to_dec_loop bcd (unsigned_cast (powl 10 ((len / 4 - 1 : Nat) : Int))) 0

/-- The first loop of `rad_to_dec`, over the integer part from its last character on.
The power, the product and the sum are operations on `long double`. -/
def rad_to_dec_int (base : Nat) : List Char → Nat → ℚ → ℚ
  | [], _, dec => dec
  | c :: cs, j, dec =>
    rad_to_dec_int base cs (j + 1)
      (round_ld (dec + round_ld ((digit_val c : ℚ) * powl base (j : Int))))

/-- The second loop of `rad_to_dec`, over the part after the point; `j` is decremented
before it is used. -/
def rad_to_dec_frac (base : Nat) : List Char → Int → ℚ → ℚ
  | [], _, dec => dec
  | c :: cs, j, dec =>
    rad_to_dec_frac base cs (j - 1)
      (round_ld (dec + round_ld ((digit_val c : ℚ) * powl base (j - 1))))

/-- The function `rad_to_dec`.  The integer part is copied into `num_int[100]` and the
part after the point into `num_dec[100]`; the result is `none` when one of them has 100
characters or more, where the copy runs over the array. -/
def rad_to_dec (num : List Char) (base : Nat) : Option ℚ :=
  let sign := decide (num.head? = some '-')
  let num := if sign then num.tail else num
  let num_int := num.takeWhile (fun c => c != '.')
  let num_dec := (num.dropWhile (fun c => c != '.')).tail
  if 100 ≤ num_int.length ∨ ('.' ∈ num ∧ 100 ≤ num_dec.length) then none
  else
    let dec := rad_to_dec_int base num_int.reverse 0 0
    let dec := if '.' ∈ num then rad_to_dec_frac base num_dec 0 dec else dec
    some (if sign then -1 * dec else dec)

/-- The function `co1_to_dec`. -/
def co1_to_dec (c1 : List Char) : Option ℚ :=
  if c1.head? = some '1' then (rad_to_dec (c1_converter c1) 2).map (fun dec => dec * -1)
  else rad_to_dec c1 2

/-- The function `co2_to_dec`; the subtraction is an operation on `long double`. -/
def co2_to_dec (c2 : List Char) : Option ℚ :=
  if c2.head? = some '1' then (co1_to_dec c2).map (fun dec => round_ld (dec - 1))
  else rad_to_dec c2 2

/-- The function `mes_to_dec`. -/
def mes_to_dec (ms : List Char) : Option ℚ :=
  let m := '0' :: ms.tail
  (rad_to_dec m 2).map (fun dec => if ms.head? = some '1' then dec * -1 else dec)

/-- The `switch` of `rom_to_dec`: the priority and the value of a symbol. -/
def rom_symbol (c : Nat) : Option (Nat × ℚ) :=
  if c = 'I'.toNat then some (1, 1)
  else if c = 'V'.toNat then some (2, 5)
  else if c = 'X'.toNat then some (3, 10)
  else if c = 'L'.toNat then some (4, 50)
  else if c = 'C'.toNat then some (5, 100)
  else if c = 'D'.toNat then some (6, 500)
  else if c = 'M'.toNat then some (7, 1000)
  else none

/-- The loop of `rom_to_dec`, over the string from its last character on. -/
def rom_to_dec_loop : List Char → Nat → ℚ → ℚ × List String
  | [], _, dec => (dec, [])
  | c :: cs, priority, dec =>
    match rom_symbol (toupper c) with
    | some (p, v) => rom_to_dec_loop cs p (if priority ≤ p then dec + v else dec - v)
    | none => (0, ["The codify is not correct."])

/-- The function `rom_to_dec`. -/
def rom_to_dec (rom : List Char) : ℚ × List String :=
  rom_to_dec_loop rom.reverse 0 0

/-! ## Conversions from decimal (`baco.c`, lines 802-1067) -/

/-- The `switch` of `dec_to_bcd`. -/
def bcd_code (c : Char) : Option (List Char) :=
  if c = '0' then some ['0', '0', '0', '0']
  else if c = '1' then some ['0', '0', '0', '1']
  else if c = '2' then some ['0', '0', '1', '0']
  else if c = '3' then some ['0', '0', '1', '1']
  else if c = '4' then some ['0', '1', '0', '0']
  else if c = '5' then some ['0', '1', '0', '1']
  else if c = '6' then some ['0', '1', '1', '0']
  else if c = '7' then some ['0', '1', '1', '1']
  else if c = '8' then some ['1', '0', '0', '0']
  else if c = '9' then some ['1', '0', '0', '1']
  else none

/-- The loop of `dec_to_bcd` over the printed digits. -/
def dec_to_bcd_loop : List Char → List Char → Option (List Char) × List String
  | [], bcd => (some bcd, [])
  | c :: cs, bcd =>
    match bcd_code c with
    | some g => dec_to_bcd_loop cs (bcd ++ g)
    | none => (none, ["Unhandled exception."])

/-- The function `dec_to_bcd`; `bcd` is the content of the buffer at the call. -/
def dec_to_bcd (dec : ℚ) (bcd : List Char) : Option (List Char) × List String :=
  dec_to_bcd_loop (sprintf_0Lf dec) bcd

/-- The `do ... while` loop of `dec_to_rad`; `none` when the loop has not ended after
`fuel` rounds. -/
def dec_to_rad_int (base : Nat) : Nat → ℚ → List Char → Option (List Char)
  | 0, _, _ => none
  | fuel + 1, num_int, bin =>
    let v := unsigned_cast (fmodl num_int base)
    let bin := bin ++ [digit_char v]
    let num_int := num_int / base
    if int_cast num_int ≠ 0 then dec_to_rad_int base fuel num_int bin else some bin

/-- The `for` loop of `dec_to_rad` over the digits after the point; `neg` is the sign bit
of `num_dec`, which a zero has too.  The product is an operation on `long double`;
`value` is the `unsigned` read by `atof` from the text of `num_dec`; for `value < 10` the
character written is the first character of that text; the new `num_dec` is read by
`atof` from the text of `num_dec - value`, sign included. -/
def dec_to_rad_frac (base : Nat) : Nat → ℚ → Bool → List Char → List Char
  | 0, _, _, bin => bin
  | i + 1, num_dec, neg, bin =>
    let num_dec := round_ld (num_dec * base)
    let value := unsigned_cast (round_double (round6 num_dec))
    let c := if value < 10 then sprintf_Lf_head neg (round6 num_dec) else digit_char value
    let rest := round_ld (num_dec - value)
    let neg := decide (rest < 0) || (decide (rest = 0) && neg)
    dec_to_rad_frac base i (round_double (round6 rest)) neg (bin ++ [c])

/-- The function `dec_to_rad`; `bin` is the content of the buffer at the call.  The
`do ... while` loop is run for at most `⌊|num|⌋ + 1` rounds, which it needs at no base
from 2 on; the result is `none` when it has not ended by then. -/
def dec_to_rad (num : ℚ) (base : Nat) (bin : List Char) : Option (List Char) :=
  let sign := decide (num < 0)
  let num := if num < 0 then num * -1 else num
  let num_int : ℚ := trunc num
  let num_dec := num - num_int
  match dec_to_rad_int base ((trunc num).toNat + 1) num_int bin with
  | none => none
  | some bin =>
    let bin := if sign then bin ++ ['-'] else bin
    let bin := bin.reverse
    if num_dec ≠ 0 then some (dec_to_rad_frac base PRECISION num_dec false (bin ++ ['.']))
    else some bin

/-- The function `dec_to_co1`; the buffer `co1` is overwritten.  `dec_to_rad` writes the
binary text into a block of 128 bytes, and for a value that is not negative the text
with its leading `'0'` is printed into that block again; the result is `none` when the
block is too small for one of them. -/
def dec_to_co1 (dec : ℚ) (_co1 : List Char) : Option (List Char) :=
  match dec_to_rad (if dec < 0 then -1 * dec else dec) 2 [] with
  | none => none
  | some co1 =>
    if 128 < co1.length + 1 then none
    else if dec < 0 then some ('1' :: c1_converter co1)
    else if 128 < co1.length + 2 then none
    else some ('0' :: co1)

/-- The function `dec_to_co2`; the buffer `co2` is overwritten.  `dec_to_co1` writes its
text into a block of 128 bytes; the result is `none` when the block is too small. -/
def dec_to_co2 (dec : ℚ) (_co2 : List Char) : Option (List Char) :=
  match dec_to_co1 dec [] with
  | none => none
  | some co2 =>
    if 128 < co2.length + 1 then none
    else if -1 < dec then some co2 else some (binary_sum1 co2)

/-- The function `dec_to_flt`: whatever it writes to the buffer, it returns the text
`"TODO"`. -/
def dec_to_flt (_dec : ℚ) (_flt : List Char) : Option (List Char) :=
  some ['T', 'O', 'D', 'O']

/-- The function `dec_to_mes`; the buffer `mes` is overwritten.  `dec_to_rad` writes the
binary text into a block of 128 bytes; the result is `none` when the block is too
small. -/
def dec_to_mes (dec : ℚ) (_mes : List Char) : Option (List Char) :=
  match dec_to_rad (if dec < 0 then -1 * dec else dec) 2 [] with
  | none => none
  | some val =>
    if 128 < val.length + 1 then none
    else some ((if dec < 0 then '1' else '0') :: val)

/-- The function `dec_to_rom`. -/
def dec_to_rom (dec : ℚ) : List Char :=
  if dec = 0 then ['N', 'U', 'L', 'L'] else ['T', 'O', 'D', 'O']

/-! ## Execution functions (`baco.c`, lines 213-441) -/

/-- The first `switch` of `conversion`: the decimal value `x` of the literal, or `none`
with the lines written to `stderr` when the function returns `NULL` or exits, and `none`
when the conversion to decimal has no defined value. -/
def conversion_from (atof : List Char → ℚ) (from_ : Nat) (str : List Char) :
    Option ℚ × List String :=
  if from_ = BCD then
    if bcd_to_dec str = -1 then (none, ["BCD codify is not correct."])
    else (some (bcd_to_dec str), [])
  else if from_ = BIN then (rad_to_dec str 2, [])
  else if from_ = CO1 then (co1_to_dec str, [])
  else if from_ = CO2 then (co2_to_dec str, [])
  else if from_ = DEC then (some (atof str), [])
  else if from_ = MES then (mes_to_dec str, [])
  else if from_ = ROM then
    if (rom_to_dec str).1 = 0 then (none, (rom_to_dec str).2)
    else (some (rom_to_dec str).1, (rom_to_dec str).2)
  else if usub from_ SCRAP = 1 then
    if '.' ∈ str ∨ '-' ∈ str then
      (none, ["Unary numeral system admits only natural numbers."])
    else (some (str.length : ℚ), [])
  else (rad_to_dec str (usub from_ SCRAP), [])

/-- The second `switch` of `conversion`: the text of the value `x` in the destination.
In the unary case the loop writes a `'0'` at every index below `x` and the terminator is
written at the index `(int) x`: the text is the run of `(int) x` characters `'0'`.  When
`(int) x` is negative, as it is when `x` is outside the range of `int`, the terminator
is written outside the buffer and the function has no defined result (from `2 ^ 32` on
the loop does not end, its counter being `unsigned`): the result is `none`. -/
def conversion_to (to_ : Nat) (x : ℚ) (str val : List Char) :
    Option (List Char) × List String :=
  if to_ = BCD then dec_to_bcd x val
  else if to_ = BIN then (dec_to_rad x 2 val, [])
  else if to_ = CO1 then (dec_to_co1 x val, [])
  else if to_ = CO2 then (dec_to_co2 x val, [])
  else if to_ = DEC then (dec_to_rad x 10 val, [])
  else if to_ = FLT then (dec_to_flt x val, [])
  else if to_ = MES then (dec_to_mes x val, [])
  else if to_ = ROM then (some (dec_to_rom x), [])
  else if usub to_ SCRAP = 1 then
    if '.' ∈ str ∨ '-' ∈ str then
      (none, ["Unary numeral system admits only natural numbers."])
    else if 0 ≤ int_cast x then (some (List.replicate (int_cast x).toNat '0'), [])
    else (none, [])
  else (dec_to_rad x (usub to_ SCRAP) val, [])

/-- The function `conversion`; `val` is the content of the buffer at the call. -/
def conversion (atof : List Char → ℚ) (from_ to_ : Nat) (str val : List Char) :
    Option (List Char) × List String :=
  match conversion_from atof from_ str with
  | (none, err) => (none, err)
  | (some x, err) => ((conversion_to to_ x str val).1, err ++ (conversion_to to_ x str val).2)

/-- The first loop of `format_scan`: the variables `sign`, `decimal` and `error` after
the characters from index `i` on. -/
def format_scan_loop : List Char → Nat → Int × Nat × Nat → Int × Nat × Nat
  | [], _, st => st
  | c :: cs, i, (sign, decimal, error) =>
    if c = '-' then format_scan_loop cs (i + 1) ((i : Int), decimal, error)
    else if c = '.' then format_scan_loop cs (i + 1) (sign, decimal + 1, error)
    else if isdigit c && isalpha c then format_scan_loop cs (i + 1) (sign, decimal, error + 1)
    else format_scan_loop cs (i + 1) (sign, decimal, error)

/-- The loop over `code[]` in the case `decimal == 1` of `format_scan`: the line it
writes before `return 1`, if it does. -/
def format_scan_decimal (from_ to_ : Nat) : Option String :=
  (code.find? (fun e => (from_ == e.id || to_ == e.id) && e.decimal == 0)).map
    (fun e => e.name ++ " accepts only integer.")

/-- The loop over `code[]` in the case `sign == 0` of `format_scan`: the line it writes
before `return 1`, if it does. -/
def format_scan_sign (from_ to_ : Nat) : Option String :=
  (code.find? (fun e => (from_ == e.id && e.signf == 0) || (to_ == e.id && e.signt == 0))).map
    (fun e => e.name ++ " accepts only positive numbers.")

/-- The last `switch` of `format_scan`: the digits are checked against the base. -/
def format_scan_base (num : List Char) (from_ : Nat) : Int × List String :=
  if from_ = BIN ∨ from_ = CO1 ∨ from_ = CO2 ∨ from_ = MES then
    (if (check_base num 2).1 ≠ 0 then (1, (check_base num 2).2) else (0, (check_base num 2).2))
  else if from_ = BCD ∨ from_ = DEC ∨ from_ = ROM then (0, [])
  else
    (if (check_base num (usub from_ SCRAP)).1 ≠ 0 then (1, (check_base num (usub from_ SCRAP)).2)
     else (0, (check_base num (usub from_ SCRAP)).2))

/-- The function `format_scan`. -/
def format_scan (num : List Char) (from_ to_ : Nat) (name : String) : Int × List String :=
  if from_ = 0 ∨ to_ = 0 then
    (1, ["Usage: conv -f <CODIFY> -t <CODIFY> <NUMBER>",
         "Use «" ++ name ++ " --help » for more informations."])
  else if from_ = to_ then (1, ["Source and destination are the same."])
  else
    let st := format_scan_loop num 0 (-1, 0, 0)
    if st.2.2 ≠ 0 then (1, ["The codify is not correct."])
    else if 1 < st.2.1 then (1, ["The codify is not correct."])
    else if st.2.1 = 1 ∧ (format_scan_decimal from_ to_).isSome then
      (1, (format_scan_decimal from_ to_).toList)
    else if st.1 ≠ -1 ∧ st.1 ≠ 0 then (1, ["The codify is not correct."])
    else if st.1 = 0 ∧ (format_scan_sign from_ to_).isSome then
      (1, (format_scan_sign from_ to_).toList)
    else format_scan_base num from_


/-! ## Reference definitions, after the words of the specification -/

/-- The digit value of the specification: 0-9 for the characters `'0'`-`'9'` (codes 48-57),
10-35 for `'A'`-`'Z'` (codes 65-90) and, case-insensitively, for `'a'`-`'z'` (codes 97-122). -/
def spec_digit (c : Char) : Option Nat :=
  if 48 ≤ c.toNat ∧ c.toNat ≤ 57 then some (c.toNat - 48)
  else if 65 ≤ c.toNat ∧ c.toNat ≤ 90 then some (c.toNat - 65 + 10)
  else if 97 ≤ c.toNat ∧ c.toNat ≤ 122 then some (c.toNat - 97 + 10)
  else none

/-- A valid digit of base `b`: a character with a digit value below `b`. -/
def valid_digit (c : Char) (b : Nat) : Prop :=
  match spec_digit c with
  | some v => v < b
  | none => False

instance valid_digit_decidable (c : Char) (b : Nat) : Decidable (valid_digit c b) := by
  unfold valid_digit
  cases spec_digit c with
  | none => exact instDecidableFalse
  | some v => exact Nat.decLt v b

/-- The positional value of a run of digits, most significant digit first: each step
multiplies the value so far by the base and adds the next digit. -/
def spec_digits_value (b : Nat) (ds : List Char) : Nat :=
  ds.foldl (fun acc c => acc * b + (spec_digit c).getD 0) 0

/-- The positional value of an integer literal in base `b`: the value of its digits,
negated when the literal starts with the sign `'-'`. -/
def positional_value (lit : List Char) (b : Nat) : Int :=
  match lit with
  | '-' :: ds => -(spec_digits_value b ds : Int)
  | ds => (spec_digits_value b ds : Int)

/-! ## Auxiliary definitions of the proofs -/

/-- The characters the loop of `check_base` counts. -/
def check_base_counts (base : Nat) (c : Char) : Prop :=
  (((c.toNat : Int) - 48) % (UINT_RANGE : Int)).toNat < base ∨
  (65 ≤ toupper c ∧ toupper c ≤ usub ((base + 65) % UINT_RANGE) 11) ∨ c = '.'

/-- The digit values the `do ... while` loop of `dec_to_rad` emits for the integer `t`,
least significant first: one digit 0 for 0, else the base-`b` digits of `t`. -/
def radix_digits (b t : Nat) : List Nat := if t = 0 then [0] else Nat.digits b t

/-- The sum of the first loop of `rad_to_dec` in exact arithmetic, to which the loop is
compared. -/
def exact_rad_to_dec_int (base : Nat) : List Char → Nat → ℚ → ℚ
  | [], _, dec => dec
  | c :: cs, j, dec =>
    exact_rad_to_dec_int base cs (j + 1) (dec + (digit_val c : ℚ) * (base : ℚ) ^ j)

/-- The natural numbers that `long double` represents: at most 64 significant bits. -/
def long_double_nat (N : Nat) : Prop := ∃ m e : Nat, m < 2 ^ 64 ∧ N = m * 2 ^ e

/-! ## Reference definitions for Roman numerals -/

/-- The seven Roman symbols of the specification. -/
def roman_symbols : List Char := ['I', 'V', 'X', 'L', 'C', 'D', 'M']

/-- The characters `rom_to_dec` reads as symbols: the seven symbols in either case. -/
def roman_letters : List Char :=
  ['I', 'V', 'X', 'L', 'C', 'D', 'M', 'i', 'v', 'x', 'l', 'c', 'd', 'm']

/-- The numeral value and the ordinal priority the specification gives a Roman symbol. -/
def spec_roman (c : Char) : Option (Nat × Nat) :=
  if c = 'I' then some (1, 1)
  else if c = 'V' then some (5, 2)
  else if c = 'X' then some (10, 3)
  else if c = 'L' then some (50, 4)
  else if c = 'C' then some (100, 5)
  else if c = 'D' then some (500, 6)
  else if c = 'M' then some (1000, 7)
  else none

/-- The reference scan of the specification, right to left: the value so far and the
highest priority seen so far.  A symbol whose priority is at least the tracked one is
added and raises the tracked priority; any other symbol is subtracted and leaves the
tracked priority as it is. -/
def spec_rom_scan : List Char → Int × Nat
  | [] => (0, 0)
  | c :: cs =>
    match spec_roman c with
    | some (v, p) =>
      if (spec_rom_scan cs).2 ≤ p then ((spec_rom_scan cs).1 + (v : Int), p)
      else ((spec_rom_scan cs).1 - (v : Int), (spec_rom_scan cs).2)
    | none => spec_rom_scan cs

/-- The scan with the tracked priority set to the symbol just read in both cases: the
value so far and the priority of the symbol to the right. -/
def neighbour_rom_scan : List Char → Int × Nat
  | [] => (0, 0)
  | c :: cs =>
    match spec_roman c with
    | some (v, p) =>
      if (neighbour_rom_scan cs).2 ≤ p then ((neighbour_rom_scan cs).1 + (v : Int), p)
      else ((neighbour_rom_scan cs).1 - (v : Int), p)
    | none => neighbour_rom_scan cs

/-! ## Reference definitions for standard Roman numerals and BCD -/

/-- The table of the greedy subtractive rendering: the symbols and the subtractive
compounds with their values, largest first. -/
def roman_table : List (Nat × List Char) :=
  [(1000, ['M']), (900, ['C', 'M']), (500, ['D']), (400, ['C', 'D']), (100, ['C']),
   (90, ['X', 'C']), (50, ['L']), (40, ['X', 'L']), (10, ['X']), (9, ['I', 'X']),
   (5, ['V']), (4, ['I', 'V']), (1, ['I'])]

/-- The greedy rendering over a table: the first entry is written as often as its value
fits in the amount, which is what subtracting it repeatedly does, and the rest of the
table renders the remainder. -/
def standard_roman_from : List (Nat × List Char) → Nat → List Char
  | [], _ => []
  | (v, s) :: t, n => (List.replicate (n / v) s).flatten ++ standard_roman_from t (n % v)

/-- The standard Roman numeral of `n`. -/
def standard_roman (n : Nat) : List Char := standard_roman_from roman_table n

/-- The sum of the values of the symbols below the priority `p`. -/
def rom_below (p : Nat) : Int :=
  if p ≤ 1 then 0
  else if p = 2 then 1
  else if p = 3 then 6
  else if p = 4 then 16
  else if p = 5 then 66
  else if p = 6 then 166
  else 666

/-- The four bits of a decimal digit, most significant first. -/
def bcd_pattern (d : Nat) : List Char :=
  [digit_char (d / 8 % 2), digit_char (d / 4 % 2), digit_char (d / 2 % 2), digit_char (d % 2)]

/-- The BCD text of a run of decimal digits: the patterns of the digits, one after the
other. -/
def bcd_text : List Nat → List Char
  | [] => []
  | d :: ds => bcd_pattern d ++ bcd_text ds

/-- The sum `bcd_to_dec` accumulates for the digits `ds` from the weight `j`: the digit at
index `i` is multiplied by `j / 10 ^ i` in `unsigned`. -/
def bcd_sum (j : Nat) (ds : List Nat) : Nat :=
  ((List.range ds.length).map (fun i => (ds.getD i 0 * (j / 10 ^ i)) % UINT_RANGE)).sum

/-! ## Validation: `format_scan` and `check_base` -/

theorem isdigit_isalpha (c : Char) : (isdigit c && isalpha c) = false := by
  simp only [isdigit, isalpha, Bool.and_eq_false_iff, Bool.or_eq_false_iff, Bool.and_eq_true,
    decide_eq_true_eq, decide_eq_false_iff_not]
  omega

theorem format_scan_loop_cons (c : Char) (cs : List Char) (i : Nat) (s : Int) (d e : Nat) :
    format_scan_loop (c :: cs) i (s, d, e) =
      if c = '-' then format_scan_loop cs (i + 1) ((i : Int), d, e)
      else if c = '.' then format_scan_loop cs (i + 1) (s, d + 1, e)
      else format_scan_loop cs (i + 1) (s, d, e) := by
  simp [format_scan_loop, isdigit_isalpha]

theorem format_scan_loop_error (cs : List Char) : ∀ (i : Nat) (s : Int) (d e : Nat),
    (format_scan_loop cs i (s, d, e)).2.2 = e := by
  induction cs with
  | nil => intro i s d e; rfl
  | cons c cs ih =>
    intro i s d e
    rw [format_scan_loop_cons]
    split_ifs <;> simp [ih]

theorem format_scan_loop_decimal (cs : List Char) : ∀ (i : Nat) (s : Int) (d e : Nat),
    (format_scan_loop cs i (s, d, e)).2.1 = d + cs.count '.' := by
  induction cs with
  | nil => intro i s d e; rfl
  | cons c cs ih =>
    intro i s d e
    rw [format_scan_loop_cons]
    split_ifs with h1 h2
    · subst h1; rw [ih]; simp
    · subst h2; rw [ih]; simp; omega
    · rw [ih, List.count_cons_of_ne (Ne.symm h2)]

theorem format_scan_loop_sign_mono (cs : List Char) : ∀ (i : Nat) (s : Int) (d e : Nat),
    s ≤ (i : Int) → s ≤ (format_scan_loop cs i (s, d, e)).1 := by
  induction cs with
  | nil => intro i s d e _; exact le_refl _
  | cons c cs ih =>
    intro i s d e h
    rw [format_scan_loop_cons]
    split_ifs
    · have := ih (i + 1) (i : Int) d e (by push_cast; omega)
      omega
    · exact ih (i + 1) s (d + 1) e (by push_cast; omega)
    · exact ih (i + 1) s d e (by push_cast; omega)

theorem format_scan_loop_sign_ge (cs : List Char) : ∀ (i : Nat) (s : Int) (d e p : Nat),
    cs[p]? = some '-' → (i : Int) + p ≤ (format_scan_loop cs i (s, d, e)).1 := by
  induction cs with
  | nil => intro i s d e p h; simp at h
  | cons c cs ih =>
    intro i s d e p h
    rw [format_scan_loop_cons]
    cases p with
    | zero =>
      simp only [List.getElem?_cons_zero, Option.some.injEq] at h
      subst h
      simp only [if_true]
      have := format_scan_loop_sign_mono cs (i + 1) (i : Int) d e (by push_cast; omega)
      simpa using this
    | succ p =>
      simp only [List.getElem?_cons_succ] at h
      split_ifs
      · have := ih (i + 1) (i : Int) d e p h
        push_cast at this ⊢; omega
      · have := ih (i + 1) s (d + 1) e p h
        push_cast at this ⊢; omega
      · have := ih (i + 1) s d e p h
        push_cast at this ⊢; omega

theorem count_le_one_of_index (a : Char) (l : List Char)
    (h : ∀ i : Nat, l[i]? = some a → i = 0) : l.count a ≤ 1 := by
  cases l with
  | nil => simp
  | cons c cs =>
    have hn : a ∉ cs := by
      intro hm
      obtain ⟨i, hi⟩ := List.getElem?_of_mem hm
      have := h (i + 1) (by simpa using hi)
      omega
    rw [List.count_cons, List.count_eq_zero_of_not_mem hn]
    split_ifs <;> omega

/-- What `format_scan` has checked when it returns 0. -/
theorem format_scan_accept (num : List Char) (from_ to_ : Nat) (name : String)
    (h : (format_scan num from_ to_ name).1 = 0) :
    from_ ≠ 0 ∧ to_ ≠ 0 ∧ from_ ≠ to_ ∧
    (format_scan_loop num 0 (-1, 0, 0)).2.1 ≤ 1 ∧
    ((format_scan_loop num 0 (-1, 0, 0)).2.1 = 1 → format_scan_decimal from_ to_ = none) ∧
    ((format_scan_loop num 0 (-1, 0, 0)).1 = -1 ∨ (format_scan_loop num 0 (-1, 0, 0)).1 = 0) ∧
    ((format_scan_loop num 0 (-1, 0, 0)).1 = 0 → format_scan_sign from_ to_ = none) ∧
    (format_scan_base num from_).1 = 0 := by
  simp only [format_scan] at h
  split_ifs at h with h1 h2 h3 h4 h5 h6 h7
  all_goals try simp at h
  refine ⟨by tauto, by tauto, h2, by omega, ?_, by omega, ?_, h⟩
  · intro h8
    cases hd : format_scan_decimal from_ to_ with
    | none => rfl
    | some m => exact absurd ⟨h8, by simp [hd]⟩ h5
  · intro h8
    cases hd : format_scan_sign from_ to_ with
    | none => rfl
    | some m => exact absurd ⟨h8, by simp [hd]⟩ h7

/-- Claim C8. A literal that `format_scan` accepts (return value 0) has at most one
point, and has the sign at most once and at index 0 only. -/
theorem format_scan_well_formed (num : List Char) (from_ to_ : Nat) (name : String)
    (h : (format_scan num from_ to_ name).1 = 0) :
    num.count '.' ≤ 1 ∧ num.count '-' ≤ 1 ∧ ∀ i : Nat, num[i]? = some '-' → i = 0 := by
  obtain ⟨_, _, _, hd, _, hs, _, _⟩ := format_scan_accept num from_ to_ name h
  rw [format_scan_loop_decimal] at hd
  have hidx : ∀ i : Nat, num[i]? = some '-' → i = 0 := by
    intro i hi
    have := format_scan_loop_sign_ge num 0 (-1) 0 0 i hi
    omega
  exact ⟨by omega, count_le_one_of_index '-' num hidx, hidx⟩

theorem format_scan_well_formed_witness :
    (format_scan "-1.5".toList DEC BIN "baco").1 = 0 ∧
    ("-1.5".toList.count '.' ≤ 1 ∧ "-1.5".toList.count '-' ≤ 1 ∧
      ∀ i : Nat, "-1.5".toList[i]? = some '-' → i = 0) :=
  ⟨by decide, format_scan_well_formed "-1.5".toList DEC BIN "baco" (by decide)⟩

/-- Claim C10. A literal with exactly one point is rejected by `format_scan` with the
line "... accepts only integer." whenever the source or the destination, distinct and
non-empty, is an entry of the registry with `decimal = 0`, whatever its other
characters are. -/
theorem format_scan_fraction_rejected (num : List Char) (from_ to_ : Nat) (name : String)
    (hpt : num.count '.' = 1) (hf : from_ ≠ 0) (ht : to_ ≠ 0) (hne : from_ ≠ to_)
    (hint : ∃ e ∈ code, (from_ = e.id ∨ to_ = e.id) ∧ e.decimal = 0) :
    (format_scan num from_ to_ name).1 = 1 ∧
    ∃ e ∈ code, (from_ = e.id ∨ to_ = e.id) ∧ e.decimal = 0 ∧
      (format_scan num from_ to_ name).2 = [e.name ++ " accepts only integer."] := by
  obtain ⟨e, he, hid, hdec⟩ := hint
  have hsome : (code.find? (fun e => (from_ == e.id || to_ == e.id) && e.decimal == 0)).isSome := by
    rw [List.find?_isSome]
    exact ⟨e, he, by simpa using ⟨hid, hdec⟩⟩
  obtain ⟨e', he'⟩ := Option.isSome_iff_exists.mp hsome
  have hmem := List.mem_of_find?_eq_some he'
  have hp := List.find?_some he'
  simp only [Bool.and_eq_true, Bool.or_eq_true, beq_iff_eq] at hp
  have hdecimal : format_scan_decimal from_ to_ = some (e'.name ++ " accepts only integer.") := by
    simp [format_scan_decimal, he']
  have h1 : (format_scan num from_ to_ name) = (1, [e'.name ++ " accepts only integer."]) := by
    simp only [format_scan]
    rw [if_neg (by tauto), if_neg hne, format_scan_loop_error, format_scan_loop_decimal, hpt,
      hdecimal]
    simp
  exact ⟨by rw [h1], e', hmem, hp.1, hp.2, by rw [h1]⟩

theorem format_scan_fraction_rejected_witness :
    ("1x.5".toList.count '.' = 1 ∧ DEC ≠ 0 ∧ BCD ≠ 0 ∧ DEC ≠ BCD) ∧
    ((format_scan "1x.5".toList DEC BCD "baco").1 = 1 ∧
    ∃ e ∈ code, (DEC = e.id ∨ BCD = e.id) ∧ e.decimal = 0 ∧
      (format_scan "1x.5".toList DEC BCD "baco").2 = [e.name ++ " accepts only integer."]) :=
  ⟨by decide, format_scan_fraction_rejected "1x.5".toList DEC BCD "baco" (by decide) (by decide)
    (by decide) (by decide)
    ⟨{ id := BCD, signf := 0, signt := 0, decimal := 0, name := "Binary Coded Decimal" },
      by decide, by decide⟩⟩


theorem check_base_loop_count (base : Nat) (cs : List Char) : ∀ (n p : Nat),
    (check_base_loop base cs (n, p)).1 ≤ n + cs.length ∧
    ((check_base_loop base cs (n, p)).1 = n + cs.length → ∀ c ∈ cs, check_base_counts base c) := by
  induction cs with
  | nil => intro n p; simp [check_base_loop]
  | cons c cs ih =>
    intro n p
    simp only [check_base_loop, List.length_cons, List.mem_cons, forall_eq_or_imp]
    split_ifs with h1 h2 h3
    · have := ih (n + 1) p
      refine ⟨by omega, fun h => ⟨Or.inl h1, this.2 (by omega)⟩⟩
    · have := ih (n + 1) p
      refine ⟨by omega, fun h => ⟨Or.inr (Or.inl h2), this.2 (by omega)⟩⟩
    · have := ih (n + 1) (p + 1)
      refine ⟨by omega, fun h => ⟨Or.inr (Or.inr h3), this.2 (by omega)⟩⟩
    · have := ih n p
      refine ⟨by omega, fun h => ?_⟩
      omega

theorem check_base_accept (x : List Char) (base : Nat) (hb : base ≤ 36)
    (h : (check_base x base).1 = 0) :
    ∀ (i : Nat) (c : Char), x[i]? = some c → (c = '-' ∧ i = 0) ∨ check_base_counts base c := by
  have hc : (check_base_loop base x (if x.head? = some '-' then 1 else 0, 0)).1 = x.length := by
    by_contra hne
    simp [check_base, hne] at h
  intro i c hi
  cases x with
  | nil => simp at hi
  | cons a t =>
    by_cases ha : a = '-'
    · subst ha
      have hstep : check_base_loop base ('-' :: t) (1, 0) = check_base_loop base t (1, 0) := by
        have e1 : ¬ ((((('-' : Char).toNat : Int) - 48) % (UINT_RANGE : Int)).toNat < base) := by
          have : ((('-' : Char).toNat : Int) - 48) % (UINT_RANGE : Int) = 4294967293 := by decide
          rw [this]; simp; omega
        have e2 : ¬ (65 ≤ toupper '-' ∧ toupper '-' ≤ usub ((base + 65) % UINT_RANGE) 11) := by
          have : toupper '-' = 45 := by decide
          rw [this]; omega
        have e3 : ¬ (('-' : Char) = '.') := by decide
        simp only [check_base_loop, if_neg e1, if_neg e2, if_neg e3]
      simp only [List.head?_cons, if_true, List.length_cons] at hc
      rw [hstep] at hc
      have hall := (check_base_loop_count base t 1 0).2 (by omega)
      cases i with
      | zero => simp at hi; left; exact ⟨hi.symm, rfl⟩
      | succ i =>
        simp only [List.getElem?_cons_succ] at hi
        right; exact hall c (List.getElem?_mem hi)
    · have h0 : ((a :: t).head? = some '-') = False := by simpa using ha
      simp only [h0, if_false] at hc
      have hall := (check_base_loop_count base (a :: t) 0 0).2 (by omega)
      right; exact hall c (List.getElem?_mem hi)

theorem char_code_lt (c : Char) : c.toNat < 1114112 := by
  have h := c.valid
  simp only [Char.toNat, UInt32.isValidChar, Nat.isValidChar] at *
  have : c.val.toNat = c.val.val.val := rfl
  omega

/-- A character the loop of `check_base` counts is the point, a digit of the base, or one
of the characters `':'` to `'@'` (codes 58 to 64) with a code below `48 + b`. -/
theorem check_base_counts_valid (b : Nat) (c : Char) (hb : b ≤ 36)
    (h : check_base_counts b c) (hp : c ≠ '.')
    (hs : ¬ (58 ≤ c.toNat ∧ c.toNat ≤ 64 ∧ c.toNat < 48 + b)) : valid_digit c b := by
  have hlt := char_code_lt c
  have husub : usub ((b + 65) % UINT_RANGE) 11 = b + 54 := by simp only [usub, UINT_RANGE]; omega
  simp only [check_base_counts, husub] at h
  simp only [toupper, UINT_RANGE] at h
  simp only [valid_digit, spec_digit]
  rcases h with h | h | h
  · split_ifs with g1 g2 g3
    · show c.toNat - 48 < b; omega
    · show c.toNat - 65 + 10 < b; omega
    · show c.toNat - 97 + 10 < b; omega
    · omega
  · split_ifs with g1 g2 g3
    · rw [if_neg (by omega)] at h; omega
    · rw [if_neg (by omega)] at h; show c.toNat - 65 + 10 < b; omega
    · rw [if_pos (by omega)] at h; show c.toNat - 97 + 10 < b; omega
    · split_ifs at h
      omega
  · exact absurd h hp

/-- Claim C9, as the code has it. For the sources checked against a base (Binary, ones'
and two's complement, sign-magnitude: base 2; RadixN(b), b in 2..36), every character of
a literal that `format_scan` accepts, other than the sign at index 0, the point and a
character from `':'` to `'@'` (codes 58 to 64) with a code below `48 + b`, has a digit
value below the base; up to base 10 no character is of the last kind. -/
theorem format_scan_digits (num : List Char) (from_ to_ : Nat) (name : String) (b : Nat)
    (hsrc : ((from_ = BIN ∨ from_ = CO1 ∨ from_ = CO2 ∨ from_ = MES) ∧ b = 2) ∨
      (from_ = SCRAP + b ∧ 2 ≤ b ∧ b ≤ 36))
    (h : (format_scan num from_ to_ name).1 = 0) :
    ∀ (i : Nat) (c : Char), num[i]? = some c →
      ¬ (58 ≤ c.toNat ∧ c.toNat ≤ 64 ∧ c.toNat < 48 + b) →
      (c = '-' ∧ i = 0) ∨ c = '.' ∨ valid_digit c b := by
  obtain ⟨_, _, _, _, _, _, _, hbase⟩ := format_scan_accept num from_ to_ name h
  have hb36 : b ≤ 36 := by rcases hsrc with ⟨_, h2⟩ | ⟨_, _, h3⟩ <;> omega
  have hcb : (check_base num b).1 = 0 := by
    rcases hsrc with ⟨hf, h2⟩ | ⟨hf, h2, h3⟩
    · subst h2
      simp only [format_scan_base, if_pos hf] at hbase
      split_ifs at hbase with g
      · simp at hbase
      · simpa using g
    · have e1 : ¬ (from_ = BIN ∨ from_ = CO1 ∨ from_ = CO2 ∨ from_ = MES) := by
        simp only [BIN, CO1, CO2, MES, SCRAP] at *; omega
      have e2 : ¬ (from_ = BCD ∨ from_ = DEC ∨ from_ = ROM) := by
        simp only [BCD, DEC, ROM, SCRAP] at *; omega
      have e3 : usub from_ SCRAP = b := by
        simp only [usub, UINT_RANGE, SCRAP] at *; omega
      simp only [format_scan_base, if_neg e1, if_neg e2, e3] at hbase
      split_ifs at hbase with g
      · simp at hbase
      · simpa using g
  intro i c hi hs
  rcases check_base_accept num b hb36 hcb i c hi with hv | hv
  · exact Or.inl hv
  · by_cases hp : c = '.'
    · exact Or.inr (Or.inl hp)
    · exact Or.inr (Or.inr (check_base_counts_valid b c hb36 hv hp hs))

theorem format_scan_digits_witness :
    ((((SCRAP + 16 = BIN ∨ SCRAP + 16 = CO1 ∨ SCRAP + 16 = CO2 ∨ SCRAP + 16 = MES) ∧ 16 = 2) ∨
      (SCRAP + 16 = SCRAP + 16 ∧ 2 ≤ 16 ∧ 16 ≤ 36)) ∧
      (format_scan "-1f.A".toList (SCRAP + 16) DEC "baco").1 = 0) ∧
    (∀ (i : Nat) (c : Char), "-1f.A".toList[i]? = some c →
      ¬ (58 ≤ c.toNat ∧ c.toNat ≤ 64 ∧ c.toNat < 48 + 16) →
      (c = '-' ∧ i = 0) ∨ c = '.' ∨ valid_digit c 16) ∧
    (format_scan "1#".toList (SCRAP + 16) DEC "baco").1 = 1 :=
  ⟨⟨by decide, by decide⟩,
    format_scan_digits "-1f.A".toList (SCRAP + 16) DEC "baco" 16 (by decide) (by decide),
    by decide⟩

/-- Claim C9, counterexample. The literal "1x" is accepted from Decimal to Binary although
its character `'x'` is no decimal digit, no sign and no point; likewise "12" is accepted
from BCD to Decimal although `'2'` is no binary digit. -/
theorem format_scan_decimal_unchecked :
    ((format_scan "1x".toList DEC BIN "baco").1 = 0 ∧
      "1x".toList[1]? = some 'x' ∧ 'x' ≠ '-' ∧ 'x' ≠ '.' ∧ isdigit 'x' = false ∧
      ¬ valid_digit 'x' 10) ∧
    ((format_scan "12".toList BCD DEC "baco").1 = 0 ∧
      "12".toList[1]? = some '2' ∧ '2' ≠ '-' ∧ '2' ≠ '.' ∧ ¬ valid_digit '2' 2) := by
  decide

/-- Claim C7, failing input. `check_base` accepts the character `':'` in base 11, although
it is neither a decimal digit nor a letter. -/
theorem check_base_colon : check_base ":".toList 11 = (0, []) ∧ spec_digit ':' = none := by
  decide

/-- Claim C3, failing input. `dec_to_bcd` renders 10 as "00010000", and `bcd_to_dec`
answers the error value -1 for it: the group "0000" is in none of its comparisons. -/
theorem bcd_round_trip_ten :
    dec_to_bcd 10 [] = (some "00010000".toList, []) ∧
    bcd_to_dec "00010000".toList = -1 := by
  decide!

/-- Claim C4, failing input. `bcd_to_dec` answers the error value -1 for "0000", whose
length is a multiple of 4 and whose only group is the pattern of the digit 0. -/
theorem bcd_to_dec_zero_group :
    bcd_to_dec "0000".toList = -1 ∧ "0000".toList.length % 4 = 0 ∧
    bcd_code '0' = some "0000".toList := by
  decide!

/-- Claim C6, failing input. `dec_to_rom` returns the text "TODO" for 1, which `rom_to_dec`
rejects with the value 0. -/
theorem rom_round_trip_one :
    dec_to_rom 1 = "TODO".toList ∧
    rom_to_dec (dec_to_rom 1) = (0, ["The codify is not correct."]) := by
  decide!


/-! ## Rounding: values that `long double` represents are not changed -/

theorem log2_loop_spec : ∀ (fuel n : ℕ), n ≤ fuel → 1 ≤ n →
    2 ^ log2_loop fuel n ≤ n ∧ n < 2 ^ (log2_loop fuel n + 1) := by
  intro fuel
  induction fuel with
  | zero => intro n h0 h1; omega
  | succ fuel ih =>
    intro n hle h1
    simp only [log2_loop]
    by_cases h2 : 2 ≤ n
    · rw [if_pos h2]
      have := ih (n / 2) (by omega) (by omega)
      rw [pow_succ, pow_succ]
      constructor
      · have := this.1; omega
      · have := this.2; rw [pow_succ] at this; omega
    · rw [if_neg h2]
      simp
      omega

theorem nat_log2_spec (n : ℕ) (h : 1 ≤ n) :
    2 ^ nat_log2 n ≤ n ∧ n < 2 ^ (nat_log2 n + 1) :=
  log2_loop_spec n n (le_refl n) h

theorem binary_exponent_le (x : ℚ) (hx : x ≠ 0) : (2 : ℚ) ^ binary_exponent x ≤ |x| := by
  unfold binary_exponent
  simp only []
  split_ifs with h
  · exact h
  · have hnum : 1 ≤ x.num.natAbs := by
      have : x.num ≠ 0 := Rat.num_ne_zero.mpr hx
      omega
    have hden : 1 ≤ x.den := x.den_pos
    have h1 := (nat_log2_spec _ hnum).1
    have h2 := (nat_log2_spec _ hden).2
    have habs : |x| = (x.num.natAbs : ℚ) / (x.den : ℚ) := by
      conv_lhs => rw [← Rat.num_div_den x]
      rw [abs_div, Nat.abs_cast]
      congr 1
      rw [Nat.cast_natAbs, Int.cast_abs]
    have hdpos : (0 : ℚ) < (x.den : ℚ) := by exact_mod_cast hden
    rw [habs, le_div_iff₀ hdpos]
    have e : (2 : ℚ) ^ ((nat_log2 x.num.natAbs : ℤ) - (nat_log2 x.den : ℤ) - 1) =
        (2 : ℚ) ^ (nat_log2 x.num.natAbs) / (2 : ℚ) ^ (nat_log2 x.den + 1) := by
      rw [sub_sub, zpow_sub₀ (by norm_num : (2 : ℚ) ≠ 0)]
      norm_cast
    rw [e, div_mul_eq_mul_div, div_le_iff₀ (by positivity)]
    have h1q : ((2 : ℚ) ^ nat_log2 x.num.natAbs) ≤ (x.num.natAbs : ℚ) := by exact_mod_cast h1
    have h2q : (x.den : ℚ) ≤ (2 : ℚ) ^ (nat_log2 x.den + 1) := by exact_mod_cast h2.le
    calc (2 : ℚ) ^ nat_log2 x.num.natAbs * (x.den : ℚ)
        ≤ (x.num.natAbs : ℚ) * (2 : ℚ) ^ (nat_log2 x.den + 1) := by
          apply mul_le_mul h1q h2q (by positivity) (by positivity)

theorem round_even_intCast (z : ℤ) : round_even (z : ℚ) = z := by
  unfold round_even
  simp

/-- A value `m * 2 ^ e` with `|m| < 2 ^ p` is not changed by rounding to `p` bits. -/
theorem round_bits_repr (p : ℕ) (m e : ℤ) (hm : |m| < 2 ^ p) :
    round_bits p ((m : ℚ) * (2 : ℚ) ^ e) = (m : ℚ) * (2 : ℚ) ^ e := by
  unfold round_bits
  split_ifs with h0
  · exact h0.symm
  · simp only []
    have hle := binary_exponent_le _ h0
    have hlt : |(m : ℚ) * (2 : ℚ) ^ e| < (2 : ℚ) ^ ((p : ℤ) + e) := by
      rw [abs_mul, abs_of_pos (by positivity : (0 : ℚ) < (2 : ℚ) ^ e),
        zpow_add₀ (by norm_num : (2 : ℚ) ≠ 0)]
      apply mul_lt_mul_of_pos_right _ (by positivity)
      have : ((|m| : ℤ) : ℚ) < (((2 : ℤ) ^ p : ℤ) : ℚ) := by exact_mod_cast hm
      rw [Int.cast_abs] at this
      push_cast at this
      exact_mod_cast this
    have hexp : binary_exponent ((m : ℚ) * (2 : ℚ) ^ e) < (p : ℤ) + e := by
      have := lt_of_le_of_lt hle hlt
      exact (zpow_lt_zpow_iff_right₀ (by norm_num : (1 : ℚ) < 2)).mp this
    generalize binary_exponent ((m : ℚ) * (2 : ℚ) ^ e) = be at hexp
    obtain ⟨k, hk⟩ : ∃ k : ℕ, e - (be - ((p : ℤ) - 1)) = (k : ℤ) :=
      ⟨(e - (be - ((p : ℤ) - 1))).toNat, by omega⟩
    have hdiv : (m : ℚ) * (2 : ℚ) ^ e / (2 : ℚ) ^ (be - ((p : ℤ) - 1)) =
        ((m * 2 ^ k : ℤ) : ℚ) := by
      rw [mul_div_assoc, ← zpow_sub₀ (by norm_num : (2 : ℚ) ≠ 0), hk, zpow_natCast]
      push_cast
      rfl
    rw [hdiv, round_even_intCast]
    push_cast
    rw [mul_assoc, ← zpow_natCast, ← zpow_add₀ (by norm_num : (2 : ℚ) ≠ 0), ← hk]
    congr 2
    ring

/-- A natural number up to `2 ^ 64` is a `long double` value. -/
theorem round_ld_nat (N : ℕ) (h : N ≤ 2 ^ 64) : round_ld (N : ℚ) = (N : ℚ) := by
  unfold round_ld
  rcases Nat.lt_or_ge N (2 ^ 64) with hlt | hge
  · have := round_bits_repr 64 (N : ℤ) 0 (by
      rw [abs_of_nonneg (by positivity)]
      exact_mod_cast hlt)
    simpa using this
  · have hN : N = 2 ^ 64 := le_antisymm h hge
    have := round_bits_repr 64 1 64 (by norm_num)
    rw [hN]
    norm_num at this ⊢
    exact this

/-- An integer of magnitude up to `2 ^ 64` is a `long double` value. -/
theorem round_ld_int (z : ℤ) (h : z.natAbs ≤ 2 ^ 64) : round_ld (z : ℚ) = (z : ℚ) := by
  unfold round_ld
  rcases Nat.lt_or_ge z.natAbs (2 ^ 64) with hlt | hge
  · have := round_bits_repr 64 z 0 (by
      rw [Int.abs_eq_natAbs]
      exact_mod_cast hlt)
    simpa using this
  · have hN : z.natAbs = 2 ^ 64 := le_antisymm h hge
    rcases Int.natAbs_eq z with hz | hz
    · have := round_bits_repr 64 1 64 (by norm_num)
      rw [hz, hN]
      norm_num at this ⊢
      exact this
    · have := round_bits_repr 64 (-1) 64 (by norm_num)
      rw [hz, hN]
      norm_num at this ⊢
      exact this

theorem round_ld_zero : round_ld 0 = 0 := by
  simp [round_ld, round_bits]

/-! ## The sum of `rad_to_dec` where no operation rounds -/

theorem exact_rad_to_dec_int_ge (b : ℕ) (cs : List Char) (hcs : ∀ c ∈ cs, 0 ≤ digit_val c) :
    ∀ (j : ℕ) (acc : ℚ), acc ≤ exact_rad_to_dec_int b cs j acc := by
  induction cs with
  | nil => intro j acc; exact le_refl _
  | cons c cs ih =>
    intro j acc
    have hc := hcs c (List.mem_cons_self c cs)
    have hq : (0 : ℚ) ≤ (digit_val c : ℚ) := by exact_mod_cast hc
    simp only [exact_rad_to_dec_int]
    refine le_trans ?_ (ih (fun x hx => hcs x (List.mem_cons_of_mem c hx)) (j + 1) _)
    have : (0 : ℚ) ≤ (digit_val c : ℚ) * (b : ℚ) ^ j := mul_nonneg hq (by positivity)
    linarith

/-- As long as the exact sum stays within `2 ^ 64`, no operation of the first loop of
`rad_to_dec` rounds, and the loop computes the exact sum. -/
theorem rad_to_dec_int_exact (b : ℕ) (cs : List Char) (hcs : ∀ c ∈ cs, 0 ≤ digit_val c) :
    ∀ (j acc : ℕ), exact_rad_to_dec_int b cs j (acc : ℚ) ≤ 2 ^ 64 →
      rad_to_dec_int b cs j (acc : ℚ) = exact_rad_to_dec_int b cs j (acc : ℚ) := by
  induction cs with
  | nil => intro j acc _; rfl
  | cons c cs ih =>
    intro j acc hle
    have hc := hcs c (List.mem_cons_self c cs)
    have hcs2 : ∀ x ∈ cs, 0 ≤ digit_val x := fun x hx => hcs x (List.mem_cons_of_mem c hx)
    obtain ⟨d, hd⟩ : ∃ d : ℕ, digit_val c = (d : ℤ) := ⟨(digit_val c).toNat, by omega⟩
    simp only [exact_rad_to_dec_int, rad_to_dec_int, hd, Int.cast_natCast] at hle ⊢
    have hsum : (acc : ℚ) + (d : ℚ) * (b : ℚ) ^ j = ((acc + d * b ^ j : ℕ) : ℚ) := by
      push_cast; ring
    rw [hsum] at hle ⊢
    have hbound : acc + d * b ^ j ≤ 2 ^ 64 := by
      have h1 := le_trans (exact_rad_to_dec_int_ge b cs hcs2 (j + 1) _) hle
      exact_mod_cast h1
    have hterm : round_ld ((d : ℚ) * powl b (j : ℤ)) = ((d * b ^ j : ℕ) : ℚ) := by
      rcases Nat.eq_zero_or_pos d with h0 | hpos
      · rw [h0]; simp [round_ld_zero]
      · have hpow : b ^ j ≤ 2 ^ 64 := by
          have : b ^ j ≤ d * b ^ j := Nat.le_mul_of_pos_left _ hpos
          omega
        have hp : powl b (j : ℤ) = ((b ^ j : ℕ) : ℚ) := by
          unfold powl
          rw [zpow_natCast]
          have := round_ld_nat (b ^ j) hpow
          push_cast at this ⊢
          exact this
        rw [hp]
        have := round_ld_nat (d * b ^ j) (by omega)
        push_cast at this ⊢
        exact this
    rw [hterm]
    have hacc : round_ld ((acc : ℚ) + ((d * b ^ j : ℕ) : ℚ)) = ((acc + d * b ^ j : ℕ) : ℚ) := by
      have := round_ld_nat (acc + d * b ^ j) hbound
      push_cast at this ⊢
      exact this
    rw [hacc]
    exact ih hcs2 (j + 1) (acc + d * b ^ j) hle
/-! ## Radix conversion of integers -/

theorem trunc_of_nonneg (x : ℚ) (h : 0 ≤ x) : trunc x = (⌊x⌋₊ : ℤ) := by
  simp only [trunc, if_pos h]
  exact (Int.natCast_floor_eq_floor h).symm

theorem trunc_natCast (n : ℕ) : trunc (n : ℚ) = (n : ℤ) := by
  rw [trunc_of_nonneg _ (Nat.cast_nonneg n), Nat.floor_natCast]

theorem int_cast_eq_zero_iff (x : ℚ) : int_cast x = 0 ↔ trunc x = 0 := by
  unfold int_cast
  split_ifs with h
  · exact Iff.rfl
  · constructor
    · intro h0; exact absurd h0 (by decide)
    · intro h0; rw [h0] at h; exact absurd (by decide) h

theorem int_cast_of_range (x : ℚ) (h0 : 0 ≤ x) (h1 : x < 2147483648) :
    int_cast x = (⌊x⌋₊ : ℤ) := by
  have ht := trunc_of_nonneg x h0
  have hlt : ⌊x⌋₊ < 2147483648 := by
    have := Nat.floor_le h0
    have h2 : ((⌊x⌋₊ : ℕ) : ℚ) < ((2147483648 : ℕ) : ℚ) := by
      push_cast; exact lt_of_le_of_lt this h1
    exact_mod_cast h2
  unfold int_cast
  rw [ht, if_pos (by omega)]

theorem unsigned_cast_fmodl (q : ℚ) (b : ℕ) (hq : 0 ≤ q) (hb0 : 0 < b) (hb : b ≤ UINT_RANGE) :
    unsigned_cast (fmodl q b) = ⌊q⌋₊ % b := by
  have hdiv : 0 ≤ q / b := div_nonneg hq (Nat.cast_nonneg b)
  have hk : b * (⌊q⌋₊ / b) ≤ ⌊q⌋₊ := Nat.mul_div_le _ _
  have e1 : fmodl q b = q - ((b * (⌊q⌋₊ / b) : ℕ) : ℚ) := by
    rw [fmodl, trunc_of_nonneg _ hdiv, Nat.floor_div_nat]
    simp only [Int.cast_natCast, Nat.cast_mul]
  have hnn : 0 ≤ q - ((b * (⌊q⌋₊ / b) : ℕ) : ℚ) := by
    have h1 : ((b * (⌊q⌋₊ / b) : ℕ) : ℚ) ≤ (⌊q⌋₊ : ℚ) := by exact_mod_cast hk
    have h2 := Nat.floor_le hq
    linarith
  have hmod : ⌊q⌋₊ % b < b := Nat.mod_lt _ hb0
  have hdm := Nat.div_add_mod ⌊q⌋₊ b
  rw [unsigned_cast, e1, trunc_of_nonneg _ hnn, Nat.floor_sub_nat]
  simp only [UINT_RANGE] at hb ⊢
  rw [if_pos (by omega)]
  omega


theorem dec_to_rad_int_digits (b : ℕ) (hb : 2 ≤ b) (hb' : b ≤ UINT_RANGE) :
    ∀ (fuel : ℕ) (q : ℚ) (bin : List Char), 0 ≤ q → ⌊q⌋₊ < fuel →
      (∀ x : ℚ, 0 ≤ x → x ≤ q / b → (int_cast x = 0 ↔ ⌊x⌋₊ = 0)) →
      dec_to_rad_int b fuel q bin = some (bin ++ (radix_digits b ⌊q⌋₊).map digit_char) := by
  intro fuel
  induction fuel with
  | zero => intro q bin _ h; omega
  | succ fuel ih =>
    intro q bin hq hfuel hcast
    have hqb : 0 ≤ q / b := div_nonneg hq (Nat.cast_nonneg b)
    have hfl : ⌊q / b⌋₊ = ⌊q⌋₊ / b := Nat.floor_div_nat q b
    simp only [dec_to_rad_int]
    rw [unsigned_cast_fmodl q b hq (by omega) hb']
    by_cases hz : int_cast (q / b) = 0
    · rw [if_neg (not_not.mpr hz)]
      have h0 : ⌊q⌋₊ / b = 0 := by
        rw [← hfl]; exact (hcast (q / b) hqb le_rfl).mp hz
      have hlt : ⌊q⌋₊ < b := (Nat.div_eq_zero_iff (by omega)).mp h0
      congr 2
      unfold radix_digits
      split_ifs with ht
      · simp [ht]
      · rw [Nat.digits_of_lt b _ ht hlt, Nat.mod_eq_of_lt hlt]
        rfl
    · rw [if_pos hz]
      have hne : ⌊q⌋₊ / b ≠ 0 := by
        intro h0
        apply hz
        exact (hcast (q / b) hqb le_rfl).mpr (by rw [hfl]; exact h0)
      have hpos : 0 < ⌊q⌋₊ := by
        rcases Nat.eq_zero_or_pos ⌊q⌋₊ with h | h
        · rw [h] at hne; simp at hne
        · exact h
      have hdlt : ⌊q⌋₊ / b < ⌊q⌋₊ := Nat.div_lt_self hpos (by omega)
      have hb1 : (1 : ℚ) ≤ (b : ℚ) := by exact_mod_cast (by omega : 1 ≤ b)
      rw [ih (q / b) _ hqb (by rw [hfl]; omega)
        (fun x hx hxq => hcast x hx (le_trans hxq (div_le_self hqb hb1)))]
      rw [hfl]
      congr 1
      unfold radix_digits
      rw [if_neg hne, if_neg (by omega), Nat.digits_def' (by omega) hpos]
      simp

theorem natAbs_cast_eq (n : ℤ) :
    (if (n : ℚ) < 0 then (n : ℚ) * -1 else (n : ℚ)) = ((n.natAbs : ℕ) : ℚ) := by
  split_ifs with h
  · have h1 : n < 0 := by exact_mod_cast h
    have h2 : ((n.natAbs : ℕ) : ℤ) = -n := by omega
    have h3 : (((n.natAbs : ℕ) : ℤ) : ℚ) = ((-n : ℤ) : ℚ) := by rw [h2]
    rw [Int.cast_natCast, Int.cast_neg] at h3
    rw [h3]; ring
  · have h1 : 0 ≤ n := by
      have : (0 : ℚ) ≤ (n : ℚ) := not_lt.mp h
      exact_mod_cast this
    have h2 : ((n.natAbs : ℕ) : ℤ) = n := by omega
    have h3 : (((n.natAbs : ℕ) : ℤ) : ℚ) = (n : ℚ) := by rw [h2]
    rw [Int.cast_natCast] at h3
    rw [h3]

/-- The text `dec_to_rad` returns for an integer: the buffer content and the digits, then
the sign, the whole reversed. -/
theorem dec_to_rad_of_int (n : ℤ) (b : ℕ) (hb : 2 ≤ b) (hb' : b ≤ UINT_RANGE) (bin : List Char)
    (hcast : ∀ x : ℚ, 0 ≤ x → x ≤ ((n.natAbs : ℕ) : ℚ) / b → (int_cast x = 0 ↔ ⌊x⌋₊ = 0)) :
    dec_to_rad (n : ℚ) b bin =
      some ((bin ++ (radix_digits b n.natAbs).map digit_char ++
        (if n < 0 then ['-'] else [])).reverse) := by
  have hloop := dec_to_rad_int_digits b hb hb' (n.natAbs + 1) ((n.natAbs : ℕ) : ℚ) bin
    (Nat.cast_nonneg _) (by rw [Nat.floor_natCast]; omega) hcast
  rw [Nat.floor_natCast] at hloop
  unfold dec_to_rad
  simp only [natAbs_cast_eq, trunc_natCast, Int.toNat_ofNat, Int.cast_natCast, hloop, sub_self,
    ne_eq, not_true_eq_false, if_false]
  by_cases hn : n < 0
  · have : (n : ℚ) < 0 := by exact_mod_cast hn
    simp [hn, this]
  · have : ¬ (n : ℚ) < 0 := by
      intro h; apply hn; exact_mod_cast h
    simp [hn, this]


/-- The `do ... while` loop of `dec_to_rad` ends within the rounds the model gives it, at
every base from 2 on and for every value. -/
theorem dec_to_rad_terminates (num : ℚ) (b : ℕ) (hb : 2 ≤ b) (hb' : b ≤ UINT_RANGE)
    (bin : List Char) : ∃ s, dec_to_rad num b bin = some s := by
  have hnn : 0 ≤ (if num < 0 then num * -1 else num) := by
    split_ifs with h
    · linarith
    · exact not_lt.mp h
  unfold dec_to_rad
  simp only []
  generalize (if num < 0 then num * -1 else num) = a at hnn ⊢
  have hloop := dec_to_rad_int_digits b hb hb' (⌊a⌋₊ + 1) ((⌊a⌋₊ : ℕ) : ℚ) bin
    (Nat.cast_nonneg _) (by rw [Nat.floor_natCast]; omega)
    (fun x hx0 _ => by
      rw [int_cast_eq_zero_iff, trunc_of_nonneg x hx0]
      exact Int.natCast_eq_zero)
  rw [trunc_of_nonneg a hnn, Int.toNat_ofNat, Int.cast_natCast, hloop]
  simp only []
  split_ifs <;> exact ⟨_, rfl⟩

theorem digit_val_digit_char : ∀ d : ℕ, d < 36 → digit_val (digit_char d) = (d : ℤ) := by
  decide

theorem digit_char_plain : ∀ d : ℕ, d < 36 → digit_char d ≠ '-' ∧ digit_char d ≠ '.' := by
  decide

theorem rad_to_dec_int_map (b : ℕ) (ds : List ℕ) (hds : ∀ d ∈ ds, d < 36) :
    ∀ (j : ℕ) (acc : ℚ), exact_rad_to_dec_int b (ds.map digit_char) j acc =
      acc + (b : ℚ) ^ j * (Nat.ofDigits b ds : ℕ) := by
  induction ds with
  | nil => intro j acc; simp [exact_rad_to_dec_int, Nat.ofDigits]
  | cons d ds ih =>
    intro j acc
    have hd := hds d (List.mem_cons_self d ds)
    simp only [List.map_cons, exact_rad_to_dec_int]
    rw [ih (fun x hx => hds x (List.mem_cons_of_mem d hx)), digit_val_digit_char d hd,
      Nat.ofDigits_cons]
    push_cast
    ring

/-- The function `rad_to_dec` on a text without point, of fewer than 100 characters after
the sign: the first loop over the characters, and the sign. -/
theorem rad_to_dec_plain (X : List Char) (b : ℕ) (hX : ∀ c ∈ X, c ≠ '-' ∧ c ≠ '.')
    (hlen : X.length < 100) (neg : Bool) :
    rad_to_dec ((if neg then ['-'] else []) ++ X) b =
      some (if neg then -1 * rad_to_dec_int b X.reverse 0 0
        else rad_to_dec_int b X.reverse 0 0) := by
  have hnp : '.' ∉ X := fun h => (hX '.' h).2 rfl
  have htw : X.takeWhile (fun c => c != '.') = X := by
    rw [List.takeWhile_eq_self_iff]
    intro c hc
    simpa using (hX c hc).2
  have hcond : ¬ (100 ≤ X.length ∨ ('.' ∈ X ∧
      100 ≤ ((X.dropWhile (fun c => c != '.')).tail).length)) := by
    intro h
    rcases h with h | ⟨h, _⟩
    · omega
    · exact hnp h
  cases neg with
  | true =>
    simp only [rad_to_dec, if_true, List.singleton_append, List.head?_cons, decide_True,
      List.tail_cons, htw, if_neg hnp, if_neg hcond]
  | false =>
    have hh : ¬ (X.head? = some '-') := by
      intro h
      exact (hX '-' (List.mem_of_mem_head? h)).1 rfl
    simp only [rad_to_dec, Bool.false_eq_true, if_false, List.nil_append, hh, decide_False,
      htw, if_neg hnp, if_neg hcond]

theorem radix_digits_lt (b t : ℕ) (hb : 2 ≤ b) : ∀ d ∈ radix_digits b t, d < b := by
  intro d hd
  unfold radix_digits at hd
  split_ifs at hd with h
  · simp at hd; omega
  · exact Nat.digits_lt_base (by omega) hd

theorem ofDigits_radix_digits (b t : ℕ) : Nat.ofDigits b (radix_digits b t) = t := by
  unfold radix_digits
  split_ifs with h
  · simp [h, Nat.ofDigits]
  · exact Nat.ofDigits_digits b t

theorem radix_digits_length (b N : ℕ) (hb : 2 ≤ b) (hN : N ≤ 2 ^ 64) :
    (radix_digits b N).length ≤ 65 := by
  unfold radix_digits
  split_ifs with h
  · simp
  · by_contra hlen
    have h1 : b ^ 66 ≤ b ^ (Nat.digits b N).length := Nat.pow_le_pow_right (by omega) (by omega)
    have h2 := Nat.base_pow_length_digits_le b N (by omega) h
    have h3 : b * b ^ 65 ≤ b * N := by
      have : b ^ 66 = b * b ^ 65 := by ring
      omega
    have h4 : b ^ 65 ≤ N := Nat.le_of_mul_le_mul_left h3 (by omega)
    have h5 : (2 : ℕ) ^ 65 ≤ b ^ 65 := Nat.pow_le_pow_left hb 65
    have h6 : (2 : ℕ) ^ 64 < 2 ^ 65 := by norm_num
    omega

/-- The value `rad_to_dec` reads from the digits `ds`, least significant first, when the
value is at most `2 ^ 64` and the text has fewer than 100 characters. -/
theorem rad_to_dec_text (b : ℕ) (ds : List ℕ) (hds : ∀ d ∈ ds, d < 36)
    (hval : Nat.ofDigits b ds ≤ 2 ^ 64) (hlen : ds.length < 100) (neg : Bool) :
    rad_to_dec ((if neg then ['-'] else []) ++ (ds.map digit_char).reverse) b =
      some (if neg then -1 * ((Nat.ofDigits b ds : ℕ) : ℚ)
        else ((Nat.ofDigits b ds : ℕ) : ℚ)) := by
  have hplain : ∀ c ∈ (ds.map digit_char).reverse, c ≠ '-' ∧ c ≠ '.' := by
    intro c hc
    rw [List.mem_reverse, List.mem_map] at hc
    obtain ⟨d, hd, rfl⟩ := hc
    exact digit_char_plain d (hds d hd)
  have hnn : ∀ c ∈ ds.map digit_char, 0 ≤ digit_val c := by
    intro c hc
    rw [List.mem_map] at hc
    obtain ⟨d, hd, rfl⟩ := hc
    rw [digit_val_digit_char d (hds d hd)]
    exact Int.natCast_nonneg d
  have hexact : exact_rad_to_dec_int b (ds.map digit_char) 0 ((0 : ℕ) : ℚ) =
      ((Nat.ofDigits b ds : ℕ) : ℚ) := by
    rw [rad_to_dec_int_map b ds hds]
    simp
  have hloop : rad_to_dec_int b (ds.map digit_char) 0 0 = ((Nat.ofDigits b ds : ℕ) : ℚ) := by
    have h := rad_to_dec_int_exact b (ds.map digit_char) hnn 0 0 (by
      rw [hexact]
      exact_mod_cast hval)
    rw [hexact] at h
    simpa using h
  rw [rad_to_dec_plain _ b hplain (by simpa using hlen), List.reverse_reverse, hloop]

/-- The value `rad_to_dec` reads from the text `dec_to_rad` has for an integer of
magnitude up to `2 ^ 64`. -/
theorem rad_to_dec_of_digits (n : ℤ) (b : ℕ) (hb2 : 2 ≤ b) (hb36 : b ≤ 36)
    (hn : n.natAbs ≤ 2 ^ 64) :
    rad_to_dec (((radix_digits b n.natAbs).map digit_char ++
      (if n < 0 then ['-'] else [])).reverse) b = some (n : ℚ) := by
  have hlt : ∀ d ∈ radix_digits b n.natAbs, d < 36 := fun d hd =>
    lt_of_lt_of_le (radix_digits_lt b _ hb2 d hd) hb36
  have hshape : ((radix_digits b n.natAbs).map digit_char ++
      (if n < 0 then ['-'] else [])).reverse =
      (if decide (n < 0) then ['-'] else []) ++
        ((radix_digits b n.natAbs).map digit_char).reverse := by
    by_cases hn : n < 0 <;> simp [hn]
  have hlen := radix_digits_length b n.natAbs hb2 hn
  rw [hshape, rad_to_dec_text b _ hlt (by rw [ofDigits_radix_digits]; exact hn) (by omega),
    ofDigits_radix_digits]
  have h3 := natAbs_cast_eq n
  by_cases hn : n < 0
  · have hq : (n : ℚ) < 0 := by exact_mod_cast hn
    rw [if_pos hq] at h3
    simp only [hn, decide_True, if_true]
    rw [← h3]; simp
  · have hq : ¬ (n : ℚ) < 0 := by
      intro h; apply hn; exact_mod_cast h
    rw [if_neg hq] at h3
    simp only [hn, decide_False]
    rw [← h3]; simp

/-- Claim C1. For every base from 2 to 36 and every integer `n` whose quotient by the base
is within the range of `int`, `rad_to_dec` reads back exactly `n` from the text that
`dec_to_rad` writes for `n` into an empty buffer. -/
theorem radix_round_trip (b : ℕ) (n : ℤ) (hb2 : 2 ≤ b) (hb36 : b ≤ 36)
    (hrange : n.natAbs < 2147483648 * b) :
    ∃ s, dec_to_rad (n : ℚ) b [] = some s ∧ rad_to_dec s b = some (n : ℚ) := by
  have hcast : ∀ x : ℚ, 0 ≤ x → x ≤ ((n.natAbs : ℕ) : ℚ) / b →
      (int_cast x = 0 ↔ ⌊x⌋₊ = 0) := by
    intro x hx hxn
    have hbpos : (0 : ℚ) < (b : ℚ) := by exact_mod_cast (by omega : 0 < b)
    have h1 : ((n.natAbs : ℕ) : ℚ) / b < 2147483648 := by
      rw [div_lt_iff₀ hbpos]
      exact_mod_cast hrange
    rw [int_cast_of_range x hx (lt_of_le_of_lt hxn h1)]
    exact Int.natCast_eq_zero
  refine ⟨_, dec_to_rad_of_int n b hb2 (by simp only [UINT_RANGE]; omega) [] hcast, ?_⟩
  rw [List.nil_append]
  exact rad_to_dec_of_digits n b hb2 hb36 (by
    have : (2147483648 : ℕ) * b ≤ 2 ^ 64 := by
      have : (2147483648 : ℕ) * b ≤ 2147483648 * 36 := Nat.mul_le_mul_left _ hb36
      norm_num at this ⊢
      omega
    omega)

theorem radix_round_trip_witness :
    (2 ≤ 16 ∧ 16 ≤ 36 ∧ (-255 : ℤ).natAbs < 2147483648 * 16) ∧
    ∃ s, dec_to_rad ((-255 : ℤ) : ℚ) 16 [] = some s ∧
      rad_to_dec s 16 = some ((-255 : ℤ) : ℚ) :=
  ⟨by decide, radix_round_trip 16 (-255) (by decide) (by decide) (by decide)⟩

/-! ## The conversion between positional bases -/

theorem digit_val_of_valid (c : Char) (b : ℕ) (h : valid_digit c b) :
    digit_val c = (((spec_digit c).getD 0 : ℕ) : ℤ) ∧ c ≠ '-' ∧ c ≠ '.' := by
  have hm : c = '-' → c.toNat = 45 := by intro hc; subst hc; decide
  have hp : c = '.' → c.toNat = 46 := by intro hc; subst hc; decide
  simp only [valid_digit, spec_digit] at h
  simp only [digit_val, isdigit, toupper, spec_digit, Bool.and_eq_true, decide_eq_true_eq]
  split_ifs at h with g1 g2 g3
  · rw [if_pos g1, if_pos g1]
    refine ⟨?_, fun hc => ?_, fun hc => ?_⟩
    · simp only [Option.getD_some]; omega
    · have := hm hc; omega
    · have := hp hc; omega
  · rw [if_neg g1, if_neg g1, if_pos g2, if_neg (by omega)]
    refine ⟨?_, fun hc => ?_, fun hc => ?_⟩
    · simp only [Option.getD_some]; omega
    · have := hm hc; omega
    · have := hp hc; omega
  · rw [if_neg g1, if_neg g1, if_neg g2, if_pos g3, if_pos g3]
    refine ⟨?_, fun hc => ?_, fun hc => ?_⟩
    · simp only [Option.getD_some]; omega
    · have := hm hc; omega
    · have := hp hc; omega
  · exact absurd h (by simp)

theorem rad_to_dec_int_horner (b : ℕ) (L : List Char) (hL : ∀ c ∈ L, valid_digit c b) :
    ∀ (j : ℕ) (acc : ℚ), exact_rad_to_dec_int b L j acc =
      acc + (b : ℚ) ^ j *
        ((L.foldr (fun c a => a * b + (spec_digit c).getD 0) 0 : ℕ) : ℚ) := by
  induction L with
  | nil => intro j acc; simp [exact_rad_to_dec_int]
  | cons c L ih =>
    intro j acc
    have hc := (digit_val_of_valid c b (hL c (List.mem_cons_self c L))).1
    simp only [exact_rad_to_dec_int, List.foldr_cons]
    rw [ih (fun x hx => hL x (List.mem_cons_of_mem c hx)), hc]
    push_cast
    ring

/-- The function `rad_to_dec` computes the positional value of an integer literal of
fewer than 100 digits whose value is at most `2 ^ 64`. -/
theorem rad_to_dec_positional (lit ds : List Char) (b : ℕ)
    (hlit : lit = ds ∨ lit = '-' :: ds) (hds : ∀ c ∈ ds, valid_digit c b)
    (hlen : ds.length < 100) (hbound : spec_digits_value b ds ≤ 2 ^ 64) :
    rad_to_dec lit b = some ((positional_value lit b : ℤ) : ℚ) := by
  have hplain : ∀ c ∈ ds, c ≠ '-' ∧ c ≠ '.' := fun c hc => (digit_val_of_valid c b (hds c hc)).2
  have hexact : exact_rad_to_dec_int b ds.reverse 0 ((0 : ℕ) : ℚ) =
      ((spec_digits_value b ds : ℕ) : ℚ) := by
    rw [rad_to_dec_int_horner b ds.reverse (fun c hc => hds c (List.mem_reverse.mp hc)),
      List.foldr_reverse]
    simp [spec_digits_value]
  have hnn : ∀ c ∈ ds.reverse, 0 ≤ digit_val c := by
    intro c hc
    rw [(digit_val_of_valid c b (hds c (List.mem_reverse.mp hc))).1]
    exact Int.natCast_nonneg _
  have hval : rad_to_dec_int b ds.reverse 0 0 = ((spec_digits_value b ds : ℕ) : ℚ) := by
    have h := rad_to_dec_int_exact b ds.reverse hnn 0 0 (by
      rw [hexact]
      exact_mod_cast hbound)
    rw [hexact] at h
    simpa using h
  rcases hlit with h | h
  · subst h
    have h1 := rad_to_dec_plain lit b hplain hlen false
    simp only [Bool.false_eq_true, if_false, List.nil_append] at h1
    rw [h1, hval]
    have hpv : positional_value lit b = (spec_digits_value b lit : ℤ) := by
      cases lit with
      | nil => rfl
      | cons c cs =>
        have hne : c ≠ '-' := (hplain c (List.mem_cons_self c cs)).1
        unfold positional_value
        split
        · rename_i heq
          simp only [List.cons.injEq] at heq
          exact absurd heq.1 hne
        · rfl
    rw [hpv]; simp
  · subst h
    have h1 := rad_to_dec_plain ds b hplain hlen true
    simp only [if_true, List.singleton_append] at h1
    rw [h1, hval]
    simp [positional_value]

/-- Claim C2, as the code has it. From Binary or RadixN(b1) to RadixN(b2), with bases from
2 to 36, `conversion` of an integer literal (an optional sign, then fewer than 100
digits valid for the source base, of a value up to `2 ^ 64`) returns, for an empty
buffer, exactly the text `dec_to_rad` has for the positional value of the literal in the
destination base, and writes nothing to `stderr`; that text exists. -/
theorem conversion_radix (atof : List Char → ℚ) (from_ to_ b1 b2 : ℕ) (lit ds : List Char)
    (hb1 : 2 ≤ b1 ∧ b1 ≤ 36) (hb2 : 2 ≤ b2 ∧ b2 ≤ 36)
    (hsrc : (from_ = BIN ∧ b1 = 2) ∨ from_ = SCRAP + b1) (hdst : to_ = SCRAP + b2)
    (hlit : lit = ds ∨ lit = '-' :: ds) (hds : ∀ c ∈ ds, valid_digit c b1)
    (hlen : ds.length < 100) (hbound : spec_digits_value b1 ds ≤ 2 ^ 64) :
    conversion atof from_ to_ lit [] =
      (dec_to_rad ((positional_value lit b1 : ℤ) : ℚ) b2 [], []) ∧
    ∃ s, dec_to_rad ((positional_value lit b1 : ℤ) : ℚ) b2 [] = some s := by
  have hx : conversion_from atof from_ lit = (some ((positional_value lit b1 : ℤ) : ℚ), []) := by
    rcases hsrc with ⟨hf, hb⟩ | hf
    · subst hb
      rw [← rad_to_dec_positional lit ds 2 hlit hds hlen hbound]
      simp [conversion_from, hf, BIN, BCD]
    · rw [← rad_to_dec_positional lit ds b1 hlit hds hlen hbound]
      have e : usub from_ SCRAP = b1 := by
        simp only [usub, UINT_RANGE, SCRAP] at *; omega
      have e1 : from_ ≠ BCD := by simp only [BCD, SCRAP] at *; omega
      have e2 : from_ ≠ BIN := by simp only [BIN, SCRAP] at *; omega
      have e3 : from_ ≠ CO1 := by simp only [CO1, SCRAP] at *; omega
      have e4 : from_ ≠ CO2 := by simp only [CO2, SCRAP] at *; omega
      have e5 : from_ ≠ DEC := by simp only [DEC, SCRAP] at *; omega
      have e6 : from_ ≠ MES := by simp only [MES, SCRAP] at *; omega
      have e7 : from_ ≠ ROM := by simp only [ROM, SCRAP] at *; omega
      have e8 : b1 ≠ 1 := by omega
      simp only [conversion_from, if_neg e1, if_neg e2, if_neg e3, if_neg e4, if_neg e5,
        if_neg e6, if_neg e7, e, if_neg e8]
  have hto : ∀ x : ℚ, conversion_to to_ x lit [] = (dec_to_rad x b2 [], []) := by
    intro x
    have e : usub to_ SCRAP = b2 := by
      simp only [usub, UINT_RANGE, SCRAP] at *; omega
    have e1 : to_ ≠ BCD := by simp only [BCD, SCRAP] at *; omega
    have e2 : to_ ≠ BIN := by simp only [BIN, SCRAP] at *; omega
    have e3 : to_ ≠ CO1 := by simp only [CO1, SCRAP] at *; omega
    have e4 : to_ ≠ CO2 := by simp only [CO2, SCRAP] at *; omega
    have e5 : to_ ≠ DEC := by simp only [DEC, SCRAP] at *; omega
    have e6 : to_ ≠ MES := by simp only [MES, SCRAP] at *; omega
    have e7 : to_ ≠ ROM := by simp only [ROM, SCRAP] at *; omega
    have e9 : to_ ≠ FLT := by simp only [FLT, SCRAP] at *; omega
    have e8 : b2 ≠ 1 := by omega
    simp only [conversion_to, if_neg e1, if_neg e2, if_neg e3, if_neg e4, if_neg e5,
      if_neg e6, if_neg e7, if_neg e9, e, if_neg e8]
  constructor
  · simp only [conversion, hx, hto, List.nil_append]
  · exact ⟨_, dec_to_rad_of_int (positional_value lit b1) b2 hb2.1
      (by simp only [UINT_RANGE]; omega) []
      (fun x hx0 _ => by
        rw [int_cast_eq_zero_iff, trunc_of_nonneg x hx0]
        exact Int.natCast_eq_zero)⟩

theorem conversion_radix_witness :
    ((2 ≤ 2 ∧ 2 ≤ 36) ∧ (2 ≤ 15 ∧ 15 ≤ 36) ∧ ((BIN = BIN ∧ 2 = 2) ∨ BIN = SCRAP + 2) ∧
      SCRAP + 15 = SCRAP + 15 ∧ (∀ c ∈ "1010011010".toList, valid_digit c 2) ∧
      "1010011010".toList.length < 100 ∧ spec_digits_value 2 "1010011010".toList ≤ 2 ^ 64) ∧
    (conversion (fun _ => 0) BIN (SCRAP + 15) "1010011010".toList [] =
      (dec_to_rad ((positional_value "1010011010".toList 2 : ℤ) : ℚ) 15 [], []) ∧
    ∃ s, dec_to_rad ((positional_value "1010011010".toList 2 : ℤ) : ℚ) 15 [] = some s) ∧
    positional_value "1010011010".toList 2 = 666 ∧
    dec_to_rad 666 15 [] = some "2E6".toList :=
  ⟨by decide,
    conversion_radix (fun _ => 0) BIN (SCRAP + 15) 2 15 "1010011010".toList "1010011010".toList
      (by decide) (by decide) (by decide) rfl (Or.inl rfl) (by decide) (by decide) (by decide),
    by decide, by decide!⟩

/-- Claim C2, counterexample. The binary literal of 65 digits `1`, 63 times `0`, `1` has
the value `2 ^ 64 + 1`, which needs 65 significant bits: the last sum of `rad_to_dec`
rounds to `2 ^ 64`, and `conversion` to base 16 returns the text of `2 ^ 64`, not the
text `dec_to_rad` has for the value of the literal. -/
theorem conversion_radix_rounds :
    (∀ c ∈ '1' :: (List.replicate 63 '0' ++ ['1']), valid_digit c 2) ∧
    positional_value ('1' :: (List.replicate 63 '0' ++ ['1'])) 2 = 18446744073709551617 ∧
    conversion (fun _ => 0) BIN (SCRAP + 16) ('1' :: (List.replicate 63 '0' ++ ['1'])) [] =
      (some "10000000000000000".toList, []) ∧
    dec_to_rad (18446744073709551617 : ℚ) 16 [] = some "10000000000000001".toList ∧
    conversion (fun _ => 0) BIN (SCRAP + 16) ('1' :: (List.replicate 63 '0' ++ ['1'])) [] ≠
      (dec_to_rad ((positional_value ('1' :: (List.replicate 63 '0' ++ ['1'])) 2 : ℤ) : ℚ)
        16 [], []) := by
  decide!
/-! ## Two's complement -/

/-- The value `rad_to_dec` reads from digits, least significant first, of a value up to
`2 ^ 64` in a text of fewer than 100 characters. -/
theorem rad_to_dec_digits (b : ℕ) (E : List ℕ) (hE : ∀ d ∈ E, d < 36)
    (hval : Nat.ofDigits b E ≤ 2 ^ 64) (hlen : E.length < 100) :
    rad_to_dec ((E.map digit_char).reverse) b = some ((Nat.ofDigits b E : ℕ) : ℚ) := by
  have h := rad_to_dec_text b E hE hval hlen false
  simpa using h

theorem round_ld_long_double (N : ℕ) (h : long_double_nat N) : round_ld (N : ℚ) = (N : ℚ) := by
  obtain ⟨m, e, hm, rfl⟩ := h
  have := round_bits_repr 64 (m : ℤ) (e : ℤ) (by
    rw [abs_of_nonneg (Int.natCast_nonneg m)]
    exact_mod_cast hm)
  unfold round_ld
  push_cast at this ⊢
  rw [zpow_natCast] at this
  exact this

theorem long_double_nat_pow (j : ℕ) : long_double_nat (2 ^ j) :=
  ⟨1, j, by norm_num, by simp⟩

/-- The low bits of a `long double` value are a `long double` value. -/
theorem long_double_nat_mod (N k : ℕ) (h : long_double_nat N) : long_double_nat (N % 2 ^ k) := by
  obtain ⟨m, e, hm, rfl⟩ := h
  rcases Nat.lt_or_ge e k with hlt | hge
  · obtain ⟨i, rfl⟩ : ∃ i, k = i + e := ⟨k - e, by omega⟩
    refine ⟨m % 2 ^ i, e, lt_of_le_of_lt (Nat.mod_le _ _) hm, ?_⟩
    rw [pow_add, Nat.mul_mod_mul_right]
  · obtain ⟨i, rfl⟩ : ∃ i, e = k + i := ⟨e - k, by omega⟩
    refine ⟨0, 0, by norm_num, ?_⟩
    have e : m * 2 ^ (k + i) = 2 ^ k * (2 ^ i * m) := by ring
    rw [e, Nat.mul_mod_right]
    simp

theorem ofDigits_take_mod (E : List ℕ) (hE : ∀ d ∈ E, d < 2) :
    ∀ k : ℕ, Nat.ofDigits 2 (E.take k) = Nat.ofDigits 2 E % 2 ^ k := by
  induction E with
  | nil => intro k; simp [Nat.ofDigits]
  | cons d E ih =>
    intro k
    have hd := hE d (List.mem_cons_self d E)
    cases k with
    | zero => simp [Nat.ofDigits, Nat.mod_one]
    | succ k =>
      rw [List.take_succ_cons, Nat.ofDigits_cons, Nat.ofDigits_cons,
        ih (fun x hx => hE x (List.mem_cons_of_mem d hx)) k, pow_succ]
      generalize Nat.ofDigits 2 E = X
      have hP : 0 < 2 ^ k := by positivity
      generalize 2 ^ k = P at hP
      have h1 := Nat.div_add_mod X P
      have h2 := Nat.mod_lt X hP
      have h3 : d + 2 * X = d + 2 * (X % P) + P * 2 * (X / P) := by
        nth_rewrite 1 [← h1]; ring
      have hlt : d + 2 * (X % P) < P * 2 := by omega
      conv_rhs => rw [h3, Nat.add_mul_mod_self_left, Nat.mod_eq_of_lt hlt]

/-- The first loop of `rad_to_dec` on bits whose partial sums are `long double` values:
no operation rounds. -/
theorem rad_to_dec_int_bits (E : List ℕ) (hE : ∀ d ∈ E, d < 2) :
    ∀ (j acc : ℕ), (∀ k : ℕ, long_double_nat (acc + 2 ^ j * Nat.ofDigits 2 (E.take k))) →
      rad_to_dec_int 2 (E.map digit_char) j (acc : ℚ) =
        ((acc + 2 ^ j * Nat.ofDigits 2 E : ℕ) : ℚ) := by
  induction E with
  | nil => intro j acc _; simp [rad_to_dec_int, Nat.ofDigits]
  | cons d E ih =>
    intro j acc hrep
    have hd := hE d (List.mem_cons_self d E)
    have hE2 : ∀ x ∈ E, x < 2 := fun x hx => hE x (List.mem_cons_of_mem d hx)
    have hpow : powl ((2 : ℕ) : ℚ) (j : ℤ) = ((2 ^ j : ℕ) : ℚ) := by
      unfold powl
      rw [zpow_natCast]
      have := round_ld_long_double (2 ^ j) (long_double_nat_pow j)
      push_cast at this ⊢
      exact this
    have hterm : round_ld (((digit_val (digit_char d) : ℤ) : ℚ) * powl ((2 : ℕ) : ℚ) (j : ℤ)) =
        ((d * 2 ^ j : ℕ) : ℚ) := by
      rw [hpow, digit_val_digit_char d (by omega)]
      have hdj : long_double_nat (d * 2 ^ j) := ⟨d, j, by omega, rfl⟩
      have := round_ld_long_double _ hdj
      push_cast at this ⊢
      exact this
    have h1 := hrep 1
    simp only [List.take_succ_cons, List.take_zero, Nat.ofDigits_singleton] at h1
    have hacc : round_ld ((acc : ℚ) + ((d * 2 ^ j : ℕ) : ℚ)) = ((acc + d * 2 ^ j : ℕ) : ℚ) := by
      have h2 : acc + 2 ^ j * d = acc + d * 2 ^ j := by ring
      rw [h2] at h1
      have := round_ld_long_double _ h1
      push_cast at this ⊢
      exact this
    simp only [List.map_cons, rad_to_dec_int]
    rw [hterm, hacc, ih hE2 (j + 1) (acc + d * 2 ^ j) (fun k => by
      have := hrep (k + 1)
      rw [List.take_succ_cons, Nat.ofDigits_cons] at this
      have e : acc + 2 ^ j * (d + 2 * Nat.ofDigits 2 (E.take k)) =
          acc + d * 2 ^ j + 2 ^ (j + 1) * Nat.ofDigits 2 (E.take k) := by ring
      rw [e] at this
      exact this)]
    rw [Nat.ofDigits_cons]
    congr 1
    ring

/-- The value `rad_to_dec` reads from a text of fewer than 100 bits whose value is a
`long double` value. -/
theorem rad_to_dec_bits (E : List ℕ) (hE : ∀ d ∈ E, d < 2)
    (hrep : long_double_nat (Nat.ofDigits 2 E)) (hlen : E.length < 100) :
    rad_to_dec ((E.map digit_char).reverse) 2 = some ((Nat.ofDigits 2 E : ℕ) : ℚ) := by
  have hplain : ∀ c ∈ (E.map digit_char).reverse, c ≠ '-' ∧ c ≠ '.' := by
    intro c hc
    rw [List.mem_reverse, List.mem_map] at hc
    obtain ⟨d, hd, rfl⟩ := hc
    exact digit_char_plain d (lt_trans (hE d hd) (by decide))
  have h := rad_to_dec_plain _ 2 hplain (by simpa using hlen) false
  simp only [Bool.false_eq_true, if_false, List.nil_append, List.reverse_reverse] at h
  have hloop := rad_to_dec_int_bits E hE 0 0 (fun k => by
    simp only [pow_zero, one_mul, zero_add]
    rw [ofDigits_take_mod E hE k]
    exact long_double_nat_mod _ k hrep)
  simp only [Nat.cast_zero, pow_zero, one_mul, zero_add] at hloop
  rw [h, hloop]

theorem radix_digits_bits_length (N k : ℕ) (hk : 1 ≤ k) (h : N < 2 ^ k) :
    (radix_digits 2 N).length ≤ k := by
  unfold radix_digits
  split_ifs with h0
  · simpa using hk
  · by_contra hlen
    have h1 : 2 ^ (k + 1) ≤ 2 ^ (Nat.digits 2 N).length :=
      Nat.pow_le_pow_right (by norm_num) (by omega)
    have h2 := Nat.base_pow_length_digits_le 2 N (by norm_num) h0
    rw [pow_succ] at h1
    omega

theorem c1_converter_digits (E : List ℕ) (hE : ∀ d ∈ E, d < 2) :
    c1_converter ((E.map digit_char).reverse) =
      ((E.map (fun d => 1 - d)).map digit_char).reverse := by
  have hpt : ∀ d : ℕ, d < 2 →
      (if digit_char d = '0' then '1' else '0') = digit_char (1 - d) := by decide
  unfold c1_converter
  rw [List.map_reverse, List.map_map, List.map_map]
  congr 1
  apply List.map_congr_left
  intro d hd
  exact hpt d (hE d hd)

theorem ofDigits_complement (E : List ℕ) (hE : ∀ d ∈ E, d < 2) :
    Nat.ofDigits 2 (E.map (fun d => 1 - d)) + Nat.ofDigits 2 E + 1 = 2 ^ E.length := by
  induction E with
  | nil => simp [Nat.ofDigits]
  | cons d E ih =>
    have hd := hE d (List.mem_cons_self d E)
    have := ih (fun x hx => hE x (List.mem_cons_of_mem d hx))
    simp only [List.map_cons, Nat.ofDigits_cons, List.length_cons, pow_succ]
    omega

theorem complement_bits (E : List ℕ) : ∀ d ∈ E.map (fun d => 1 - d), d < 2 := by
  intro d hd
  rw [List.mem_map] at hd
  obtain ⟨e, _, rfl⟩ := hd
  omega

theorem binary_sum1_reverse (k : ℕ) (c : Char) (rest : List Char) (hc : c ≠ '1') :
    binary_sum1 ((List.replicate k '1' ++ c :: rest).reverse) =
      (List.replicate k '0' ++ '1' :: rest).reverse := by
  have htw : (List.replicate k '1' ++ c :: rest).takeWhile (fun x => x == '1') =
      List.replicate k '1' := by
    rw [List.takeWhile_append_of_pos (fun a ha => by
      rw [List.eq_of_mem_replicate ha]; rfl)]
    rw [List.takeWhile_cons_of_neg (by simpa using hc)]
    simp
  have hshape : (List.replicate k '1' ++ c :: rest).reverse =
      rest.reverse ++ c :: List.replicate k '1' := by simp
  unfold binary_sum1
  simp only [List.reverse_reverse, htw, List.length_replicate, List.length_reverse,
    List.length_append, List.length_cons]
  rw [if_pos (by omega), hshape, List.take_left' (by simp)]
  simp

theorem bits_not_all_ones (E : List ℕ) (hE : ∀ d ∈ E, d < 2)
    (h : Nat.ofDigits 2 E + 1 < 2 ^ E.length) :
    ∃ (k : ℕ) (rest : List ℕ), E = List.replicate k 1 ++ 0 :: rest := by
  induction E with
  | nil => simp [Nat.ofDigits] at h
  | cons d E ih =>
    have hd := hE d (List.mem_cons_self d E)
    rcases Nat.eq_zero_or_pos d with h0 | h1
    · exact ⟨0, E, by simp [h0]⟩
    · have hd1 : d = 1 := by omega
      subst hd1
      simp only [Nat.ofDigits_cons, List.length_cons, pow_succ] at h
      obtain ⟨k, rest, hk⟩ := ih (fun x hx => hE x (List.mem_cons_of_mem 1 hx)) (by omega)
      exact ⟨k + 1, rest, by rw [hk]; rfl⟩

theorem ofDigits_increment (k : ℕ) (rest : List ℕ) :
    Nat.ofDigits 2 (List.replicate k 0 ++ 1 :: rest) =
      Nat.ofDigits 2 (List.replicate k 1 ++ 0 :: rest) + 1 := by
  induction k with
  | zero => simp [Nat.ofDigits_cons]; omega
  | succ k ih =>
    simp only [List.replicate_succ, List.cons_append, Nat.ofDigits_cons]
    omega

/-- The function `binary_sum1` on a bit string that is not all ones: the value grows by
one and the length stays. -/
theorem binary_sum1_bits (E : List ℕ) (hE : ∀ d ∈ E, d < 2)
    (h : Nat.ofDigits 2 E + 1 < 2 ^ E.length) :
    ∃ E' : List ℕ, binary_sum1 ((E.map digit_char).reverse) = (E'.map digit_char).reverse ∧
      E'.length = E.length ∧ (∀ d ∈ E', d < 2) ∧
      Nat.ofDigits 2 E' = Nat.ofDigits 2 E + 1 := by
  obtain ⟨k, rest, hk⟩ := bits_not_all_ones E hE h
  subst hk
  refine ⟨List.replicate k 0 ++ 1 :: rest, ?_, by simp, ?_, ofDigits_increment k rest⟩
  · have h0 : digit_char 0 = '0' := by decide
    have h1 : digit_char 1 = '1' := by decide
    simp only [List.map_append, List.map_replicate, List.map_cons, h0, h1]
    exact binary_sum1_reverse k '0' _ (by decide)
  · intro d hd
    simp only [List.mem_append, List.mem_cons] at hd
    rcases hd with hd | hd | hd
    · rw [List.eq_of_mem_replicate hd]; omega
    · omega
    · exact hE d (by simp [hd])

theorem top_bit_of_large (E : List ℕ) (L : ℕ) (hE : ∀ d ∈ E, d < 2) (hlen : E.length = L + 1)
    (h : 2 ^ L ≤ Nat.ofDigits 2 E) : ((E.map digit_char).reverse).head? = some '1' := by
  rcases List.eq_nil_or_concat E with hnil | ⟨F, e, hF⟩
  · rw [hnil] at hlen; simp at hlen
  · rw [List.concat_eq_append] at hF
    subst hF
    have hFlen : F.length = L := by simpa using hlen
    have he := hE e (by simp)
    have hFlt : Nat.ofDigits 2 F < 2 ^ F.length :=
      Nat.ofDigits_lt_base_pow_length (by omega) (fun x hx => hE x (by simp [hx]))
    rw [Nat.ofDigits_append, Nat.ofDigits_singleton, hFlen] at h
    rw [hFlen] at hFlt
    have he1 : e = 1 := by
      rcases Nat.eq_zero_or_pos e with h0 | h1
      · rw [h0] at h; omega
      · omega
    subst he1
    simp only [List.map_append, List.map_cons, List.map_nil, List.reverse_append,
      List.reverse_cons, List.reverse_nil, List.nil_append, List.singleton_append,
      List.head?_cons]
    rfl

theorem radix_digits_bits (m : ℕ) : ∀ d ∈ radix_digits 2 m, d < 2 :=
  radix_digits_lt 2 m (le_refl 2)

/-- The binary text of the magnitude that `dec_to_co1` and `dec_to_mes` ask of
`dec_to_rad`. -/
theorem dec_to_rad_magnitude (n : ℤ) :
    dec_to_rad (if (n : ℚ) < 0 then -1 * (n : ℚ) else (n : ℚ)) 2 [] =
      some (((radix_digits 2 n.natAbs).map digit_char).reverse) := by
  have harg : (if (n : ℚ) < 0 then -1 * (n : ℚ) else (n : ℚ)) = (((n.natAbs : ℕ) : ℤ) : ℚ) := by
    rw [Int.cast_natCast, ← natAbs_cast_eq n]
    split_ifs <;> ring
  rw [harg, dec_to_rad_of_int ((n.natAbs : ℕ) : ℤ) 2 (le_refl 2) (by decide) []
    (fun x hx0 _ => by
      rw [int_cast_eq_zero_iff, trunc_of_nonneg x hx0]
      exact Int.natCast_eq_zero)]
  have hneg : ¬ (((n.natAbs : ℕ) : ℤ) < 0) := by omega
  simp only [Int.natAbs_ofNat, if_neg hneg, List.nil_append, List.append_nil]

/-- The text of `dec_to_co1` for an integer whose binary text fits the block of 128 bytes,
in digit values from the last character on. -/
theorem dec_to_co1_of_int (n : ℤ) (buf : List Char)
    (hlen : (radix_digits 2 n.natAbs).length ≤ 126) :
    dec_to_co1 (n : ℚ) buf = some (((if n < 0
      then (radix_digits 2 n.natAbs).map (fun d => 1 - d) ++ [1]
      else radix_digits 2 n.natAbs ++ [0]).map digit_char).reverse) := by
  have h0 : digit_char 0 = '0' := by decide
  have h1 : digit_char 1 = '1' := by decide
  have hl1 : ¬ 128 < (((radix_digits 2 n.natAbs).map digit_char).reverse).length + 1 := by
    simp only [List.length_reverse, List.length_map]; omega
  have hl2 : ¬ 128 < (((radix_digits 2 n.natAbs).map digit_char).reverse).length + 2 := by
    simp only [List.length_reverse, List.length_map]; omega
  unfold dec_to_co1
  rw [dec_to_rad_magnitude n]
  by_cases hn : n < 0
  · have hq : (n : ℚ) < 0 := by exact_mod_cast hn
    simp only [if_neg hl1, if_pos hq, if_pos hn,
      c1_converter_digits _ (radix_digits_bits n.natAbs)]
    simp [h1]
  · have hq : ¬ (n : ℚ) < 0 := by
      intro h; apply hn; exact_mod_cast h
    simp only [if_neg hl1, if_neg hl2, if_neg hq, if_neg hn]
    simp [h0]

/-- Claim C5, as the code has it. For every integer `n` from `-2 ^ 64` on that is a
`long double` value below `2 ^ 98`, negative or not, `co2_to_dec` reads back exactly `n`
from the text that `dec_to_co2` writes for `n`, at the width `dec_to_co2` gives it. -/
theorem twos_complement_round_trip (n : ℤ) (hlow : -2 ^ 64 ≤ n) (hhigh : n < 2 ^ 98)
    (hrep : long_double_nat n.natAbs) :
    ∃ s, dec_to_co2 (n : ℚ) [] = some s ∧ co2_to_dec s = some (n : ℚ) := by
  have hD := radix_digits_bits n.natAbs
  have hval := ofDigits_radix_digits 2 n.natAbs
  by_cases hn : n < 0
  · have hq : ¬ (-1 : ℚ) < (n : ℚ) := by
      have : n ≤ -1 := by omega
      have h2 : (n : ℚ) ≤ ((-1 : ℤ) : ℚ) := by exact_mod_cast this
      push_cast at h2
      exact not_lt.mpr h2
    have hmag : n.natAbs ≤ 2 ^ 64 := by omega
    have hLlen := radix_digits_length 2 n.natAbs (le_refl 2) hmag
    have hcompl := ofDigits_complement (radix_digits 2 n.natAbs) hD
    rw [hval] at hcompl
    have hEbits : ∀ d ∈ (radix_digits 2 n.natAbs).map (fun d => 1 - d) ++ [1], d < 2 := by
      intro d hd
      rw [List.mem_append] at hd
      rcases hd with hd | hd
      · exact complement_bits _ d hd
      · simp at hd; omega
    have hEval : Nat.ofDigits 2 ((radix_digits 2 n.natAbs).map (fun d => 1 - d) ++ [1]) =
        Nat.ofDigits 2 ((radix_digits 2 n.natAbs).map (fun d => 1 - d)) +
          2 ^ (radix_digits 2 n.natAbs).length := by
      rw [Nat.ofDigits_append, Nat.ofDigits_singleton]; simp
    have hElen : ((radix_digits 2 n.natAbs).map (fun d => 1 - d) ++ [1]).length =
        (radix_digits 2 n.natAbs).length + 1 := by simp
    have hpos : 1 ≤ n.natAbs := by omega
    obtain ⟨E', hsum, hlen', hbits', hval'⟩ := binary_sum1_bits _ hEbits
      (by rw [hEval, hElen, pow_succ]; omega)
    have hhead := top_bit_of_large E' (radix_digits 2 n.natAbs).length hbits'
      (by rw [hlen', hElen]) (by rw [hval', hEval]; omega)
    have hcompl' := ofDigits_complement E' hbits'
    rw [hlen', hElen, pow_succ, hval', hEval] at hcompl'
    have hfin : ((Nat.ofDigits 2 (E'.map (fun d => 1 - d)) : ℕ) : ℤ) = -n - 1 := by omega
    refine ⟨(E'.map digit_char).reverse, ?_, ?_⟩
    · have hl : ¬ 128 < ((((radix_digits 2 n.natAbs).map (fun d => 1 - d) ++ [1]).map
          digit_char).reverse).length + 1 := by
        simp only [List.length_reverse, List.length_map, hElen]; omega
      unfold dec_to_co2
      rw [dec_to_co1_of_int n [] (by omega), if_pos hn]
      simp only [if_neg hl, if_neg hq, hsum]
    · unfold co2_to_dec co1_to_dec
      rw [if_pos hhead, if_pos hhead, c1_converter_digits E' hbits',
        rad_to_dec_digits 2 _ (fun d hd => lt_trans (complement_bits E' d hd) (by decide))
          (by omega) (by simp only [List.length_map]; omega)]
      have hfin' : ((Nat.ofDigits 2 (E'.map (fun d => 1 - d)) : ℕ) : ℚ) = -(n : ℚ) - 1 := by
        generalize Nat.ofDigits 2 (E'.map (fun d => 1 - d)) = X at hfin
        have h4 := congrArg (fun z : ℤ => (z : ℚ)) hfin
        simp only [Int.cast_natCast, Int.cast_sub, Int.cast_neg, Int.cast_one] at h4
        exact h4
      simp only [Option.map_some', hfin']
      have harg : (-(n : ℚ) - 1) * -1 - 1 = (n : ℚ) := by ring
      rw [harg, round_ld_int n hmag]
  · have hq : (-1 : ℚ) < (n : ℚ) := by
      have : (-1 : ℤ) < n := by omega
      have h2 : ((-1 : ℤ) : ℚ) < (n : ℚ) := by exact_mod_cast this
      push_cast at h2
      exact h2
    have hLlen := radix_digits_bits_length n.natAbs 98 (by norm_num) (by omega)
    have hEl : (radix_digits 2 n.natAbs ++ [0]).length = (radix_digits 2 n.natAbs).length + 1 := by
      simp
    have hEv : Nat.ofDigits 2 (radix_digits 2 n.natAbs ++ [0]) = n.natAbs := by
      rw [Nat.ofDigits_append, Nat.ofDigits_singleton, hval]; simp
    refine ⟨((radix_digits 2 n.natAbs ++ [0]).map digit_char).reverse, ?_, ?_⟩
    · have hl : ¬ 128 < (((radix_digits 2 n.natAbs ++ [0]).map digit_char).reverse).length + 1 := by
        simp only [List.length_reverse, List.length_map, hEl]; omega
      unfold dec_to_co2
      rw [dec_to_co1_of_int n [] (by omega), if_neg hn]
      simp only [if_neg hl, if_pos hq]
    · have hhead : ¬ (((radix_digits 2 n.natAbs ++ [0]).map digit_char).reverse).head? =
          some '1' := by
        simp only [List.map_append, List.map_cons, List.map_nil, List.reverse_append,
          List.reverse_cons, List.reverse_nil, List.nil_append, List.singleton_append,
          List.head?_cons]
        decide
      unfold co2_to_dec
      rw [if_neg hhead, rad_to_dec_bits _ (by
        intro d hd
        rw [List.mem_append] at hd
        rcases hd with hd | hd
        · exact hD d hd
        · simp at hd; omega) (by rw [hEv]; exact hrep) (by rw [hEl]; omega), hEv]
      have h3 := natAbs_cast_eq n
      have hq0 : ¬ (n : ℚ) < 0 := by
        intro h; apply hn; exact_mod_cast h
      rw [if_neg hq0] at h3
      rw [h3]

theorem twos_complement_round_trip_witness :
    (-2 ^ 64 ≤ (-6 : ℤ) ∧ (-6 : ℤ) < 2 ^ 98 ∧ long_double_nat (-6 : ℤ).natAbs) ∧
    (∃ s, dec_to_co2 (((-6 : ℤ)) : ℚ) [] = some s ∧ co2_to_dec s = some (((-6 : ℤ)) : ℚ)) ∧
    dec_to_co2 (-6) [] = some "1010".toList ∧ co2_to_dec "1010".toList = some (-6) :=
  ⟨⟨by norm_num, by norm_num, ⟨6, 0, by decide, by decide⟩⟩,
    twos_complement_round_trip (-6) (by norm_num) (by norm_num) ⟨6, 0, by decide, by decide⟩,
    by decide!, by decide!⟩

/-- Claim C5, counterexample. The integer `-(2 ^ 64 + 2)` is a `long double` value, and
`dec_to_co2` writes its two's complement text of 66 bits; reading it back, `rad_to_dec`
has to add 1 to `2 ^ 64`, which rounds, and `co2_to_dec` returns `-2 ^ 64`. -/
theorem twos_complement_rounds :
    long_double_nat (-18446744073709551618 : ℤ).natAbs ∧
    dec_to_co2 (-18446744073709551618) [] =
      some ('1' :: '0' :: List.replicate 62 '1' ++ ['1', '0']) ∧
    co2_to_dec ('1' :: '0' :: List.replicate 62 '1' ++ ['1', '0']) =
      some (-18446744073709551616) ∧
    co2_to_dec ('1' :: '0' :: List.replicate 62 '1' ++ ['1', '0']) ≠
      some (-18446744073709551618) :=
  ⟨⟨9223372036854775809, 1, by decide, by decide⟩, by decide!, by decide!, by decide!⟩
/-! ## Validation: the sign check and the same-encoding check -/

theorem format_scan_loop_sign_keep (cs : List Char) : ∀ (i : Nat) (s : Int) (d e : Nat),
    '-' ∉ cs → (format_scan_loop cs i (s, d, e)).1 = s := by
  induction cs with
  | nil => intro i s d e _; rfl
  | cons c cs ih =>
    intro i s d e h
    have hc : c ≠ '-' := fun hc => h (by simp [hc])
    have hcs : '-' ∉ cs := fun hm => h (List.mem_cons_of_mem c hm)
    rw [format_scan_loop_cons, if_neg hc]
    split_ifs
    · exact ih (i + 1) s (d + 1) e hcs
    · exact ih (i + 1) s d e hcs

/-- The result of `format_scan` for a literal without point whose only sign is its
first character. -/
theorem format_scan_signed (rest : List Char) (from_ to_ : ℕ) (name : String)
    (hm : '-' ∉ rest) (hp : '.' ∉ rest) (hf : from_ ≠ 0) (ht : to_ ≠ 0) (hne : from_ ≠ to_) :
    format_scan ('-' :: rest) from_ to_ name =
      if (format_scan_sign from_ to_).isSome then (1, (format_scan_sign from_ to_).toList)
      else format_scan_base ('-' :: rest) from_ := by
  have hsign : (format_scan_loop ('-' :: rest) 0 (-1, 0, 0)).1 = 0 := by
    rw [format_scan_loop_cons, if_pos rfl]
    exact format_scan_loop_sign_keep rest 1 _ 0 0 hm
  have hdec : (format_scan_loop ('-' :: rest) 0 (-1, 0, 0)).2.1 = 0 := by
    rw [format_scan_loop_decimal]
    have h1 : ('-' :: rest).count '.' = 0 := by
      rw [List.count_eq_zero]
      intro h
      rcases List.mem_cons.mp h with h | h
      · exact absurd h (by decide)
      · exact hp h
    omega
  simp only [format_scan]
  rw [if_neg (by tauto), if_neg hne, format_scan_loop_error, hsign, hdec]
  simp

/-- Claim C11. For a literal without point whose only sign is at index 0, and a distinct
non-empty source and destination: when the registry entry of the source has `signf = 0`
or that of the destination has `signt = 0`, `format_scan` returns 1 with the line
"... accepts only positive numbers."; when no entry forbids the sign, the sign check does
not reject and the result is that of the check against the base.  The entries with
`signf = 0` are BCD, CO1, CO2, MES and ROM, those with `signt = 0` are BCD and ROM. -/
theorem format_scan_sign_rejected (rest : List Char) (from_ to_ : ℕ) (name : String)
    (hm : '-' ∉ rest) (hp : '.' ∉ rest) (hf : from_ ≠ 0) (ht : to_ ≠ 0) (hne : from_ ≠ to_) :
    ((∃ e ∈ code, (from_ = e.id ∧ e.signf = 0) ∨ (to_ = e.id ∧ e.signt = 0)) →
      (format_scan ('-' :: rest) from_ to_ name).1 = 1 ∧
      ∃ e ∈ code, ((from_ = e.id ∧ e.signf = 0) ∨ (to_ = e.id ∧ e.signt = 0)) ∧
        (format_scan ('-' :: rest) from_ to_ name).2 =
          [e.name ++ " accepts only positive numbers."]) ∧
    ((¬ ∃ e ∈ code, (from_ = e.id ∧ e.signf = 0) ∨ (to_ = e.id ∧ e.signt = 0)) →
      format_scan ('-' :: rest) from_ to_ name = format_scan_base ('-' :: rest) from_) ∧
    ((code.filter (fun e => e.id != 0 && e.signf == 0)).map (fun e => e.id) =
      [BCD, CO1, CO2, MES, ROM]) ∧
    ((code.filter (fun e => e.id != 0 && e.signt == 0)).map (fun e => e.id) = [BCD, ROM]) := by
  have hfs := format_scan_signed rest from_ to_ name hm hp hf ht hne
  refine ⟨fun hex => ?_, fun hno => ?_, by decide, by decide⟩
  · obtain ⟨e, he, hcond⟩ := hex
    have hsome : (code.find? (fun e => (from_ == e.id && e.signf == 0) ||
        (to_ == e.id && e.signt == 0))).isSome := by
      rw [List.find?_isSome]
      exact ⟨e, he, by simpa using hcond⟩
    obtain ⟨e', he'⟩ := Option.isSome_iff_exists.mp hsome
    have hmem := List.mem_of_find?_eq_some he'
    have hq := List.find?_some he'
    simp only [Bool.and_eq_true, Bool.or_eq_true, beq_iff_eq] at hq
    have hs : format_scan_sign from_ to_ = some (e'.name ++ " accepts only positive numbers.") := by
      simp [format_scan_sign, he']
    have hres : format_scan ('-' :: rest) from_ to_ name =
        (1, [e'.name ++ " accepts only positive numbers."]) := by
      rw [hfs, hs]
      simp only [Option.isSome_some, if_true, Option.toList_some]
    exact ⟨by rw [hres], e', hmem, hq, by rw [hres]⟩
  · have hs : format_scan_sign from_ to_ = none := by
      simp only [format_scan_sign, Option.map_eq_none', List.find?_eq_none]
      intro e he hcond
      apply hno
      exact ⟨e, he, by simpa using hcond⟩
    rw [hfs, hs]
    simp only [Option.isSome_none, Bool.false_eq_true, if_false]

theorem format_scan_sign_rejected_witness :
    ('-' ∉ "12".toList ∧ '.' ∉ "12".toList ∧ DEC ≠ 0 ∧ ROM ≠ 0 ∧ DEC ≠ ROM) ∧
    (format_scan "-12".toList DEC ROM "baco").1 = 1 ∧
    (format_scan "-12".toList DEC ROM "baco").2 = ["Roman Numerals accepts only positive numbers."] ∧
    format_scan "-12".toList DEC BIN "baco" = format_scan_base "-12".toList DEC :=
  ⟨by decide,
    ((format_scan_sign_rejected "12".toList DEC ROM "baco" (by decide) (by decide) (by decide)
      (by decide) (by decide)).1
      ⟨{ id := ROM, signf := 0, signt := 0, decimal := 0, name := "Roman Numerals" },
        by decide, by decide⟩).1,
    by decide, by decide⟩

/-- Claim C17. For every literal and every non-empty encoding id, `format_scan` with that
id as source and as destination returns 1 with the line "Source and destination are the
same.", whatever the literal is. -/
theorem format_scan_same (num : List Char) (e : ℕ) (name : String) (he : e ≠ 0) :
    format_scan num e e name = (1, ["Source and destination are the same."]) := by
  simp only [format_scan]
  rw [if_neg (by tauto)]
  simp

theorem format_scan_same_witness :
    HEX ≠ 0 ∧
    format_scan "1F".toList HEX HEX "baco" = (1, ["Source and destination are the same."]) :=
  ⟨by decide, format_scan_same "1F".toList HEX "baco" (by decide)⟩

/-- Claim C12, counterexample. `format_scan` accepts the literal "-0" from Unary to
Decimal, and the line it writes for "-5" is that of `check_base`, not that of the sign
check. -/
theorem format_scan_unary_sign :
    format_scan "-0".toList (SCRAP + 1) DEC "baco" = (0, []) ∧
    format_scan "-5".toList (SCRAP + 1) DEC "baco" = (1, ["Inserted number is not in base 1."]) := by
  decide

/-- Claim C12, as the code has it. For every literal beginning with the sign, with source
Unary and destination Decimal: `format_scan` either accepts the literal or returns 1 with
one of the lines "The codify is not correct." and "Inserted number is not in base 1.",
never with the line of the sign check; and `conversion` refuses the literal with the line
"Unary numeral system admits only natural numbers." and gives no result. -/
theorem unary_sign_refused (atof : List Char → ℚ) (rest val : List Char) (name : String) :
    (format_scan ('-' :: rest) (SCRAP + 1) DEC name = (0, []) ∨
      format_scan ('-' :: rest) (SCRAP + 1) DEC name = (1, ["The codify is not correct."]) ∨
      format_scan ('-' :: rest) (SCRAP + 1) DEC name =
        (1, ["Inserted number is not in base 1."])) ∧
    conversion atof (SCRAP + 1) DEC ('-' :: rest) val =
      (none, ["Unary numeral system admits only natural numbers."]) := by
  constructor
  · have hd : format_scan_decimal (SCRAP + 1) DEC = none := by decide
    have hs : format_scan_sign (SCRAP + 1) DEC = none := by decide
    have e1 : ¬ (SCRAP + 1 = BIN ∨ SCRAP + 1 = CO1 ∨ SCRAP + 1 = CO2 ∨ SCRAP + 1 = MES) := by
      decide
    have e2 : ¬ (SCRAP + 1 = BCD ∨ SCRAP + 1 = DEC ∨ SCRAP + 1 = ROM) := by decide
    have e3 : usub (SCRAP + 1) SCRAP = 1 := by decide
    have e4 : "Inserted number is not in base " ++ toString 1 ++ "." =
        "Inserted number is not in base 1." := by decide
    have hcb : check_base ('-' :: rest) 1 = (0, []) ∨
        check_base ('-' :: rest) 1 = (1, ["Inserted number is not in base 1."]) := by
      simp only [check_base, e4]
      split_ifs <;> first | exact Or.inl rfl | exact Or.inr rfl
    have hb : format_scan_base ('-' :: rest) (SCRAP + 1) = (0, []) ∨
        format_scan_base ('-' :: rest) (SCRAP + 1) = (1, ["Inserted number is not in base 1."]) := by
      simp only [format_scan_base, if_neg e1, if_neg e2, e3]
      rcases hcb with h | h
      · left; rw [h]; simp
      · right; rw [h]; simp
    simp only [format_scan, hd, hs]
    rw [if_neg (by decide), if_neg (by decide)]
    simp only [Option.isSome_none, Bool.false_eq_true, and_false, if_false]
    split_ifs
    · exact Or.inr (Or.inl rfl)
    · exact Or.inr (Or.inl rfl)
    · exact Or.inr (Or.inl rfl)
    · rcases hb with h | h
      · exact Or.inl h
      · exact Or.inr (Or.inr h)
  · have e3 : usub (SCRAP + 1) SCRAP = 1 := by decide
    have hfrom : conversion_from atof (SCRAP + 1) ('-' :: rest) =
        (none, ["Unary numeral system admits only natural numbers."]) := by
      simp only [conversion_from]
      rw [if_neg (by decide), if_neg (by decide), if_neg (by decide), if_neg (by decide),
        if_neg (by decide), if_neg (by decide), if_neg (by decide), if_pos e3,
        if_pos (Or.inr (List.mem_cons_self _ _))]
    simp only [conversion, hfrom]

/-- Claim C13, failing input. `format_scan` accepts the literal "11" from two's complement
to BCD; `conversion` computes the value -1 from it and passes it to `dec_to_bcd`, which
writes "Unhandled exception." and returns NULL. -/
theorem negative_reaches_bcd :
    format_scan "11".toList CO2 BCD "baco" = (0, []) ∧
    conversion_from (fun _ => 0) CO2 "11".toList = (some (-1), []) ∧
    dec_to_bcd (-1) [] = (none, ["Unhandled exception."]) ∧
    conversion (fun _ => 0) CO2 BCD "11".toList [] = (none, ["Unhandled exception."]) ∧
    conversion (fun _ => 0) CO2 ROM "11".toList [] = (some "TODO".toList, []) := by
  decide!

/-- Claim C18. `dec_to_rom` returns the text "NULL" for the value 0. -/
theorem dec_to_rom_zero : dec_to_rom 0 = "NULL".toList := by
  decide!

/-! ## Roman numerals -/

theorem char_of_code (c : Char) (n : ℕ) (h : c.toNat = n) : c = Char.ofNat n := by
  rw [← h, Char.ofNat_toNat]

theorem toupper_code (c : Char) (k : ℕ) (hk : 65 ≤ k ∧ k ≤ 90) (h : toupper c = k) :
    c.toNat = k ∨ c.toNat = k + 32 := by
  simp only [toupper] at h
  split_ifs at h <;> omega

/-- The `switch` of `rom_to_dec` has the seven symbols as its only cases. -/
theorem rom_symbol_cases (k : ℕ) (h : rom_symbol k ≠ none) :
    k = 73 ∨ k = 86 ∨ k = 88 ∨ k = 76 ∨ k = 67 ∨ k = 68 ∨ k = 77 := by
  by_contra hnot
  apply h
  have e1 : 'I'.toNat = 73 := by decide
  have e2 : 'V'.toNat = 86 := by decide
  have e3 : 'X'.toNat = 88 := by decide
  have e4 : 'L'.toNat = 76 := by decide
  have e5 : 'C'.toNat = 67 := by decide
  have e6 : 'D'.toNat = 68 := by decide
  have e7 : 'M'.toNat = 77 := by decide
  simp only [rom_symbol, e1, e2, e3, e4, e5, e6, e7]
  rw [if_neg (by tauto), if_neg (by tauto), if_neg (by tauto), if_neg (by tauto),
    if_neg (by tauto), if_neg (by tauto), if_neg (by tauto)]

theorem rom_symbol_foreign (c : Char) (hc : c ∉ roman_letters) :
    rom_symbol (toupper c) = none := by
  by_contra hne
  apply hc
  rcases rom_symbol_cases (toupper c) hne with h | h | h | h | h | h | h
  · rcases toupper_code c _ (by decide) h with g | g <;> (rw [char_of_code c _ g]; decide)
  · rcases toupper_code c _ (by decide) h with g | g <;> (rw [char_of_code c _ g]; decide)
  · rcases toupper_code c _ (by decide) h with g | g <;> (rw [char_of_code c _ g]; decide)
  · rcases toupper_code c _ (by decide) h with g | g <;> (rw [char_of_code c _ g]; decide)
  · rcases toupper_code c _ (by decide) h with g | g <;> (rw [char_of_code c _ g]; decide)
  · rcases toupper_code c _ (by decide) h with g | g <;> (rw [char_of_code c _ g]; decide)
  · rcases toupper_code c _ (by decide) h with g | g <;> (rw [char_of_code c _ g]; decide)

/-- On the seven symbols the `switch` of `rom_to_dec` has the values and the priorities
of the specification. -/
theorem rom_symbol_spec (c : Char) (hc : c ∈ roman_symbols) :
    ∃ v p, spec_roman c = some (v, p) ∧ rom_symbol (toupper c) = some (p, (v : ℚ)) ∧
      1 ≤ p ∧ 1 ≤ v := by
  simp only [roman_symbols, List.mem_cons, List.mem_singleton, List.not_mem_nil,
    or_false] at hc
  rcases hc with h | h | h | h | h | h | h
  · subst h; exact ⟨1, 1, by decide, by decide!, by decide, by decide⟩
  · subst h; exact ⟨5, 2, by decide, by decide!, by decide, by decide⟩
  · subst h; exact ⟨10, 3, by decide, by decide!, by decide, by decide⟩
  · subst h; exact ⟨50, 4, by decide, by decide!, by decide, by decide⟩
  · subst h; exact ⟨100, 5, by decide, by decide!, by decide, by decide⟩
  · subst h; exact ⟨500, 6, by decide, by decide!, by decide, by decide⟩
  · subst h; exact ⟨1000, 7, by decide, by decide!, by decide, by decide⟩
theorem rom_to_dec_loop_foreign (L : List Char) :
    ∀ (p : ℕ) (dec : ℚ), (∃ c ∈ L, c ∉ roman_letters) →
      rom_to_dec_loop L p dec = (0, ["The codify is not correct."]) := by
  induction L with
  | nil => intro p dec h; simp at h
  | cons c cs ih =>
    intro p dec h
    unfold rom_to_dec_loop
    cases hs : rom_symbol (toupper c) with
    | none => rfl
    | some pv =>
      obtain ⟨d, hd, hbad⟩ := h
      rcases List.mem_cons.mp hd with hdc | hdcs
      · subst hdc
        rw [rom_symbol_foreign d hbad] at hs
        cases hs
      · exact ih _ _ ⟨d, hdcs, hbad⟩

/-- Claim C14, counterexample. The character `'i'` is none of the seven symbols I, V, X, L,
C, D, M, yet `rom_to_dec` reads the string "i" as 1 and reports no error. -/
theorem rom_to_dec_lowercase :
    'i' ∉ roman_symbols ∧ rom_to_dec "i".toList = (1, []) := by
  decide!

/-- Claim C14, as the code has it. For every string with at least one character outside
the seven symbols I, V, X, L, C, D, M and their lowercase forms, `rom_to_dec` writes "The
codify is not correct." and returns 0. -/
theorem rom_to_dec_foreign (rom : List Char) (h : ∃ c ∈ rom, c ∉ roman_letters) :
    rom_to_dec rom = (0, ["The codify is not correct."]) := by
  obtain ⟨c, hc, hbad⟩ := h
  exact rom_to_dec_loop_foreign rom.reverse 0 0 ⟨c, List.mem_reverse.mpr hc, hbad⟩

theorem rom_to_dec_foreign_witness :
    (∃ c ∈ "XIZ".toList, c ∉ roman_letters) ∧
    rom_to_dec "XIZ".toList = (0, ["The codify is not correct."]) :=
  ⟨⟨'Z', by decide, by decide⟩, rom_to_dec_foreign "XIZ".toList ⟨'Z', by decide, by decide⟩⟩

theorem rom_to_dec_loop_scan (cs : List Char) (h : ∀ c ∈ cs, c ∈ roman_symbols) :
    ∀ B : List Char, rom_to_dec_loop (cs.reverse ++ B) 0 0 =
      rom_to_dec_loop B (neighbour_rom_scan cs).2 ((neighbour_rom_scan cs).1 : ℚ) := by
  induction cs with
  | nil => intro B; simp [neighbour_rom_scan]
  | cons c cs ih =>
    intro B
    obtain ⟨v, p, hspec, hsym, _, _⟩ := rom_symbol_spec c (h c (List.mem_cons_self c cs))
    have hrev : (c :: cs).reverse ++ B = cs.reverse ++ (c :: B) := by simp
    rw [hrev, ih (fun x hx => h x (List.mem_cons_of_mem c hx)) (c :: B)]
    simp only [rom_to_dec_loop, hsym, neighbour_rom_scan, hspec]
    split_ifs
    · simp
    · simp

/-- Claim C20, counterexample. For the string "VIX" `rom_to_dec` returns 14, while the
reference scan that tracks the highest priority seen so far gives 4. -/
theorem rom_to_dec_not_highest :
    (∀ c ∈ "VIX".toList, c ∈ roman_symbols) ∧
    rom_to_dec "VIX".toList = (14, []) ∧ (spec_rom_scan "VIX".toList).1 = 4 := by
  decide!

/-- Claim C20, as the code has it. For every string over the seven symbols I, V, X, L, C,
D, M, `rom_to_dec` returns the value of the right-to-left scan that compares the priority
of each symbol with that of the symbol to its right: it adds the value of a symbol whose
priority is at least that one and subtracts the value of any other, and the tracked
priority becomes the priority of the symbol just read in both cases. -/
theorem rom_to_dec_neighbour (rom : List Char) (h : ∀ c ∈ rom, c ∈ roman_symbols) :
    rom_to_dec rom = (((neighbour_rom_scan rom).1 : ℚ), []) := by
  have := rom_to_dec_loop_scan rom h []
  simp only [List.append_nil] at this
  rw [rom_to_dec, this]
  rfl

theorem rom_to_dec_neighbour_witness :
    (∀ c ∈ "MCMXCIV".toList, c ∈ roman_symbols) ∧
    rom_to_dec "MCMXCIV".toList = (((neighbour_rom_scan "MCMXCIV".toList).1 : ℚ), []) ∧
    (neighbour_rom_scan "MCMXCIV".toList).1 = 1994 :=
  ⟨by decide, rom_to_dec_neighbour "MCMXCIV".toList (by decide), by decide⟩

/-! ## The padding helper `bit_number` -/

theorem digitChar_eq_digit_char : ∀ k : ℕ, k < 10 → Nat.digitChar k = digit_char k := by
  decide

theorem toDigitsCore_radix_digits : ∀ (fuel n : ℕ) (ds : List Char), n < fuel →
    Nat.toDigitsCore 10 fuel n ds = ((radix_digits 10 n).map digit_char).reverse ++ ds := by
  intro fuel
  induction fuel with
  | zero => intro n ds h; omega
  | succ fuel ih =>
    intro n ds h
    have hmod : n % 10 < 10 := Nat.mod_lt _ (by decide)
    simp only [Nat.toDigitsCore, digitChar_eq_digit_char _ hmod]
    by_cases h0 : n / 10 = 0
    · have hlt : n < 10 := (Nat.div_eq_zero_iff (by decide)).mp h0
      rw [if_pos h0]
      unfold radix_digits
      split_ifs with hn
      · simp [hn]
      · rw [Nat.digits_of_lt 10 n hn hlt, Nat.mod_eq_of_lt hlt]
        simp
    · have hpos : 0 < n := by
        rcases Nat.eq_zero_or_pos n with hz | hz
        · rw [hz] at h0; simp at h0
        · exact hz
      have hdlt : n / 10 < n := Nat.div_lt_self hpos (by decide)
      rw [if_neg h0, ih (n / 10) _ (by omega)]
      unfold radix_digits
      rw [if_neg h0, if_neg (by omega), Nat.digits_def' (by decide) hpos]
      simp

/-- The decimal numeral of a natural number is the text of the digits `dec_to_rad` emits
in base 10. -/
theorem toDigits_radix_digits (n : ℕ) :
    Nat.toDigits 10 n = ((radix_digits 10 n).map digit_char).reverse := by
  rw [Nat.toDigits, toDigitsCore_radix_digits (n + 1) n [] (by omega), List.append_nil]

theorem toDigits_plain (n : ℕ) : '.' ∉ Nat.toDigits 10 n ∧ '-' ∉ Nat.toDigits 10 n := by
  rw [toDigits_radix_digits]
  have hall : ∀ c ∈ ((radix_digits 10 n).map digit_char).reverse, c ≠ '-' ∧ c ≠ '.' := by
    intro c hc
    rw [List.mem_reverse, List.mem_map] at hc
    obtain ⟨d, hd, rfl⟩ := hc
    exact digit_char_plain d (lt_trans (radix_digits_lt 10 n (by decide) d hd) (by decide))
  exact ⟨fun h => (hall _ h).2 rfl, fun h => (hall _ h).1 rfl⟩

theorem check_base_loop_zeros (n : ℕ) : ∀ (count point : ℕ),
    check_base_loop 1 (List.replicate n '0') (count, point) = (count + n, point) := by
  induction n with
  | zero => intro count point; rfl
  | succ n ih =>
    intro count point
    have h0 : (((('0' : Char).toNat : Int) - 48) % (UINT_RANGE : Int)).toNat < 1 := by decide
    simp only [List.replicate_succ, check_base_loop, if_pos h0, ih]
    congr 1
    omega

theorem replicate_zero_plain (n : ℕ) :
    '.' ∉ List.replicate n '0' ∧ '-' ∉ List.replicate n '0' := by
  constructor
  · intro h
    exact absurd (List.eq_of_mem_replicate h) (by decide)
  · intro h
    exact absurd (List.eq_of_mem_replicate h) (by decide)

theorem format_scan_zeros (n : ℕ) (name : String) :
    format_scan (List.replicate n '0') (SCRAP + 1) DEC name = (0, []) := by
  have hpl := replicate_zero_plain n
  have hd : format_scan_decimal (SCRAP + 1) DEC = none := by decide
  have hsign : (format_scan_loop (List.replicate n '0') 0 (-1, 0, 0)).1 = -1 :=
    format_scan_loop_sign_keep _ 0 (-1) 0 0 hpl.2
  have hdec : (format_scan_loop (List.replicate n '0') 0 (-1, 0, 0)).2.1 = 0 := by
    rw [format_scan_loop_decimal, List.count_eq_zero.mpr hpl.1]
  have e1 : ¬ (SCRAP + 1 = BIN ∨ SCRAP + 1 = CO1 ∨ SCRAP + 1 = CO2 ∨ SCRAP + 1 = MES) := by
    decide
  have e2 : ¬ (SCRAP + 1 = BCD ∨ SCRAP + 1 = DEC ∨ SCRAP + 1 = ROM) := by decide
  have e3 : usub (SCRAP + 1) SCRAP = 1 := by decide
  have hhead : ¬ ((List.replicate n '0').head? = some '-') := by
    intro h
    exact hpl.2 (List.mem_of_mem_head? h)
  have hcb : check_base (List.replicate n '0') 1 = (0, []) := by
    simp only [check_base, if_neg hhead, check_base_loop_zeros, List.length_replicate]
    simp
  have hbase : format_scan_base (List.replicate n '0') (SCRAP + 1) = (0, []) := by
    simp only [format_scan_base, if_neg e1, if_neg e2, e3, hcb]
    simp
  simp only [format_scan]
  rw [if_neg (by decide), if_neg (by decide), format_scan_loop_error, hsign, hdec, hd, hbase]
  simp

/-- Claim C15, as the code has it. For every natural number `n` below 2147483648 whose
decimal numeral `atof` reads as `n`: `conversion` from Decimal to Unary returns the run of
`n` characters `'0'`; `format_scan` accepts that run from Unary to Decimal; and
`conversion` from Unary to Decimal returns the decimal numeral of `n` for it. -/
theorem unary_round_trip (atof : List Char → ℚ) (n : ℕ) (name : String)
    (hn : n < 2147483648) (hatof : atof (Nat.toDigits 10 n) = (n : ℚ)) :
    conversion atof DEC (SCRAP + 1) (Nat.toDigits 10 n) [] =
      (some (List.replicate n '0'), []) ∧
    format_scan (List.replicate n '0') (SCRAP + 1) DEC name = (0, []) ∧
    conversion atof (SCRAP + 1) DEC (List.replicate n '0') [] =
      (some (Nat.toDigits 10 n), []) := by
  have e3 : usub (SCRAP + 1) SCRAP = 1 := by decide
  refine ⟨?_, format_scan_zeros n name, ?_⟩
  · have hpl := toDigits_plain n
    have hfrom : conversion_from atof DEC (Nat.toDigits 10 n) = (some (n : ℚ), []) := by
      simp only [conversion_from]
      rw [if_neg (by decide), if_neg (by decide), if_neg (by decide), if_neg (by decide),
        if_pos trivial, hatof]
    have hcast : int_cast (n : ℚ) = (n : ℤ) := by
      rw [int_cast_of_range (n : ℚ) (Nat.cast_nonneg n) (by exact_mod_cast hn),
        Nat.floor_natCast]
    have hto : conversion_to (SCRAP + 1) (n : ℚ) (Nat.toDigits 10 n) [] =
        (some (List.replicate n '0'), []) := by
      simp only [conversion_to]
      rw [if_neg (by decide), if_neg (by decide), if_neg (by decide), if_neg (by decide),
        if_neg (by decide), if_neg (by decide), if_neg (by decide), if_neg (by decide),
        if_pos e3, if_neg (by tauto), hcast, if_pos (by omega)]
      simp
    simp only [conversion, hfrom, hto, List.nil_append]
  · have hpl := replicate_zero_plain n
    have hfrom : conversion_from atof (SCRAP + 1) (List.replicate n '0') =
        (some (n : ℚ), []) := by
      simp only [conversion_from]
      rw [if_neg (by decide), if_neg (by decide), if_neg (by decide), if_neg (by decide),
        if_neg (by decide), if_neg (by decide), if_neg (by decide), if_pos e3,
        if_neg (by tauto), List.length_replicate]
    have hrad : dec_to_rad (n : ℚ) 10 [] = some (Nat.toDigits 10 n) := by
      have h := dec_to_rad_of_int (n : ℤ) 10 (by decide) (by decide) []
        (fun x hx0 _ => by
          rw [int_cast_eq_zero_iff, trunc_of_nonneg x hx0]
          exact Int.natCast_eq_zero)
      have hneg : ¬ ((n : ℤ) < 0) := by omega
      rw [Int.cast_natCast] at h
      rw [h, toDigits_radix_digits]
      simp only [Int.natAbs_ofNat, if_neg hneg, List.nil_append, List.append_nil]
    have hto : conversion_to DEC (n : ℚ) (List.replicate n '0') [] =
        (some (Nat.toDigits 10 n), []) := by
      simp only [conversion_to]
      rw [if_neg (by decide), if_neg (by decide), if_neg (by decide), if_neg (by decide),
        if_pos trivial, hrad]
    simp only [conversion, hfrom, hto, List.nil_append]

theorem unary_round_trip_witness :
    ((3 : ℕ) < 2147483648 ∧ (rad_to_dec (Nat.toDigits 10 3) 10).getD 0 = ((3 : ℕ) : ℚ)) ∧
    (conversion (fun s => (rad_to_dec s 10).getD 0) DEC (SCRAP + 1) (Nat.toDigits 10 3) [] =
      (some (List.replicate 3 '0'), []) ∧
    format_scan (List.replicate 3 '0') (SCRAP + 1) DEC "baco" = (0, []) ∧
    conversion (fun s => (rad_to_dec s 10).getD 0) (SCRAP + 1) DEC (List.replicate 3 '0') [] =
      (some (Nat.toDigits 10 3), [])) :=
  ⟨⟨by decide, by decide!⟩,
    unary_round_trip (fun s => (rad_to_dec s 10).getD 0) 3 "baco" (by decide) (by decide!)⟩

/-- Claim C15, counterexample. For n = 2147483648 the loop writes the n characters `'0'`,
but the cast `(int) x` that places the terminator is outside the range of `int`: the index
is `INT_MIN`, the terminator is written outside the buffer, and `conversion` from Decimal
to Unary has no defined result, so that it does not return the run of n characters
`'0'`. -/
theorem unary_beyond_int :
    int_cast 2147483648 = -2147483648 ∧
    conversion (fun _ => 2147483648) DEC (SCRAP + 1) (Nat.toDigits 10 2147483648) [] =
      (none, []) ∧
    conversion (fun _ => 2147483648) DEC (SCRAP + 1) (Nat.toDigits 10 2147483648) [] ≠
      (some (List.replicate 2147483648 '0'), []) := by
  have h1 : conversion (fun _ => 2147483648) DEC (SCRAP + 1) (Nat.toDigits 10 2147483648) [] =
      (none, []) := by decide!
  refine ⟨by decide!, h1, ?_⟩
  rw [h1]
  intro h
  have h5 : (none : Option (List Char)) = some (List.replicate 2147483648 '0') :=
    congrArg Prod.fst h
  exact Option.noConfusion h5
/-! ## Fractions -/

/-- Claim C16, failing input. The value 0.6 reaches `dec_to_rad` as the `double` nearest
to it, which is below 0.6; in base 5 the first round prints the product as "3.000000",
writes the digit 3 and keeps a negative remainder, which `sprintf` and `atof` turn into
a negative zero.  Every later round prints "-0.000000" and copies its first character:
the text is "0.3" followed by 19 characters `'-'`, and the value `rad_to_dec` reads back
from it is more than 1/4 away from the value, where the law asks for less than
`5 ^ -19`. -/
theorem fraction_law_fails :
    dec_to_rad (5404319552844595 / 9007199254740992) 5 [] =
      some "0.3-------------------".toList ∧
    ∃ v : ℚ, rad_to_dec "0.3-------------------".toList 5 = some v ∧
      1 / 4 < |v - 5404319552844595 / 9007199254740992| ∧
      ¬ |v - 5404319552844595 / 9007199254740992| < (5 : ℚ) ^ (-(19 : ℤ)) :=
  ⟨by decide!, 14757395258971509863 / 147573952589676412928, by decide!, by decide!,
    by decide!⟩

/-- Claim C25, failing input. The value 0.9999999 reaches `dec_to_rad` as the `double`
nearest to it; in base 2 the first round prints the product 1.9999998 as "2.000000" and
writes the character `'2'`, whose digit value is not below the base, and every later round
writes the first character of "-0.000000": of the 20 characters after the point none but
the first is a digit character, and the first is no digit of the base. -/
theorem dec_to_rad_digit_overflow :
    dec_to_rad (9007198354021067 / 9007199254740992) 2 [] =
      some "0.2-------------------".toList ∧
    (0 : ℚ) ≤ 9007198354021067 / 9007199254740992 ∧
    (9007198354021067 / 9007199254740992 : ℚ) < 1 ∧
    round_double (9999999 / 10000000) = 9007198354021067 / 9007199254740992 ∧
    ¬ valid_digit '2' 2 ∧ spec_digit '-' = none := by
  decide!
/-! ## Roman numerals: standard numerals and the error value -/

theorem standard_roman_scan_0 : ∀ n : ℕ, n < 500 →
    (∀ c ∈ standard_roman (n + 0), c ∈ roman_symbols) ∧
    (neighbour_rom_scan (standard_roman (n + 0))).1 = ((n + 0 : ℕ) : ℤ) := by
  decide!

theorem standard_roman_scan_500 : ∀ n : ℕ, n < 500 →
    (∀ c ∈ standard_roman (n + 500), c ∈ roman_symbols) ∧
    (neighbour_rom_scan (standard_roman (n + 500))).1 = ((n + 500 : ℕ) : ℤ) := by
  decide!

theorem standard_roman_scan_1000 : ∀ n : ℕ, n < 500 →
    (∀ c ∈ standard_roman (n + 1000), c ∈ roman_symbols) ∧
    (neighbour_rom_scan (standard_roman (n + 1000))).1 = ((n + 1000 : ℕ) : ℤ) := by
  decide!

theorem standard_roman_scan_1500 : ∀ n : ℕ, n < 500 →
    (∀ c ∈ standard_roman (n + 1500), c ∈ roman_symbols) ∧
    (neighbour_rom_scan (standard_roman (n + 1500))).1 = ((n + 1500 : ℕ) : ℤ) := by
  decide!

theorem standard_roman_scan_2000 : ∀ n : ℕ, n < 500 →
    (∀ c ∈ standard_roman (n + 2000), c ∈ roman_symbols) ∧
    (neighbour_rom_scan (standard_roman (n + 2000))).1 = ((n + 2000 : ℕ) : ℤ) := by
  decide!

theorem standard_roman_scan_2500 : ∀ n : ℕ, n < 500 →
    (∀ c ∈ standard_roman (n + 2500), c ∈ roman_symbols) ∧
    (neighbour_rom_scan (standard_roman (n + 2500))).1 = ((n + 2500 : ℕ) : ℤ) := by
  decide!

theorem standard_roman_scan_3000 : ∀ n : ℕ, n < 500 →
    (∀ c ∈ standard_roman (n + 3000), c ∈ roman_symbols) ∧
    (neighbour_rom_scan (standard_roman (n + 3000))).1 = ((n + 3000 : ℕ) : ℤ) := by
  decide!

theorem standard_roman_scan_3500 : ∀ n : ℕ, n < 500 →
    (∀ c ∈ standard_roman (n + 3500), c ∈ roman_symbols) ∧
    (neighbour_rom_scan (standard_roman (n + 3500))).1 = ((n + 3500 : ℕ) : ℤ) := by
  decide!

/-- Every standard numeral below 4000 is a string over the seven symbols, and the scan
of `rom_to_dec` gives it its number; the numerals are evaluated in runs of 500. -/
theorem standard_roman_scan (n : ℕ) (hn : n < 4000) :
    (∀ c ∈ standard_roman n, c ∈ roman_symbols) ∧
    (neighbour_rom_scan (standard_roman n)).1 = (n : ℤ) := by
  have hcases : n / 500 = 0 ∨ n / 500 = 1 ∨ n / 500 = 2 ∨ n / 500 = 3 ∨ n / 500 = 4 ∨
      n / 500 = 5 ∨ n / 500 = 6 ∨ n / 500 = 7 := by omega
  rcases hcases with h | h | h | h | h | h | h | h
  · have e : n - 0 + 0 = n := by omega
    have hc := standard_roman_scan_0 (n - 0) (by omega)
    rw [e] at hc
    exact hc
  · have e : n - 500 + 500 = n := by omega
    have hc := standard_roman_scan_500 (n - 500) (by omega)
    rw [e] at hc
    exact hc
  · have e : n - 1000 + 1000 = n := by omega
    have hc := standard_roman_scan_1000 (n - 1000) (by omega)
    rw [e] at hc
    exact hc
  · have e : n - 1500 + 1500 = n := by omega
    have hc := standard_roman_scan_1500 (n - 1500) (by omega)
    rw [e] at hc
    exact hc
  · have e : n - 2000 + 2000 = n := by omega
    have hc := standard_roman_scan_2000 (n - 2000) (by omega)
    rw [e] at hc
    exact hc
  · have e : n - 2500 + 2500 = n := by omega
    have hc := standard_roman_scan_2500 (n - 2500) (by omega)
    rw [e] at hc
    exact hc
  · have e : n - 3000 + 3000 = n := by omega
    have hc := standard_roman_scan_3000 (n - 3000) (by omega)
    rw [e] at hc
    exact hc
  · have e : n - 3500 + 3500 = n := by omega
    have hc := standard_roman_scan_3500 (n - 3500) (by omega)
    rw [e] at hc
    exact hc

/-- Claim C21. For every integer `n` from 1 to 3999 (and for 0, whose numeral is empty),
`rom_to_dec` returns `n` for the standard Roman numeral of `n`, the greedy subtractive
rendering over M, CM, D, CD, C, XC, L, XL, X, IX, V, IV, I, and reports no error. -/
theorem rom_to_dec_standard (n : ℕ) (hn : n ≤ 3999) :
    rom_to_dec (standard_roman n) = ((n : ℚ), []) := by
  obtain ⟨hsym, hval⟩ := standard_roman_scan n (by omega)
  have h := rom_to_dec_loop_scan (standard_roman n) hsym []
  simp only [List.append_nil] at h
  rw [rom_to_dec, h, hval]
  simp [rom_to_dec_loop]

theorem rom_to_dec_standard_witness :
    (1994 ≤ 3999) ∧ standard_roman 1994 = "MCMXCIV".toList ∧
    rom_to_dec (standard_roman 1994) = (((1994 : ℕ) : ℚ), []) :=
  ⟨by decide, by decide, rom_to_dec_standard 1994 (by decide)⟩

/-- The cases of the `switch` of `rom_to_dec` for the seven symbols in either case: the
priority, the value, and how the value compares with the values below it. -/
theorem rom_symbol_letter (c : Char) (hc : c ∈ roman_letters) :
    ∃ (p v : ℕ), rom_symbol (toupper c) = some (p, (v : ℚ)) ∧ 1 ≤ p ∧ p ≤ 7 ∧
      rom_below p + 1 ≤ (v : ℤ) ∧ ∀ q : ℕ, q ≤ 7 → p < q → rom_below p + (v : ℤ) ≤ rom_below q := by
  have hI : rom_symbol 73 = some (1, ((1 : ℕ) : ℚ)) := by decide!
  have hV : rom_symbol 86 = some (2, ((5 : ℕ) : ℚ)) := by decide!
  have hX : rom_symbol 88 = some (3, ((10 : ℕ) : ℚ)) := by decide!
  have hL : rom_symbol 76 = some (4, ((50 : ℕ) : ℚ)) := by decide!
  have hC : rom_symbol 67 = some (5, ((100 : ℕ) : ℚ)) := by decide!
  have hD : rom_symbol 68 = some (6, ((500 : ℕ) : ℚ)) := by decide!
  have hM : rom_symbol 77 = some (7, ((1000 : ℕ) : ℚ)) := by decide!
  simp only [roman_letters, List.mem_cons, List.mem_singleton, List.not_mem_nil,
    or_false] at hc
  rcases hc with h | h | h | h | h | h | h | h | h | h | h | h | h | h
  · subst h; exact ⟨1, 1, hI, by decide, by decide, by decide, by decide⟩
  · subst h; exact ⟨2, 5, hV, by decide, by decide, by decide, by decide⟩
  · subst h; exact ⟨3, 10, hX, by decide, by decide, by decide, by decide⟩
  · subst h; exact ⟨4, 50, hL, by decide, by decide, by decide, by decide⟩
  · subst h; exact ⟨5, 100, hC, by decide, by decide, by decide, by decide⟩
  · subst h; exact ⟨6, 500, hD, by decide, by decide, by decide, by decide⟩
  · subst h; exact ⟨7, 1000, hM, by decide, by decide, by decide, by decide⟩
  · subst h; exact ⟨1, 1, hI, by decide, by decide, by decide, by decide⟩
  · subst h; exact ⟨2, 5, hV, by decide, by decide, by decide, by decide⟩
  · subst h; exact ⟨3, 10, hX, by decide, by decide, by decide, by decide⟩
  · subst h; exact ⟨4, 50, hL, by decide, by decide, by decide, by decide⟩
  · subst h; exact ⟨5, 100, hC, by decide, by decide, by decide, by decide⟩
  · subst h; exact ⟨6, 500, hD, by decide, by decide, by decide, by decide⟩
  · subst h; exact ⟨7, 1000, hM, by decide, by decide, by decide, by decide⟩

theorem rom_below_nonneg (p : ℕ) : 0 ≤ rom_below p := by
  unfold rom_below
  split_ifs <;> decide

/-- Once a symbol has been read, the loop of `rom_to_dec` keeps its value at least one
above the values below the priority it tracks, and ends with a positive integer. -/
theorem rom_to_dec_loop_pos (L : List Char) (hL : ∀ c ∈ L, c ∈ roman_letters) :
    ∀ (p : ℕ) (z : ℤ), p ≤ 7 → rom_below p + 1 ≤ z →
      ∃ z2 : ℤ, rom_to_dec_loop L p (z : ℚ) = ((z2 : ℚ), []) ∧ 1 ≤ z2 := by
  induction L with
  | nil =>
    intro p z _ hz
    exact ⟨z, rfl, by have := rom_below_nonneg p; omega⟩
  | cons c cs ih =>
    intro p z hp hz
    obtain ⟨p2, v, hsym, hp1, hp7, hv, hq⟩ := rom_symbol_letter c (hL c (List.mem_cons_self c cs))
    have hcs : ∀ x ∈ cs, x ∈ roman_letters := fun x hx => hL x (List.mem_cons_of_mem c hx)
    simp only [rom_to_dec_loop, hsym]
    by_cases hle : p ≤ p2
    · rw [if_pos hle]
      have hcast : (z : ℚ) + (v : ℚ) = ((z + (v : ℤ) : ℤ) : ℚ) := by push_cast; ring
      rw [hcast]
      exact ih hcs p2 (z + v) hp7 (by have := rom_below_nonneg p; omega)
    · rw [if_neg hle]
      have hcast : (z : ℚ) - (v : ℚ) = ((z - (v : ℤ) : ℤ) : ℚ) := by push_cast; ring
      rw [hcast]
      have := hq p hp (by omega)
      exact ih hcs p2 (z - v) hp7 (by omega)

/-- Claim C30. For every non-empty string over the seven symbols I, V, X, L, C, D, M in
either case, `rom_to_dec` reports no error and returns a strictly positive integer: the
value 0 that `conversion` takes as the failure is not returned for such a string. -/
theorem rom_to_dec_positive (rom : List Char) (hne : rom ≠ [])
    (hrom : ∀ c ∈ rom, c ∈ roman_letters) :
    ∃ z : ℤ, rom_to_dec rom = ((z : ℚ), []) ∧ 0 < z := by
  have hrev : ∀ c ∈ rom.reverse, c ∈ roman_letters := fun c hc => hrom c (List.mem_reverse.mp hc)
  unfold rom_to_dec
  cases hL : rom.reverse with
  | nil => exact absurd (List.reverse_eq_nil_iff.mp hL) hne
  | cons c cs =>
    rw [hL] at hrev
    obtain ⟨p2, v, hsym, hp1, hp7, hv, _⟩ := rom_symbol_letter c (hrev c (List.mem_cons_self c cs))
    have hcs : ∀ x ∈ cs, x ∈ roman_letters := fun x hx => hrev x (List.mem_cons_of_mem c hx)
    simp only [rom_to_dec_loop, hsym, Nat.zero_le, if_true, zero_add]
    have hcast : (v : ℚ) = (((v : ℤ) : ℤ) : ℚ) := by push_cast; rfl
    rw [hcast]
    obtain ⟨z2, hz2, hpos⟩ := rom_to_dec_loop_pos cs hcs p2 (v : ℤ) hp7 hv
    exact ⟨z2, hz2, by omega⟩

theorem rom_to_dec_positive_witness :
    ("xIv".toList ≠ [] ∧ ∀ c ∈ "xIv".toList, c ∈ roman_letters) ∧
    ∃ z : ℤ, rom_to_dec "xIv".toList = ((z : ℚ), []) ∧ 0 < z :=
  ⟨by decide, rom_to_dec_positive "xIv".toList (by decide) (by decide)⟩

/-! ## Bit strings: increment, complements and sign-magnitude -/

theorem spec_digit_digit_char : ∀ d : ℕ, d < 36 → spec_digit (digit_char d) = some d := by
  decide

/-- The positional value of the text of digits given least significant first. -/
theorem spec_digits_value_digits (b : ℕ) (E : List ℕ) (hE : ∀ d ∈ E, d < 36) :
    spec_digits_value b ((E.map digit_char).reverse) = Nat.ofDigits b E := by
  unfold spec_digits_value
  rw [List.foldl_reverse]
  induction E with
  | nil => simp [Nat.ofDigits]
  | cons d E ih =>
    have hd := hE d (List.mem_cons_self d E)
    simp only [List.map_cons, List.foldr_cons, Nat.ofDigits_cons]
    rw [ih (fun x hx => hE x (List.mem_cons_of_mem d hx)), spec_digit_digit_char d hd]
    simp only [Option.getD_some]
    ring

/-- A string over `'0'` and `'1'` is the text of its bits. -/
theorem bit_string_digits (s : List Char) (hs : ∀ c ∈ s, c = '0' ∨ c = '1') :
    ∃ E : List ℕ, (∀ d ∈ E, d < 2) ∧ s = (E.map digit_char).reverse ∧ E.length = s.length ∧
      (∀ c ∈ s, c = '1') = (∀ d ∈ E, d = 1) := by
  refine ⟨s.reverse.map (fun c => if c = '1' then 1 else 0), ?_, ?_, by simp, ?_⟩
  · intro d hd
    rw [List.mem_map] at hd
    obtain ⟨c, _, rfl⟩ := hd
    split_ifs <;> omega
  · rw [List.map_map]
    have hid : List.map (digit_char ∘ fun c => if c = '1' then 1 else 0) s.reverse =
        s.reverse := by
      conv_rhs => rw [← List.map_id s.reverse]
      apply List.map_congr_left
      intro c hc
      rcases hs c (List.mem_reverse.mp hc) with h | h
      · subst h; decide
      · subst h; decide
    rw [hid, List.reverse_reverse]
  · apply propext
    constructor
    · intro h d hd
      rw [List.mem_map] at hd
      obtain ⟨c, hc, rfl⟩ := hd
      rw [if_pos (h c (List.mem_reverse.mp hc))]
    · intro h c hc
      have := h _ (List.mem_map.mpr ⟨c, List.mem_reverse.mpr hc, rfl⟩)
      by_contra hne
      rw [if_neg hne] at this
      omega

theorem ofDigits_replicate_zero (n : ℕ) : Nat.ofDigits 2 (List.replicate n 0) = 0 := by
  induction n with
  | zero => rfl
  | succ n ih => simp [List.replicate_succ, Nat.ofDigits_cons, ih]

theorem ofDigits_lt_of_not_all_ones (E : List ℕ) (hE : ∀ d ∈ E, d < 2)
    (h : ¬ ∀ d ∈ E, d = 1) : Nat.ofDigits 2 E + 1 < 2 ^ E.length := by
  induction E with
  | nil => simp at h
  | cons d E ih =>
    have hd := hE d (List.mem_cons_self d E)
    have hE2 : ∀ x ∈ E, x < 2 := fun x hx => hE x (List.mem_cons_of_mem d hx)
    have hlt : Nat.ofDigits 2 E < 2 ^ E.length :=
      Nat.ofDigits_lt_base_pow_length (by omega) hE2
    simp only [Nat.ofDigits_cons, List.length_cons, pow_succ]
    by_cases hd1 : d = 1
    · have hrest : ¬ ∀ x ∈ E, x = 1 := by
        intro hall
        apply h
        intro x hx
        rcases List.mem_cons.mp hx with hx | hx
        · rw [hx]; exact hd1
        · exact hall x hx
      have := ih hE2 hrest
      omega
    · omega

/-- Claim C22. For every string over `'0'` and `'1'`, the empty one included, the base-2
value of `binary_sum1` of the string is the base-2 value of the string plus 1; when the
string has only `'1'` characters the result is `'1'` followed by as many `'0'` as the
string is long, else the result is as long as the string. -/
theorem binary_sum1_increment (s : List Char) (hs : ∀ c ∈ s, c = '0' ∨ c = '1') :
    spec_digits_value 2 (binary_sum1 s) = spec_digits_value 2 s + 1 ∧
    ((∀ c ∈ s, c = '1') → binary_sum1 s = '1' :: List.replicate s.length '0') ∧
    ((¬ ∀ c ∈ s, c = '1') → (binary_sum1 s).length = s.length) := by
  obtain ⟨E, hE, hsE, hlen, hall⟩ := bit_string_digits s hs
  have hE36 : ∀ d ∈ E, d < 36 := fun d hd => lt_trans (hE d hd) (by decide)
  have h0 : digit_char 0 = '0' := by decide
  have h1 : digit_char 1 = '1' := by decide
  by_cases hones : ∀ c ∈ s, c = '1'
  · have hrep : s = List.replicate s.length '1' := List.eq_replicate_iff.mpr ⟨rfl, hones⟩
    have hres : binary_sum1 s = '1' :: List.replicate s.length '0' := by
      have htw : (List.replicate s.length '1').takeWhile (fun c => c == '1') =
          List.replicate s.length '1' := by
        rw [List.takeWhile_eq_self_iff]
        intro c hc
        rw [List.eq_of_mem_replicate hc]; rfl
      unfold binary_sum1
      simp only []
      rw [hrep, List.reverse_replicate, htw, List.length_replicate, if_neg (lt_irrefl _)]
    refine ⟨?_, fun _ => hres, fun hn => absurd hones hn⟩
    have hE1 : E = List.replicate s.length 1 := by
      rw [← hlen]
      exact List.eq_replicate_iff.mpr ⟨rfl, by rw [← hall]; exact hones⟩
    have hvs : spec_digits_value 2 s + 1 = 2 ^ s.length := by
      have hc := ofDigits_complement E hE
      rw [hE1] at hc
      simp only [List.map_replicate, List.length_replicate] at hc
      have hz : Nat.ofDigits 2 (List.replicate s.length (1 - 1)) = 0 :=
        ofDigits_replicate_zero s.length
      rw [hz] at hc
      conv_lhs => rw [hsE, spec_digits_value_digits 2 E hE36, hE1]
      omega
    have hres2 : '1' :: List.replicate s.length '0' =
        ((List.replicate s.length 0 ++ [1]).map digit_char).reverse := by
      simp [h0, h1]
    rw [hres, hres2, spec_digits_value_digits 2 _ (by
      intro d hd
      rw [List.mem_append] at hd
      rcases hd with hd | hd
      · rw [List.eq_of_mem_replicate hd]; decide
      · simp at hd; omega), Nat.ofDigits_append, Nat.ofDigits_singleton,
      ofDigits_replicate_zero, List.length_replicate, hvs]
    ring
  · have hnot : ¬ ∀ d ∈ E, d = 1 := by rw [← hall]; exact hones
    obtain ⟨E2, hsum, hlen2, hbits2, hval2⟩ := binary_sum1_bits E hE
      (ofDigits_lt_of_not_all_ones E hE hnot)
    rw [← hsE] at hsum
    refine ⟨?_, fun h => absurd h hones, fun _ => ?_⟩
    · rw [hsum, spec_digits_value_digits 2 E2 (fun d hd => lt_trans (hbits2 d hd) (by decide)),
        hval2]
      conv_rhs => rw [hsE, spec_digits_value_digits 2 E hE36]
    · rw [hsum]
      simp [hlen2, hlen]

theorem binary_sum1_increment_witness :
    (∀ c ∈ "1011".toList, c = '0' ∨ c = '1') ∧
    (spec_digits_value 2 (binary_sum1 "1011".toList) = spec_digits_value 2 "1011".toList + 1 ∧
    ((∀ c ∈ "1011".toList, c = '1') →
      binary_sum1 "1011".toList = '1' :: List.replicate "1011".toList.length '0') ∧
    ((¬ ∀ c ∈ "1011".toList, c = '1') →
      (binary_sum1 "1011".toList).length = "1011".toList.length)) ∧
    binary_sum1 "1011".toList = "1100".toList ∧ binary_sum1 "111".toList = "1000".toList ∧
    binary_sum1 [] = "1".toList :=
  ⟨by decide, binary_sum1_increment "1011".toList (by decide), by decide, by decide, by decide⟩

/-- The last bit of a list of bits given least significant first, read off the first
character of its text. -/
theorem bits_top (E : List ℕ) (hE : ∀ d ∈ E, d < 2) :
    E = [] ∨ ∃ (F : List ℕ) (e : ℕ), E = F ++ [e] ∧ e < 2 ∧ (∀ d ∈ F, d < 2) ∧
      (((E.map digit_char).reverse).head? = some '1' ↔ e = 1) := by
  rcases List.eq_nil_or_concat E with hnil | ⟨F, e, hF⟩
  · exact Or.inl hnil
  · rw [List.concat_eq_append] at hF
    subst hF
    have he : e < 2 := hE e (by simp)
    refine Or.inr ⟨F, e, rfl, he, fun d hd => hE d (by simp [hd]), ?_⟩
    have hpt : ∀ x : ℕ, x < 2 → (digit_char x = '1' ↔ x = 1) := by decide
    simp only [List.map_append, List.map_cons, List.map_nil, List.reverse_append,
      List.reverse_cons, List.reverse_nil, List.nil_append, List.singleton_append,
      List.head?_cons, Option.some.injEq]
    exact hpt e he

/-- Claim C23, as the code has it. For every string over `'0'` and `'1'` of width `w` up
to 65 and unsigned base-2 value `u`, `co2_to_dec` returns `u - 2 ^ w` when the string
starts with `'1'` and `u` when it does not, that is, when it is non-empty, when it starts
with `'0'`. -/
theorem co2_to_dec_standard (s : List Char) (hs : ∀ c ∈ s, c = '0' ∨ c = '1')
    (hw : s.length ≤ 65) :
    co2_to_dec s = some
      (if s.head? = some '1' then ((spec_digits_value 2 s : ℕ) : ℚ) - (2 : ℚ) ^ s.length
      else ((spec_digits_value 2 s : ℕ) : ℚ)) := by
  obtain ⟨E, hE, hsE, hlen, _⟩ := bit_string_digits s hs
  have hE36 : ∀ d ∈ E, d < 36 := fun d hd => lt_trans (hE d hd) (by decide)
  have hval : spec_digits_value 2 s = Nat.ofDigits 2 E := by
    conv_lhs => rw [hsE, spec_digits_value_digits 2 E hE36]
  have hcompl := ofDigits_complement E hE
  have hp64 : (2 : ℕ) ^ 64 = 18446744073709551616 := by norm_num
  unfold co2_to_dec co1_to_dec
  by_cases hh : s.head? = some '1'
  · rw [if_pos hh, if_pos hh, if_pos hh, hval, ← hlen]
    rcases bits_top E hE with hnil | ⟨F, e, hF, he, hFb, htop⟩
    · rw [hsE, hnil] at hh; simp at hh
    · rw [hsE] at hh
      have he1 : e = 1 := htop.mp hh
      subst he1
      have hFlt : Nat.ofDigits 2 (F.map (fun d => 1 - d)) < 2 ^ F.length := by
        have := Nat.ofDigits_lt_base_pow_length (by norm_num : 1 < 2) (complement_bits F)
        simpa using this
      have hFlen : F.length ≤ 64 := by
        have := congrArg List.length hF
        simp at this
        omega
      have hpw : (2 : ℕ) ^ F.length ≤ 2 ^ 64 := Nat.pow_le_pow_right (by norm_num) hFlen
      have hcv : Nat.ofDigits 2 (E.map (fun d => 1 - d)) =
          Nat.ofDigits 2 (F.map (fun d => 1 - d)) := by
        rw [hF, List.map_append, Nat.ofDigits_append]
        simp
      have hc1 : rad_to_dec (c1_converter s) 2 =
          some ((Nat.ofDigits 2 (E.map (fun d => 1 - d)) : ℕ) : ℚ) := by
        conv_lhs => rw [hsE, c1_converter_digits E hE, rad_to_dec_digits 2 _
          (fun d hd => lt_trans (complement_bits E d hd) (by decide))
          (by rw [hcv]; omega) (by simp only [List.length_map]; omega)]
      have hXb : Nat.ofDigits 2 (E.map (fun d => 1 - d)) + 1 ≤ 2 ^ 64 := by
        rw [hcv]; omega
      rw [hc1]
      simp only [Option.map_some']
      generalize Nat.ofDigits 2 (E.map (fun d => 1 - d)) = X at hcompl hXb
      generalize Nat.ofDigits 2 E = Y at hcompl
      have hz : (X : ℚ) * -1 - 1 = ((-(X : ℤ) - 1 : ℤ) : ℚ) := by
        push_cast; ring
      rw [hz, round_ld_int _ (by omega)]
      have h3 : (X : ℚ) + (Y : ℚ) + 1 = (2 : ℚ) ^ E.length := by exact_mod_cast hcompl
      congr 1
      push_cast
      linarith
  · rw [if_neg hh, if_neg hh, hval]
    have hub : Nat.ofDigits 2 E ≤ 2 ^ 64 := by
      rcases bits_top E hE with hnil | ⟨F, e, hF, he, hFb, htop⟩
      · rw [hnil]; simp [Nat.ofDigits]
      · rw [hsE] at hh
        have he0 : e = 0 := by
          have : e ≠ 1 := fun h1 => hh (htop.mpr h1)
          omega
        subst he0
        have hFlt : Nat.ofDigits 2 F < 2 ^ F.length :=
          Nat.ofDigits_lt_base_pow_length (by norm_num : 1 < 2) hFb
        have hFlen : F.length ≤ 64 := by
          have := congrArg List.length hF
          simp at this
          omega
        have hpw : (2 : ℕ) ^ F.length ≤ 2 ^ 64 := Nat.pow_le_pow_right (by norm_num) hFlen
        rw [hF, Nat.ofDigits_append]
        simp
        omega
    conv_lhs => rw [hsE, rad_to_dec_digits 2 E hE36 hub (by omega)]

theorem co2_to_dec_standard_witness :
    ((∀ c ∈ "1011".toList, c = '0' ∨ c = '1') ∧ "1011".toList.length ≤ 65) ∧
    co2_to_dec "1011".toList = some
      (if "1011".toList.head? = some '1' then
        ((spec_digits_value 2 "1011".toList : ℕ) : ℚ) - (2 : ℚ) ^ "1011".toList.length
      else ((spec_digits_value 2 "1011".toList : ℕ) : ℚ)) ∧
    co2_to_dec "1011".toList = some (-5) :=
  ⟨by decide, co2_to_dec_standard "1011".toList (by decide) (by decide), by decide!⟩

/-- Claim C23, counterexample. The string of 66 bits `0`, `1`, 63 times `0`, `1` starts
with `'0'` and has the value `2 ^ 64 + 1`, which needs 65 significant bits: the last sum
of `rad_to_dec` rounds, and `co2_to_dec` returns `2 ^ 64`. -/
theorem co2_to_dec_rounds :
    (∀ c ∈ '0' :: '1' :: (List.replicate 63 '0' ++ ['1']), c = '0' ∨ c = '1') ∧
    ('0' :: '1' :: (List.replicate 63 '0' ++ ['1'])).length = 66 ∧
    spec_digits_value 2 ('0' :: '1' :: (List.replicate 63 '0' ++ ['1'])) =
      18446744073709551617 ∧
    co2_to_dec ('0' :: '1' :: (List.replicate 63 '0' ++ ['1'])) =
      some 18446744073709551616 := by
  decide!
/-! ## Ones' complement, sign-magnitude and the width of two's complement -/

theorem digitChar_bit : ∀ k : ℕ, k < 2 → Nat.digitChar k = digit_char k := by
  decide

theorem toDigitsCore_binary : ∀ (fuel n : ℕ) (ds : List Char), n < fuel →
    Nat.toDigitsCore 2 fuel n ds = ((radix_digits 2 n).map digit_char).reverse ++ ds := by
  intro fuel
  induction fuel with
  | zero => intro n ds h; omega
  | succ fuel ih =>
    intro n ds h
    have hmod : n % 2 < 2 := Nat.mod_lt _ (by decide)
    simp only [Nat.toDigitsCore, digitChar_bit _ hmod]
    by_cases h0 : n / 2 = 0
    · have hlt : n < 2 := (Nat.div_eq_zero_iff (by decide)).mp h0
      rw [if_pos h0]
      unfold radix_digits
      split_ifs with hn
      · simp [hn]
      · rw [Nat.digits_of_lt 2 n hn hlt, Nat.mod_eq_of_lt hlt]
        simp
    · have hpos : 0 < n := by
        rcases Nat.eq_zero_or_pos n with hz | hz
        · rw [hz] at h0; simp at h0
        · exact hz
      have hdlt : n / 2 < n := Nat.div_lt_self hpos (by decide)
      rw [if_neg h0, ih (n / 2) _ (by omega)]
      unfold radix_digits
      rw [if_neg h0, if_neg (by omega), Nat.digits_def' (by decide) hpos]
      simp

/-- The binary numeral of a natural number is the text of the digits `dec_to_rad` emits
in base 2. -/
theorem toDigits_binary (n : ℕ) :
    Nat.toDigits 2 n = ((radix_digits 2 n).map digit_char).reverse := by
  rw [Nat.toDigits, toDigitsCore_binary (n + 1) n [] (by omega), List.append_nil]

/-- The binary text `dec_to_rad` writes for the magnitude of an integer. -/
theorem dec_to_rad_natAbs (n : ℤ) :
    dec_to_rad ((n.natAbs : ℕ) : ℚ) 2 [] = some (Nat.toDigits 2 n.natAbs) := by
  have h := dec_to_rad_magnitude ((n.natAbs : ℕ) : ℤ)
  have hnn : ¬ ((((n.natAbs : ℕ) : ℤ) : ℚ) < 0) := by
    rw [Int.cast_natCast]
    exact not_lt.mpr (Nat.cast_nonneg _)
  rw [if_neg hnn, Int.cast_natCast, Int.natAbs_ofNat] at h
  rw [h, toDigits_binary]

theorem spec_complement_digits (E : List ℕ) (hE : ∀ d ∈ E, d < 2) :
    ((E.map digit_char).reverse).map (fun c => if c = '1' then '0' else '1') =
      ((E.map (fun d => 1 - d)).map digit_char).reverse := by
  have hpt : ∀ d : ℕ, d < 2 →
      (if digit_char d = '1' then '0' else '1') = digit_char (1 - d) := by decide
  rw [List.map_reverse, List.map_map, List.map_map]
  congr 1
  apply List.map_congr_left
  intro d hd
  exact hpt d (hE d hd)

theorem ones_complement_value (D : List ℕ) (hD : ∀ d ∈ D, d < 2) :
    Nat.ofDigits 2 ((D.map (fun d => 1 - d) ++ [1]).map (fun d => 1 - d)) =
      Nat.ofDigits 2 D := by
  have hE : ∀ d ∈ D.map (fun d => 1 - d) ++ [1], d < 2 := by
    intro d hd
    rw [List.mem_append] at hd
    rcases hd with hd | hd
    · exact complement_bits _ d hd
    · simp at hd; omega
  have h1 := ofDigits_complement _ hE
  have h2 := ofDigits_complement D hD
  rw [Nat.ofDigits_append, Nat.ofDigits_singleton] at h1
  simp only [List.length_append, List.length_map, List.length_singleton, pow_succ] at h1
  generalize Nat.ofDigits 2 ((D.map (fun d => 1 - d) ++ [1]).map (fun d => 1 - d)) = A at h1 ⊢
  generalize Nat.ofDigits 2 (D.map (fun d => 1 - d)) = B at h1 h2
  generalize Nat.ofDigits 2 D = C at h2 ⊢
  generalize 2 ^ D.length = P at h1 h2
  omega

/-- Claim C27, as the code has it. For every integer `n` that is a `long double` value of
magnitude below `2 ^ 98`, `co1_to_dec` reads back `n` from the text that `dec_to_co1`
writes for `n`, and that text is `'0'` followed by the binary digits of `n` when `n` is not
negative and `'1'` followed by the complemented binary digits of `|n|` when it is. -/
theorem ones_complement_round_trip (n : ℤ) (hhigh : n.natAbs < 2 ^ 98)
    (hrep : long_double_nat n.natAbs) :
    ∃ s, dec_to_co1 (n : ℚ) [] = some s ∧ co1_to_dec s = some (n : ℚ) ∧
      s = if n < 0
        then '1' :: (Nat.toDigits 2 n.natAbs).map (fun c => if c = '1' then '0' else '1')
        else '0' :: Nat.toDigits 2 n.natAbs := by
  have hD := radix_digits_bits n.natAbs
  have hval := ofDigits_radix_digits 2 n.natAbs
  have hLlen := radix_digits_bits_length n.natAbs 98 (by norm_num) hhigh
  have h0 : digit_char 0 = '0' := by decide
  have h1 : digit_char 1 = '1' := by decide
  refine ⟨_, dec_to_co1_of_int n [] (by omega), ?_, ?_⟩
  · by_cases hn : n < 0
    · have hEbits : ∀ d ∈ (radix_digits 2 n.natAbs).map (fun d => 1 - d) ++ [1], d < 2 := by
        intro d hd
        rw [List.mem_append] at hd
        rcases hd with hd | hd
        · exact complement_bits _ d hd
        · simp at hd; omega
      have hhead : ((((radix_digits 2 n.natAbs).map (fun d => 1 - d) ++ [1]).map
          digit_char).reverse).head? = some '1' := by
        simp [h1]
      rw [if_pos hn]
      unfold co1_to_dec
      rw [if_pos hhead, c1_converter_digits _ hEbits, rad_to_dec_bits _
        (complement_bits _) (by rw [ones_complement_value _ hD, hval]; exact hrep)
        (by simp only [List.length_map, List.length_append, List.length_singleton]; omega),
        ones_complement_value _ hD, hval]
      have h2 : ((n.natAbs : ℕ) : ℤ) = -n := by omega
      have h3 : (((n.natAbs : ℕ) : ℤ) : ℚ) = ((-n : ℤ) : ℚ) := by rw [h2]
      rw [Int.cast_natCast, Int.cast_neg] at h3
      simp only [Option.map_some', h3]
      congr 1
      ring
    · have hhead : ¬ (((radix_digits 2 n.natAbs ++ [0]).map digit_char).reverse).head? =
          some '1' := by
        simp [h0]
      have hEv : Nat.ofDigits 2 (radix_digits 2 n.natAbs ++ [0]) = n.natAbs := by
        rw [Nat.ofDigits_append, Nat.ofDigits_singleton, hval]; simp
      rw [if_neg hn]
      unfold co1_to_dec
      rw [if_neg hhead, rad_to_dec_bits _ (by
        intro d hd
        rw [List.mem_append] at hd
        rcases hd with hd | hd
        · exact hD d hd
        · simp at hd; omega) (by rw [hEv]; exact hrep)
        (by simp only [List.length_append, List.length_singleton]; omega), hEv]
      have h2 : ((n.natAbs : ℕ) : ℤ) = n := by omega
      have h3 : (((n.natAbs : ℕ) : ℤ) : ℚ) = (n : ℚ) := by rw [h2]
      rw [Int.cast_natCast] at h3
      rw [h3]
  · rw [toDigits_binary, spec_complement_digits _ hD]
    by_cases hn : n < 0
    · simp [hn, h1]
    · simp [hn, h0]

/-- Claim C29, as the code has it. For every integer `n` of magnitude below `2 ^ 126`, the
text of `dec_to_co2` is one character longer than the binary text of `|n|` and as long as
the text of `dec_to_co1`; when `dec_to_co2` calls `binary_sum1`, the count of trailing
`'1'` characters is smaller than the length, so that the branch that adds a character is
not taken. -/
theorem twos_complement_width (n : ℤ) (hhigh : n.natAbs < 2 ^ 126) :
    ∃ B s1 s2, dec_to_rad ((n.natAbs : ℕ) : ℚ) 2 [] = some B ∧
      dec_to_co1 (n : ℚ) [] = some s1 ∧ dec_to_co2 (n : ℚ) [] = some s2 ∧
      s2.length = B.length + 1 ∧ s1.length = s2.length ∧
      (¬ (-1 : ℚ) < (n : ℚ) → s2 = binary_sum1 s1 ∧
        (s1.reverse.takeWhile (fun c => c == '1')).length < s1.length) := by
  have hD := radix_digits_bits n.natAbs
  have hval := ofDigits_radix_digits 2 n.natAbs
  have hLlen := radix_digits_bits_length n.natAbs 126 (by norm_num) hhigh
  have hco1 := dec_to_co1_of_int n [] hLlen
  have hBlen : (Nat.toDigits 2 n.natAbs).length = (radix_digits 2 n.natAbs).length := by
    rw [toDigits_binary]; simp
  by_cases hn : n < 0
  · have hq : ¬ (-1 : ℚ) < (n : ℚ) := by
      have : n ≤ -1 := by omega
      have h2 : (n : ℚ) ≤ ((-1 : ℤ) : ℚ) := by exact_mod_cast this
      push_cast at h2
      exact not_lt.mpr h2
    have hcompl := ofDigits_complement (radix_digits 2 n.natAbs) hD
    rw [hval] at hcompl
    have hEbits : ∀ d ∈ (radix_digits 2 n.natAbs).map (fun d => 1 - d) ++ [1], d < 2 := by
      intro d hd
      rw [List.mem_append] at hd
      rcases hd with hd | hd
      · exact complement_bits _ d hd
      · simp at hd; omega
    have hlarge : Nat.ofDigits 2 ((radix_digits 2 n.natAbs).map (fun d => 1 - d) ++ [1]) + 1 <
        2 ^ ((radix_digits 2 n.natAbs).map (fun d => 1 - d) ++ [1]).length := by
      rw [Nat.ofDigits_append, Nat.ofDigits_singleton]
      simp only [List.length_append, List.length_map, List.length_singleton, pow_succ]
      have hpos : 0 < n.natAbs := by omega
      generalize Nat.ofDigits 2 ((radix_digits 2 n.natAbs).map (fun d => 1 - d)) = X at hcompl ⊢
      generalize 2 ^ (radix_digits 2 n.natAbs).length = P at hcompl ⊢
      omega
    obtain ⟨k, rest, hk⟩ := bits_not_all_ones _ hEbits hlarge
    rw [if_pos hn, hk] at hco1
    have h0 : digit_char 0 = '0' := by decide
    have h1 : digit_char 1 = '1' := by decide
    have hshape : (List.replicate k 1 ++ 0 :: rest).map digit_char =
        List.replicate k '1' ++ '0' :: rest.map digit_char := by
      simp [h0, h1]
    rw [hshape] at hco1
    have hlenE := congrArg List.length hk
    simp only [List.length_append, List.length_map, List.length_singleton, List.length_cons,
      List.length_replicate, List.length_nil] at hlenE
    have hco2 : dec_to_co2 (n : ℚ) [] =
        some ((List.replicate k '0' ++ '1' :: rest.map digit_char).reverse) := by
      have hl : ¬ 128 < ((List.replicate k '1' ++ '0' :: rest.map digit_char).reverse).length
          + 1 := by
        simp only [List.length_reverse, List.length_append, List.length_replicate,
          List.length_cons, List.length_map]
        omega
      unfold dec_to_co2
      rw [hco1]
      simp only [if_neg hl, if_neg hq]
      rw [binary_sum1_reverse k '0' _ (by decide)]
    have htw : (List.replicate k '1' ++ '0' :: rest.map digit_char).takeWhile
        (fun x => x == '1') = List.replicate k '1' := by
      rw [List.takeWhile_append_of_pos (fun a ha => by
        rw [List.eq_of_mem_replicate ha]; rfl)]
      rw [List.takeWhile_cons_of_neg (by decide)]
      simp
    refine ⟨_, _, _, dec_to_rad_natAbs n, hco1, hco2, ?_, ?_, fun _ => ⟨?_, ?_⟩⟩
    · rw [hBlen]
      simp only [List.length_reverse, List.length_append, List.length_replicate,
        List.length_cons, List.length_map]
      omega
    · simp
    · rw [binary_sum1_reverse k '0' _ (by decide)]
    · rw [List.reverse_reverse, htw]
      simp only [List.length_reverse, List.length_append, List.length_replicate,
        List.length_cons, List.length_map]
      omega
  · have hq : (-1 : ℚ) < (n : ℚ) := by
      have : (-1 : ℤ) < n := by omega
      have h2 : ((-1 : ℤ) : ℚ) < (n : ℚ) := by exact_mod_cast this
      push_cast at h2
      exact h2
    rw [if_neg hn] at hco1
    have hco2 : dec_to_co2 (n : ℚ) [] =
        some (((radix_digits 2 n.natAbs ++ [0]).map digit_char).reverse) := by
      have hl : ¬ 128 < (((radix_digits 2 n.natAbs ++ [0]).map digit_char).reverse).length
          + 1 := by
        simp only [List.length_reverse, List.length_append, List.length_map,
          List.length_singleton]
        omega
      unfold dec_to_co2
      rw [hco1]
      simp only [if_neg hl, if_pos hq]
    refine ⟨_, _, _, dec_to_rad_natAbs n, hco1, hco2, ?_, rfl, fun h => absurd hq h⟩
    rw [hBlen]
    simp

theorem ones_complement_round_trip_witness :
    ((-5 : ℤ).natAbs < 2 ^ 98 ∧ long_double_nat (-5 : ℤ).natAbs) ∧
    (∃ s, dec_to_co1 (((-5 : ℤ)) : ℚ) [] = some s ∧ co1_to_dec s = some (((-5 : ℤ)) : ℚ) ∧
      s = if (-5 : ℤ) < 0
        then '1' :: (Nat.toDigits 2 (-5 : ℤ).natAbs).map (fun c => if c = '1' then '0' else '1')
        else '0' :: Nat.toDigits 2 (-5 : ℤ).natAbs) ∧
    dec_to_co1 (-5) [] = some "1010".toList ∧ co1_to_dec "1010".toList = some (-5) :=
  ⟨⟨by norm_num, ⟨5, 0, by decide, by decide⟩⟩,
    ones_complement_round_trip (-5) (by norm_num) ⟨5, 0, by decide, by decide⟩,
    by decide!, by decide!⟩

/-- Claim C27, counterexample. The integer `2 ^ 98` is a `long double` value; `dec_to_co1`
writes for it a text of 100 characters, which `rad_to_dec` copies into the 100 bytes of
`num_int` with no room for the terminator: `co1_to_dec` has no defined result. -/
theorem ones_complement_overflow :
    long_double_nat (2 ^ 98) ∧
    dec_to_co1 316912650057057350374175801344 [] =
      some ('0' :: '1' :: List.replicate 98 '0') ∧
    ('0' :: '1' :: List.replicate 98 '0').length = 100 ∧
    co1_to_dec ('0' :: '1' :: List.replicate 98 '0') = none :=
  ⟨⟨1, 98, by decide, by norm_num⟩, by decide!, by decide, by decide!⟩

theorem twos_complement_width_witness :
    ((-4 : ℤ).natAbs < 2 ^ 126) ∧
    (∃ B s1 s2, dec_to_rad ((((-4 : ℤ).natAbs : ℕ)) : ℚ) 2 [] = some B ∧
      dec_to_co1 (((-4 : ℤ)) : ℚ) [] = some s1 ∧ dec_to_co2 (((-4 : ℤ)) : ℚ) [] = some s2 ∧
      s2.length = B.length + 1 ∧ s1.length = s2.length ∧
      (¬ (-1 : ℚ) < (((-4 : ℤ)) : ℚ) → s2 = binary_sum1 s1 ∧
        (s1.reverse.takeWhile (fun c => c == '1')).length < s1.length)) ∧
    dec_to_rad 4 2 [] = some "100".toList ∧ dec_to_co1 (-4) [] = some "1011".toList ∧
    dec_to_co2 (-4) [] = some "1100".toList :=
  ⟨by norm_num, twos_complement_width (-4) (by norm_num), by decide!, by decide!, by decide!⟩

/-- Claim C29, counterexample. The integer `2 ^ 126` is a `long double` value with a
binary text of 127 characters; with the leading `'0'` and the terminator, `dec_to_co1`
prints 129 bytes into its block of 128, and for `-2 ^ 126` the text of 128 characters
and its terminator do not fit the block of `dec_to_co2`: `dec_to_co2` has no defined
result for either. -/
theorem twos_complement_overflow :
    long_double_nat (2 ^ 126) ∧
    dec_to_rad 85070591730234615865843651857942052864 2 [] =
      some ('1' :: List.replicate 126 '0') ∧
    dec_to_co1 85070591730234615865843651857942052864 [] = none ∧
    dec_to_co2 85070591730234615865843651857942052864 [] = none ∧
    dec_to_co2 (-85070591730234615865843651857942052864) [] = none :=
  ⟨⟨1, 126, by decide, by norm_num⟩, by decide!, by decide!, by decide!, by decide!⟩
/-! ## The text of an integer is canonical -/

theorem digit_char_range : ∀ d : ℕ, d < 36 →
    (('0' ≤ digit_char d ∧ digit_char d ≤ '9') ∨ ('A' ≤ digit_char d ∧ digit_char d ≤ 'Z')) ∧
    (0 < d → digit_char d ≠ '0') := by
  decide

theorem digit_char_code : ∀ d : ℕ, d < 36 →
    (d < 10 → (digit_char d).toNat = d + 48) ∧ (10 ≤ d → (digit_char d).toNat = d + 55) := by
  decide

/-- The loop of `check_base` counts every digit character below the base. -/
theorem check_base_loop_digits (b : ℕ) (hb : b ≤ 36) (ds : List ℕ) (hds : ∀ d ∈ ds, d < b) :
    ∀ (count point : ℕ),
      check_base_loop b (ds.map digit_char) (count, point) = (count + ds.length, point) := by
  induction ds with
  | nil => intro count point; rfl
  | cons d ds ih =>
    intro count point
    have hd := hds d (List.mem_cons_self d ds)
    have hcode := digit_char_code d (by omega)
    have hrest := ih (fun x hx => hds x (List.mem_cons_of_mem d hx)) (count + 1) point
    have hcount : count + 1 + ds.length = count + (d :: ds).length := by
      simp only [List.length_cons]; omega
    simp only [List.map_cons, check_base_loop]
    by_cases h10 : d < 10
    · have h1 : ((((digit_char d).toNat : Int) - 48) % (UINT_RANGE : Int)).toNat < b := by
        rw [hcode.1 h10]
        simp only [UINT_RANGE]
        omega
      rw [if_pos h1, hrest, hcount]
    · have hc := hcode.2 (by omega)
      have h2 : 65 ≤ toupper (digit_char d) ∧
          toupper (digit_char d) ≤ usub ((b + 65) % UINT_RANGE) 11 := by
        have husub : usub ((b + 65) % UINT_RANGE) 11 = b + 54 := by
          simp only [usub, UINT_RANGE]; omega
        rw [husub]
        simp only [toupper, hc]
        rw [if_neg (by omega)]
        omega
      rw [if_pos h2]
      split_ifs
      · rw [hrest, hcount]
      · rw [hrest, hcount]

/-- The loop of `check_base` does not count the sign. -/
theorem check_base_loop_minus (b : ℕ) (hb : b ≤ 36) (t : List Char) (st : ℕ × ℕ) :
    check_base_loop b ('-' :: t) st = check_base_loop b t st := by
  obtain ⟨count, point⟩ := st
  have e1 : ¬ ((((('-' : Char).toNat : Int) - 48) % (UINT_RANGE : Int)).toNat < b) := by
    have : ((('-' : Char).toNat : Int) - 48) % (UINT_RANGE : Int) = 4294967293 := by decide
    rw [this]; simp; omega
  have e2 : ¬ (65 ≤ toupper '-' ∧ toupper '-' ≤ usub ((b + 65) % UINT_RANGE) 11) := by
    have : toupper '-' = 45 := by decide
    rw [this]; omega
  have e3 : ¬ (('-' : Char) = '.') := by decide
  simp only [check_base_loop, if_neg e1, if_neg e2, if_neg e3]

/-- Claim C24. For every base `b` from 2 to 36 and every integer `n`, `dec_to_rad` returns
a text: the sign `'-'` exactly when `n` is negative, followed by a non-empty run of
characters from `'0'`-`'9'` and `'A'`-`'Z'`, each of digit value below `b`; the run is "0"
when `n = 0` and does not start with `'0'` otherwise; the text has no point, and
`check_base` accepts it at base `b`. -/
theorem dec_to_rad_canonical (b : ℕ) (hb2 : 2 ≤ b) (hb36 : b ≤ 36) (n : ℤ) :
    ∃ body : List Char,
      dec_to_rad (n : ℚ) b [] = some ((if n < 0 then ['-'] else []) ++ body) ∧
      body ≠ [] ∧
      (∀ c ∈ body,
        (('0' ≤ c ∧ c ≤ '9') ∨ ('A' ≤ c ∧ c ≤ 'Z')) ∧ valid_digit c b ∧ c ≠ '.' ∧ c ≠ '-') ∧
      (n = 0 → body = ['0']) ∧ (n ≠ 0 → body.head? ≠ some '0') ∧
      check_base ((if n < 0 then ['-'] else []) ++ body) b = (0, []) := by
  have hD := radix_digits_lt b n.natAbs hb2
  have hrad := dec_to_rad_of_int n b hb2 (by simp only [UINT_RANGE]; omega) []
    (fun x hx0 _ => by
      rw [int_cast_eq_zero_iff, trunc_of_nonneg x hx0]
      exact Int.natCast_eq_zero)
  have hmem : ∀ c ∈ ((radix_digits b n.natAbs).map digit_char).reverse,
      ∃ d, d < b ∧ c = digit_char d := by
    intro c hc
    rw [List.mem_reverse, List.mem_map] at hc
    obtain ⟨d, hd, rfl⟩ := hc
    exact ⟨d, hD d hd, rfl⟩
  have hloop : ∀ count point : ℕ,
      check_base_loop b (((radix_digits b n.natAbs).map digit_char).reverse) (count, point) =
        (count + (((radix_digits b n.natAbs).map digit_char).reverse).length, point) := by
    intro count point
    rw [← List.map_reverse, check_base_loop_digits b hb36 _ (fun d hd => hD d
      (List.mem_reverse.mp hd))]
    simp
  refine ⟨((radix_digits b n.natAbs).map digit_char).reverse, ?_, ?_, ?_, ?_, ?_, ?_⟩
  · rw [hrad]
    by_cases hn : n < 0
    · simp [hn]
    · simp [hn]
  · unfold radix_digits
    split_ifs with h0
    · simp
    · have : Nat.digits b n.natAbs ≠ [] := Nat.digits_ne_nil_iff_ne_zero.mpr h0
      simpa using this
  · intro c hc
    obtain ⟨d, hd, rfl⟩ := hmem c hc
    have hd36 : d < 36 := by omega
    refine ⟨(digit_char_range d hd36).1, ?_, (digit_char_plain d hd36).2,
      (digit_char_plain d hd36).1⟩
    simp only [valid_digit, spec_digit_digit_char d hd36]
    exact hd
  · intro h0
    have h00 : digit_char 0 = '0' := by decide
    subst h0
    simp [radix_digits, h00]
  · intro h0
    have hm : n.natAbs ≠ 0 := by omega
    unfold radix_digits
    rw [if_neg hm]
    have hne : Nat.digits b n.natAbs ≠ [] := Nat.digits_ne_nil_iff_ne_zero.mpr hm
    have hlast := Nat.getLast_digit_ne_zero b hm
    rcases List.eq_nil_or_concat (Nat.digits b n.natAbs) with hnil | ⟨F, e, hF⟩
    · exact absurd hnil hne
    · rw [List.concat_eq_append] at hF
      have he : e < b := Nat.digits_lt_base (by omega) (by rw [hF]; simp)
      have he0 : e ≠ 0 := by
        have h2 : (Nat.digits b n.natAbs).getLast hne = e := by
          simp only [hF, List.getLast_append_singleton]
        rw [h2] at hlast
        exact hlast
      rw [hF]
      simp only [List.map_append, List.map_cons, List.map_nil, List.reverse_append,
        List.reverse_cons, List.reverse_nil, List.nil_append, List.singleton_append,
        List.head?_cons, ne_eq, Option.some.injEq]
      exact (digit_char_range e (by omega)).2 (by omega)
  · by_cases hn : n < 0
    · rw [if_pos hn]
      unfold check_base
      simp only [List.singleton_append, List.head?_cons, if_true, check_base_loop_minus b hb36,
        hloop, List.length_cons]
      rw [if_pos ⟨by omega, by omega⟩]
    · rw [if_neg hn]
      have hhead : ¬ (((radix_digits b n.natAbs).map digit_char).reverse).head? = some '-' := by
        intro hh
        have hin := List.mem_of_mem_head? hh
        obtain ⟨d, hd, hc⟩ := hmem _ hin
        exact (digit_char_plain d (by omega)).1 hc.symm
      unfold check_base
      simp only [List.nil_append, if_neg hhead, hloop]
      rw [if_pos ⟨by omega, by omega⟩]

theorem dec_to_rad_canonical_witness :
    (2 ≤ 16 ∧ 16 ≤ 36) ∧
    (∃ body : List Char,
      dec_to_rad (((-255 : ℤ)) : ℚ) 16 [] =
        some ((if (-255 : ℤ) < 0 then ['-'] else []) ++ body) ∧
      body ≠ [] ∧
      (∀ c ∈ body,
        (('0' ≤ c ∧ c ≤ '9') ∨ ('A' ≤ c ∧ c ≤ 'Z')) ∧ valid_digit c 16 ∧ c ≠ '.' ∧ c ≠ '-') ∧
      ((-255 : ℤ) = 0 → body = ['0']) ∧ ((-255 : ℤ) ≠ 0 → body.head? ≠ some '0') ∧
      check_base ((if (-255 : ℤ) < 0 then ['-'] else []) ++ body) 16 = (0, [])) ∧
    dec_to_rad (-255) 16 [] = some "-FF".toList :=
  ⟨by decide, dec_to_rad_canonical 16 (by decide) (by decide) (-255), by decide!⟩

/-! ## The value `bcd_to_dec` computes -/

theorem bcd_sum_nil (j : ℕ) : bcd_sum j [] = 0 := by
  simp [bcd_sum]

theorem bcd_sum_cons (j d : ℕ) (ds : List ℕ) :
    bcd_sum j (d :: ds) = d * j % UINT_RANGE + bcd_sum (j / 10) ds := by
  unfold bcd_sum
  rw [List.length_cons, List.range_succ_eq_map, List.map_cons, List.sum_cons, List.map_map]
  have h0 : (d :: ds).getD 0 0 * (j / 10 ^ 0) % UINT_RANGE = d * j % UINT_RANGE := by
    simp
  rw [h0]
  congr 2
  apply List.map_congr_left
  intro i _
  simp only [Function.comp, List.getD_cons_succ, pow_succ, Nat.div_div_eq_div_mul]
  rw [Nat.mul_comm (10 ^ i) 10]

theorem bcd_group_pattern : ∀ d : ℕ, 1 ≤ d → d ≤ 9 →
    bcd_group (digit_char (d / 8 % 2)) (digit_char (d / 4 % 2)) (digit_char (d / 2 % 2))
      (digit_char (d % 2)) = some d := by
  decide

theorem bcd_group_some (a b c d : Char) (k : ℕ) (h : bcd_group a b c d = some k) :
    [a, b, c, d] = bcd_pattern k ∧ 1 ≤ k ∧ k ≤ 9 := by
  unfold bcd_group at h
  split_ifs at h with h1 h2 h3 h4 h5 h6 h7 h8 h9
  all_goals
    obtain ⟨ha, hb, hc, hd⟩ := ‹a = _ ∧ b = _ ∧ c = _ ∧ d = _›
    have hk := Option.some.inj h
    subst ha hb hc hd hk
    decide

/-- The loop of `bcd_to_dec` on the text of digits from 1 to 9. -/
theorem bcd_to_dec_loop_text (ds : List ℕ) (hds : ∀ d ∈ ds, 1 ≤ d ∧ d ≤ 9) :
    ∀ (j : ℕ) (acc : ℚ),
      bcd_to_dec_loop (bcd_text ds) j acc = acc + ((bcd_sum j ds : ℕ) : ℚ) := by
  induction ds with
  | nil => intro j acc; simp [bcd_text, bcd_to_dec_loop, bcd_sum_nil]
  | cons d ds ih =>
    intro j acc
    have hd := hds d (List.mem_cons_self d ds)
    have htext : bcd_text (d :: ds) = digit_char (d / 8 % 2) :: digit_char (d / 4 % 2) ::
        digit_char (d / 2 % 2) :: digit_char (d % 2) :: bcd_text ds := rfl
    rw [htext]
    simp only [bcd_to_dec_loop, bcd_group_pattern d hd.1 hd.2]
    rw [ih (fun x hx => hds x (List.mem_cons_of_mem d hx)), bcd_sum_cons]
    push_cast
    ring

theorem bcd_to_dec_loop_nonneg : ∀ (n : ℕ) (s : List Char) (j : ℕ) (acc : ℚ),
    s.length = 4 * n → bcd_to_dec_loop s j acc ≠ -1 →
    ∃ ds : List ℕ, s = bcd_text ds ∧ ds.length = n ∧ ∀ d ∈ ds, 1 ≤ d ∧ d ≤ 9 := by
  intro n
  induction n with
  | zero =>
    intro s j acc hlen _
    have hs : s = [] := List.eq_nil_of_length_eq_zero (by omega)
    exact ⟨[], by rw [hs]; rfl, rfl, by simp⟩
  | succ n ih =>
    intro s j acc hlen hne
    match s, hlen with
    | a :: b :: c :: d :: rest, hlen =>
      simp only [bcd_to_dec_loop] at hne
      cases hg : bcd_group a b c d with
      | none => rw [hg] at hne; exact absurd rfl hne
      | some k =>
        rw [hg] at hne
        simp only [List.length_cons] at hlen
        obtain ⟨ds, hrest, hdslen, hds⟩ := ih rest _ _ (by omega) hne
        obtain ⟨hpat, hk1, hk9⟩ := bcd_group_some a b c d k hg
        refine ⟨k :: ds, ?_, by simp [hdslen], ?_⟩
        · simp only [bcd_text, ← hpat, ← hrest, List.cons_append, List.nil_append]
        · intro x hx
          rcases List.mem_cons.mp hx with hx | hx
          · rw [hx]; exact ⟨hk1, hk9⟩
          · exact hds x hx
    | [], hlen => simp at hlen
    | [_], hlen => simp at hlen; omega
    | [_, _], hlen => simp at hlen; omega
    | [_, _, _], hlen => simp at hlen; omega

/-- The initial weight of `bcd_to_dec` for up to 19 groups: the power of ten is below
`2 ^ 63`, and the conversion to `unsigned` keeps its low 32 bits. -/
theorem unsigned_cast_pow_ten (m : ℕ) (hm : m ≤ 18) :
    unsigned_cast (powl 10 ((m : ℕ) : ℤ)) = 10 ^ m % UINT_RANGE := by
  have hpow : 10 ^ m ≤ 10 ^ 18 := Nat.pow_le_pow_right (by decide) hm
  have h : powl 10 ((m : ℕ) : ℤ) = (((10 ^ m : ℕ) : ℕ) : ℚ) := by
    unfold powl
    rw [zpow_natCast]
    have := round_ld_nat (10 ^ m) (by
      have : (10 : ℕ) ^ 18 ≤ 2 ^ 64 := by norm_num
      omega)
    push_cast at this ⊢
    exact this
  have key : ∀ N : ℕ, N ≤ 1000000000000000000 →
      unsigned_cast (N : ℚ) = N % UINT_RANGE := by
    intro N hN
    unfold unsigned_cast
    rw [trunc_natCast, if_pos (by omega)]
    simp only [UINT_RANGE]
    omega
  rw [h]
  exact key _ (by
    have h18 : (10 : ℕ) ^ 18 = 1000000000000000000 := by norm_num
    omega)

theorem bcd_text_length (ds : List ℕ) : (bcd_text ds).length = 4 * ds.length := by
  induction ds with
  | nil => rfl
  | cons d ds ih => simp only [bcd_text, bcd_pattern, List.length_append, List.length_cons,
      List.length_nil, ih]; omega

/-- Without overflow, that is for at most nine digits, the sum is the decimal value. -/
theorem bcd_sum_decimal : ∀ (ds : List ℕ) (m : ℕ), ds.length = m + 1 → m ≤ 8 →
    (∀ d ∈ ds, d ≤ 9) → bcd_sum (10 ^ m) ds = Nat.ofDigits 10 ds.reverse := by
  intro ds
  induction ds with
  | nil => intro m h; simp at h
  | cons d ds ih =>
    intro m hlen hm hds
    have hd := hds d (List.mem_cons_self d ds)
    have hpow : 10 ^ m ≤ 10 ^ 8 := Nat.pow_le_pow_right (by decide) hm
    have hprod : d * 10 ^ m < UINT_RANGE := by
      have : d * 10 ^ m ≤ 9 * 10 ^ 8 := Nat.mul_le_mul hd hpow
      simp only [UINT_RANGE]
      omega
    simp only [List.length_cons] at hlen
    rw [bcd_sum_cons, Nat.mod_eq_of_lt hprod, List.reverse_cons, Nat.ofDigits_append,
      Nat.ofDigits_singleton, List.length_reverse]
    cases m with
    | zero =>
      have hnil : ds = [] := List.eq_nil_of_length_eq_zero (by omega)
      subst hnil
      simp [bcd_sum_nil]
    | succ m =>
      have hdiv : 10 ^ (m + 1) / 10 = 10 ^ m := by
        rw [pow_succ]; exact Nat.mul_div_cancel _ (by decide)
      rw [hdiv, ih m (by omega) (by omega) (fun x hx => hds x (List.mem_cons_of_mem d hx))]
      have : ds.length = m + 1 := by omega
      rw [this]
      ring

/-- Claim C26, as the code has it. Every non-empty input of up to 19 groups that
`bcd_to_dec` accepts is the text of `k ≥ 1` digits from 1 to 9, four characters each, and
the result is the sum of the products of the digits with the weights `10 ^ (k - 1)`, ...,
`10 ^ 0`, the weight and each product being computed in `unsigned` (from 11 groups on
the first weight is the low 32 bits of the power, what the conversion to `unsigned`
leaves of it); for up to nine digits this is the decimal value of the digit sequence. -/
theorem bcd_to_dec_value (s : List Char) (hne : s ≠ []) (hk : s.length ≤ 76)
    (hacc : bcd_to_dec s ≠ -1) :
    ∃ ds : List ℕ, s = bcd_text ds ∧ 1 ≤ ds.length ∧ 4 * ds.length = s.length ∧
      (∀ d ∈ ds, 1 ≤ d ∧ d ≤ 9) ∧
      bcd_to_dec s = ((bcd_sum (10 ^ (ds.length - 1) % UINT_RANGE) ds : ℕ) : ℚ) ∧
      (ds.length ≤ 9 → bcd_to_dec s = ((Nat.ofDigits 10 ds.reverse : ℕ) : ℚ)) := by
  have hmod : s.length % 4 = 0 := by
    by_contra h
    apply hacc
    unfold bcd_to_dec
    simp only [ne_eq, h, not_false_eq_true, if_true]
  have hloop : bcd_to_dec s = bcd_to_dec_loop s (10 ^ (s.length / 4 - 1) % UINT_RANGE) 0 := by
    unfold bcd_to_dec
    simp only [ne_eq, hmod, not_true_eq_false, if_false]
    rw [unsigned_cast_pow_ten _ (by omega)]
  rw [hloop] at hacc
  obtain ⟨ds, hs, hlen, hds⟩ := bcd_to_dec_loop_nonneg (s.length / 4) s _ 0 (by omega) hacc
  have hpos : 0 < s.length := List.length_pos.mpr hne
  have hval : bcd_to_dec s = ((bcd_sum (10 ^ (ds.length - 1) % UINT_RANGE) ds : ℕ) : ℚ) := by
    rw [hloop, ← hlen]
    conv_lhs => rw [hs, bcd_to_dec_loop_text ds hds, zero_add]
  refine ⟨ds, hs, by omega, by omega, hds, hval, fun h9 => ?_⟩
  have hpow : 10 ^ (ds.length - 1) ≤ 10 ^ 8 := Nat.pow_le_pow_right (by decide) (by omega)
  have hsmall : 10 ^ (ds.length - 1) % UINT_RANGE = 10 ^ (ds.length - 1) := by
    apply Nat.mod_eq_of_lt
    simp only [UINT_RANGE]
    omega
  rw [hval, hsmall, bcd_sum_decimal ds (ds.length - 1) (by omega) (by omega)
    (fun d hd => (hds d hd).2)]

theorem bcd_to_dec_value_witness :
    ("000100100011".toList ≠ [] ∧ "000100100011".toList.length ≤ 76 ∧
      bcd_to_dec "000100100011".toList ≠ -1) ∧
    (∃ ds : List ℕ, "000100100011".toList = bcd_text ds ∧ 1 ≤ ds.length ∧
      4 * ds.length = "000100100011".toList.length ∧
      (∀ d ∈ ds, 1 ≤ d ∧ d ≤ 9) ∧
      bcd_to_dec "000100100011".toList =
        ((bcd_sum (10 ^ (ds.length - 1) % UINT_RANGE) ds : ℕ) : ℚ) ∧
      (ds.length ≤ 9 →
        bcd_to_dec "000100100011".toList = ((Nat.ofDigits 10 ds.reverse : ℕ) : ℚ))) ∧
    bcd_to_dec "000100100011".toList = 123 ∧ bcd_text [1, 2, 3] = "000100100011".toList :=
  ⟨by decide!, bcd_to_dec_value "000100100011".toList (by decide) (by decide) (by decide!),
    by decide!, by decide⟩

/-- Claim C26, counterexample. For 20 groups "0001" the weight `10 ^ 19` is beyond the
64-bit range and its conversion to `unsigned` gives 0: every product is 0 and
`bcd_to_dec` returns 0, which is neither the decimal value of the twenty digits nor the
sum of their products with weights computed in `unsigned` from `10 ^ 19` on. -/
theorem bcd_to_dec_twenty :
    unsigned_cast (powl 10 19) = 0 ∧
    bcd_to_dec (bcd_text (List.replicate 20 1)) = 0 ∧
    bcd_to_dec (bcd_text (List.replicate 20 1)) ≠ -1 ∧
    bcd_sum (10 ^ 19 % UINT_RANGE) (List.replicate 20 1) = 2570758822 ∧
    Nat.ofDigits 10 (List.replicate 20 1).reverse = 11111111111111111111 := by
  decide!

end Baco
